import Mathlib

/-!
Verification of the morningbriefing content pipeline
(`scripts/generate_briefing_data.py` and `scripts/update_briefing_post.py`)
against its natural-language specification.

Strings are modelled as `List Char`; Python string primitives (strip,
splitlines, replace, the specific regular expressions appearing in the two
scripts) are given executable shallow embeddings, and every pipeline function
mentioned by a claim is translated from the Python source.
-/

set_option maxRecDepth 8000

namespace MorningBriefing

/-- Strings are modelled as lists of characters. -/
abbrev L := List Char

/-- Coerce a Lean string literal to the `List Char` model. -/
def S (s : String) : L := s.data

/-- The whitespace code points recognised by Python `str.strip()` and by the
regex class `\s` on `str` patterns (ASCII whitespace plus the common Unicode
whitespace code points). -/
def pyWSChars : List Char :=
  [' ', '\t', '\n', '\r', '\x0b', '\x0c', '\x1c', '\x1d', '\x1e', '\x1f',
   '\x85', '\u00A0', '\u1680', '\u2000', '\u2001', '\u2002', '\u2003',
   '\u2004', '\u2005', '\u2006', '\u2007', '\u2008', '\u2009', '\u200A',
   '\u2028', '\u2029', '\u202F', '\u205F', '\u3000']

/-- Python whitespace test (`str.isspace` on a single character). -/
def isWS (c : Char) : Bool := pyWSChars.contains c

/-- `str.lstrip()` with no argument: drop leading whitespace. -/
def pyLStripWS (s : L) : L := s.dropWhile isWS

/-- `str.rstrip()` with no argument: drop trailing whitespace. -/
def pyRStripWS (s : L) : L := (s.reverse.dropWhile isWS).reverse

/-- `str.strip()` with no argument. -/
def pyStripWS (s : L) : L := pyRStripWS (pyLStripWS s)

/-- `str.lstrip(chars)`: drop leading characters drawn from the character SET
`cs` (Python treats the argument as a set of characters, not as a prefix). -/
def lstripSet (cs : List Char) (s : L) : L := s.dropWhile (fun c => cs.contains c)

/-- ASCII lower-casing, as `str.lower` behaves on the ASCII inputs used
throughout the pipeline. -/
def pyLower (s : L) : L := s.map Char.toLower

/-- Remove a literal prefix once if present (used to state the SPEC's reading
of "trimming a leading `/u/` marker", which differs from Python `lstrip`). -/
def dropLitOnce (pat s : L) : L := if pat.isPrefixOf s then s.drop pat.length else s

/-- Python substring test `needle in haystack`. -/
def hasSub (needle : L) : L → Bool
  | [] => needle.isEmpty
  | c :: rest => needle.isPrefixOf (c :: rest) || hasSub needle rest

/-! Embedding of `scripts/generate_briefing_data.py`. -/

/-- `_looks_like_official_account(author, subreddit)` translated from the
source: `a = (author or "").strip().lstrip("/u/").lower()` — note that
`lstrip("/u/")` strips the character set `{'/', 'u'}` — followed by the
author/subreddit tests in source order. -/
def looks_like_official_account (author subreddit : L) : Bool :=
  let a := pyLower (lstripSet ['/', 'u'] (pyStripWS author))
  let s := pyLower subreddit
  if a = [] then false
  else if a = S "automoderator" then true
  else if hasSub (S "official") a then true
  else if a = s ∨ a = s ++ S "_official" ∨ a = s ++ S "official" then true
  else false

/-- The author heuristic as the CLAIM words it: normalize the author by
trimming a leading `/u/` marker (a prefix, removed at most once) and
lower-casing; low-signal exactly when the normalized author equals
`automoderator`, contains `official`, or equals the subreddit name optionally
suffixed with `_official`/`official`. -/
def claimed_official_account (author subreddit : L) : Bool :=
  let a := pyLower (dropLitOnce (S "/u/") (pyStripWS author))
  let s := pyLower subreddit
  decide (a = S "automoderator") || hasSub (S "official") a ||
    decide (a = s ∨ a = s ++ S "_official" ∨ a = s ++ S "official")

/-- The author heuristic as AMENDED: same as the claim, except that the
normalization strips every leading `'/'` or `'u'` character (Python
`lstrip("/u/")` semantics, applied before lower-casing) and an author that
normalizes to the empty string is never low-signal. -/
def amended_official_account (author subreddit : L) : Bool :=
  let a := pyLower (lstripSet ['/', 'u'] (pyStripWS author))
  let s := pyLower subreddit
  (decide (a ≠ [])) &&
    (decide (a = S "automoderator") || hasSub (S "official") a ||
      decide (a = s ∨ a = s ++ S "_official" ∨ a = s ++ S "official"))

/-- `s.rsplit(" ", 1)[0]`: everything strictly before the LAST space of `s`,
or `s` itself when `s` contains no space. -/
def rsplitSpaceHead : L → L
  | [] => []
  | c :: rest =>
      if ' ' ∈ rest then c :: rsplitSpaceHead rest
      else if c = ' ' then []
      else c :: rest

/-- The excerpt truncation used by `fetch_hn_top_comments_algolia` and
`fetch_reddit_comments_rss`:
`if len(txt) > 520: txt = txt[:520].rsplit(" ", 1)[0] + "…"`. -/
def truncate_excerpt (txt : L) : L :=
  if 520 < txt.length then rsplitSpaceHead (txt.take 520) ++ ['…'] else txt

/-- The sixteen lowercase hex digits. -/
def hexDigitsLower : List Char := S "0123456789abcdef"

/-- Value of one lowercase hex digit (0 for any non-hex-digit character). -/
def hexVal (c : Char) : Nat := hexDigitsLower.indexOf c % 16

/-- Case-insensitive literal match: `pat` (given lowercase) consumed from the
head of the string, comparing lower-cased characters; returns the remainder. -/
def ciPrefixDrop : L → L → Option L
  | [], s => some s
  | _ :: _, [] => none
  | p :: ps, c :: cs => if Char.toLower c = p then ciPrefixDrop ps cs else none

/-- Index of the first case-insensitive occurrence of `pat`. -/
def findCI (pat : L) : L → Option Nat
  | [] => if pat = [] then some 0 else none
  | c :: rest =>
      if (ciPrefixDrop pat (c :: rest)).isSome then some 0
      else (findCI pat rest).map (· + 1)

/-- Generic left-to-right, non-overlapping regex substitution scanner
(`re.sub` with a constant replacement): at each position, if `tryMatch`
consumes a (nonempty) match, emit `repl` and continue after it, else emit the
character and move one position right.  The fuel argument bounds the number
of steps; every matcher used here consumes at least one character, so fuel
equal to the string length is always sufficient. -/
def subScanF (tryMatch : L → Option L) (repl : L) : Nat → L → L
  | 0, s => s
  | _, [] => []
  | fuel + 1, c :: rest =>
      match tryMatch (c :: rest) with
      | some r => repl ++ subScanF tryMatch repl fuel r
      | none => c :: subScanF tryMatch repl fuel rest

def subScan (tryMatch : L → Option L) (repl : L) (s : L) : L :=
  subScanF tryMatch repl s.length s

/-- Matcher for `(?is)<\s*(br|/p|/div|/li|/pre|/blockquote)\s*>` (the closing
`\s*>` tried after each alternative, in pattern order). -/
def tryCloseAfterAlt (r : L) : Option L :=
  match r.dropWhile isWS with
  | '>' :: r3 => some r3
  | _ => none

def tryAltsThenClose (alts : List L) (r : L) : Option L :=
  match alts with
  | [] => none
  | a :: rest =>
      match ciPrefixDrop a r with
      | some r2 =>
          match tryCloseAfterAlt r2 with
          | some r3 => some r3
          | none => tryAltsThenClose rest r
      | none => tryAltsThenClose rest r

def tryBlockClose : L → Option L
  | '<' :: rest =>
      tryAltsThenClose [S "br", S "/p", S "/div", S "/li", S "/pre", S "/blockquote"]
        (rest.dropWhile isWS)
  | _ => none

/-- Matcher for `(?is)<\s*(p|div|li|pre|blockquote)(\s+[^>]*)?>`: after the
tag name either `>` directly, or at least one whitespace character and then
everything up to the next `>`. -/
def tryOpenAfterName (r : L) : Option L :=
  match r with
  | '>' :: r3 => some r3
  | c :: _ =>
      if isWS c then
        match r.dropWhile (fun x => x ≠ '>') with
        | '>' :: r5 => some r5
        | _ => none
      else none
  | [] => none

def tryOpenAlts (alts : List L) (r : L) : Option L :=
  match alts with
  | [] => none
  | a :: rest =>
      match ciPrefixDrop a r with
      | some r2 =>
          match tryOpenAfterName r2 with
          | some r3 => some r3
          | none => tryOpenAlts rest r
      | none => tryOpenAlts rest r

def tryBlockOpen : L → Option L
  | '<' :: rest =>
      tryOpenAlts [S "p", S "div", S "li", S "pre", S "blockquote"]
        (rest.dropWhile isWS)
  | _ => none

/-- Matcher for `(?is)</?code[^>]*>`. -/
def tryCode : L → Option L
  | '<' :: rest =>
      let r1 := match rest with
        | '/' :: r => r
        | r => r
      match ciPrefixDrop (S "code") r1 with
      | some r2 =>
          (match r2.dropWhile (fun x => x ≠ '>') with
           | '>' :: r3 => some r3
           | _ => none)
      | none => none
  | _ => none

/-- Matcher for `(?is)<[^>]+>`. -/
def tryAnyTag : L → Option L
  | '<' :: rest =>
      let w := rest.takeWhile (fun x => x ≠ '>')
      if w = [] then none
      else
        match rest.drop w.length with
        | '>' :: r2 => some r2
        | _ => none
  | _ => none

/-! The HTML entity machinery of Python `html.unescape` (the stdlib primitive
used by `html_to_text`): numeric character references, and a named-entity
table restricted to the entities this development evaluates (the full HTML5
table has ~2200 entries; entries here follow the same exact-match-then-
longest-known-prefix lookup CPython applies, with the no-semicolon legacy
forms present exactly for entities that are legacy in HTML5). -/

def entityTable : List (L × L) :=
  [(S "amp;", S "&"), (S "amp", S "&"),
   (S "lt;", S "<"), (S "lt", S "<"),
   (S "gt;", S ">"), (S "gt", S ">"),
   (S "quot;", S "\x22"), (S "quot", S "\x22"),
   (S "apos;", S "\x27"),
   (S "nbsp;", S " "), (S "nbsp", S " "),
   (S "hellip;", S "…"),
   (S "mdash;", S "—"), (S "ndash;", S "–"),
   (S "lsquo;", S "‘"), (S "rsquo;", S "’"),
   (S "ldquo;", S "“"), (S "rdquo;", S "”"),
   (S "copy;", S "©"), (S "copy", S "©"),
   (S "reg;", S "®"), (S "reg", S "®"),
   (S "trade;", S "™"),
   (S "eacute;", S "é"), (S "eacute", S "é")]

def entityLookup (key : L) : Option L :=
  (entityTable.find? (fun kv => kv.1 = key)).map (·.2)

/-- The descending-prefix fallback of CPython `_replace_charref`: try
`s[:x]` for `x` from `len(s)-1` down to `2`. -/
def entityPrefixLookup : Nat → L → Option L
  | 0, _ => none
  | 1, _ => none
  | x + 1, s =>
      if x + 1 ≥ 2 then
        match entityLookup (s.take (x + 1)) with
        | some v => some (v ++ s.drop (x + 1))
        | none => entityPrefixLookup x s
      else none

def replaceCharrefNamed (s : L) : L :=
  match entityLookup s with
  | some v => v
  | none =>
      match entityPrefixLookup (s.length - 1) s with
      | some v => v
      | none => '&' :: s

/-- Windows-1252 remappings CPython applies to numeric references
(`_invalid_charrefs`). -/
def invalidCharrefRepl (n : Nat) : Option Char :=
  ((([(0x0d, '\r'), (0x80, '€'), (0x81, '\x81'), (0x82, '‚'), (0x83, 'ƒ'),
      (0x84, '„'), (0x85, '…'), (0x86, '†'), (0x87, '‡'), (0x88, 'ˆ'),
      (0x89, '‰'), (0x8a, 'Š'), (0x8b, '‹'), (0x8c, 'Œ'), (0x8d, '\x8d'),
      (0x8e, 'Ž'), (0x8f, '\x8f'), (0x90, '\x90'), (0x91, '‘'),
      (0x92, '’'), (0x93, '“'), (0x94, '”'), (0x95, '•'), (0x96, '–'),
      (0x97, '—'), (0x98, '˜'), (0x99, '™'), (0x9a, 'š'), (0x9b, '›'),
      (0x9c, 'œ'), (0x9d, '\x9d'), (0x9e, 'ž'), (0x9f, 'Ÿ')] :
    List (Nat × Char)).find? (fun kv => kv.1 = n))).map (·.2)

/-- Code points CPython maps to the empty string (`_invalid_codepoints`:
control characters and non-characters). -/
def isInvalidCodepoint (n : Nat) : Bool :=
  (1 ≤ n && n ≤ 8) || n = 0xb || (0xe ≤ n && n ≤ 0x1f) || (0x7f ≤ n && n ≤ 0x9f) ||
    (0xfdd0 ≤ n && n ≤ 0xfdef) || (n % 0x10000 = 0xfffe) || (n % 0x10000 = 0xffff)

def decDigitsNat (s : L) : Nat := s.foldl (fun a c => a * 10 + (c.toNat - 48)) 0

def hexDigitsNat (s : L) : Nat := s.foldl (fun a c => a * 16 + hexVal (Char.toLower c)) 0

def isHexDigitChar (c : Char) : Bool := hexDigitsLower.contains (Char.toLower c)

def numericCharref (n : Nat) : L :=
  match invalidCharrefRepl n with
  | some c => [c]
  | none =>
      if n = 0 ∨ (0xD800 ≤ n ∧ n ≤ 0xDFFF) ∨ 0x10FFFF < n then ['�']
      else if isInvalidCodepoint n then []
      else [Char.ofNat n]

/-- Characters allowed in a named character reference by the scanner regex
`[^\t\n\f <&#;]{1,32}`. -/
def charrefNameChar (c : Char) : Bool :=
  !(c = '\t' || c = '\n' || c = '\x0c' || c = ' ' || c = '<' || c = '&' ||
    c = '#' || c = ';')

/-- One character-reference attempt right after a `&`: returns the
replacement text and the remainder after the consumed reference. -/
def tryCharref (rest : L) : Option (L × L) :=
  match rest with
  | '#' :: r2 =>
      (match r2 with
       | x :: r3 =>
           if x = 'x' ∨ x = 'X' then
             let ds := r3.takeWhile isHexDigitChar
             if ds = [] then none
             else
               let r4 := r3.drop ds.length
               let r5 := match r4 with
                 | ';' :: r => r
                 | r => r
               some (numericCharref (hexDigitsNat ds), r5)
           else
             let ds := r2.takeWhile Char.isDigit
             if ds = [] then none
             else
               let r4 := r2.drop ds.length
               let r5 := match r4 with
                 | ';' :: r => r
                 | r => r
               some (numericCharref (decDigitsNat ds), r5)
       | [] => none)
  | _ =>
      let name := (rest.takeWhile charrefNameChar).take 32
      if name = [] then none
      else
        match rest.drop name.length with
        | ';' :: r2 => some (replaceCharrefNamed (name ++ [';']), r2)
        | r2 => some (replaceCharrefNamed name, r2)

/-- `html.unescape` (stdlib): replace `&...` character references
left-to-right. -/
def unescapeF : Nat → L → L
  | 0, s => s
  | _, [] => []
  | fuel + 1, c :: rest =>
      if c = '&' then
        match tryCharref rest with
        | some (repl, r2) => repl ++ unescapeF fuel r2
        | none => '&' :: unescapeF fuel rest
      else c :: unescapeF fuel rest

def pyUnescape (s : L) : L := unescapeF s.length s

/-- Parse `['\"]([^'\"]+)['\"]` after `href=`. -/
def parseHrefValue (r : L) : Option (L × L) :=
  match r with
  | q :: r2 =>
      if q = '\x27' ∨ q = '\x22' then
        let v := r2.takeWhile (fun c => !(c = '\x27' || c = '\x22'))
        if v = [] then none
        else
          match r2.drop v.length with
          | q2 :: r3 => if q2 = '\x27' ∨ q2 = '\x22' then some (v, r3) else none
          | [] => none
      else none
  | [] => none

/-- One `href=` candidate at offset `j` of the text after `<a`: the quoted
value, then `[^>]*>`, then the lazy body up to the first (case-insensitive)
`</a>`.  Returns `(href, body, remainder)`. -/
def tryHrefAt (rest : L) (j : Nat) : Option (L × L × L) :=
  match ciPrefixDrop (S "href=") (rest.drop j) with
  | some r1 =>
      match parseHrefValue r1 with
      | some (v, r2) =>
          (match r2.dropWhile (fun x => x ≠ '>') with
           | '>' :: r3 =>
               (match findCI (S "</a>") r3 with
                | some t => some (v, r3.take t, r3.drop (t + 4))
                | none => none)
           | _ => none)
      | none => none
  | none => none

/-- The backtracking of the greedy `[^>]*` before `href=`: the largest offset
whose candidate succeeds wins. -/
def findLastHrefLe : Nat → L → Option (L × L × L)
  | 0, rest => tryHrefAt rest 0
  | k + 1, rest =>
      match tryHrefAt rest (k + 1) with
      | some x => some x
      | none => findLastHrefLe k rest

/-- Matcher for `(?is)<a\s+[^>]*href=['\"]([^'\"]+)['\"][^>]*>(.*?)</a>`. -/
def tryATag : L → Option (L × L × L)
  | '<' :: c :: rest =>
      if Char.toLower c = 'a' then
        match rest with
        | r0 :: _ =>
            if isWS r0 then
              let span := rest.takeWhile (fun x => x ≠ '>')
              if 5 ≤ span.length then findLastHrefLe (span.length - 5) rest
              else none
            else none
        | [] => none
      else none
  | _ => none

/-- The `_a` replacement function of `html_to_text`: strip tags from the
anchor body, unescape and trim both parts, and render `text (href)` unless
the href already occurs in the text. -/
def aRepl (href text : L) : L :=
  let text1 := subScan tryAnyTag [] text
  let text2 := pyStripWS (pyUnescape text1)
  let href2 := pyStripWS (pyUnescape href)
  if href2 ≠ [] ∧ text2 ≠ [] ∧ hasSub href2 text2 = false then
    text2 ++ S " (" ++ href2 ++ S ")"
  else if text2 ≠ [] then text2 else href2

/-- `re.sub` with the `_a` function replacement. -/
def subAScanF : Nat → L → L
  | 0, s => s
  | _, [] => []
  | fuel + 1, c :: rest =>
      match tryATag (c :: rest) with
      | some (href, text, r) => aRepl href text ++ subAScanF fuel r
      | none => c :: subAScanF fuel rest

def subAScan (s : L) : L := subAScanF s.length s

/-- The horizontal-whitespace class `[ \t\f\v]` of the final two
substitutions. -/
def isHWS4 (c : Char) : Bool := c = ' ' || c = '\t' || c = '\x0c' || c = '\x0b'

/-- Matcher for `[ \t\f\v]+`. -/
def tryHWSRun : L → Option L
  | c :: rest => if isHWS4 c then some (rest.dropWhile isHWS4) else none
  | [] => none

/-- Scanner for `\n[ \t\f\v]*\n+` replaced by a blank line. -/
def collapseBlankF : Nat → L → L
  | 0, s => s
  | _, [] => []
  | fuel + 1, c :: rest =>
      if c = '\n' then
        let k := (rest.takeWhile isHWS4).length
        let r2 := rest.drop k
        let m := (r2.takeWhile (fun x => x = '\n')).length
        if 1 ≤ m then '\n' :: '\n' :: collapseBlankF fuel (r2.drop m)
        else '\n' :: collapseBlankF fuel rest
      else c :: collapseBlankF fuel rest

def collapseBlank (s : L) : L := collapseBlankF s.length s

/-- `html_to_text(s)` translated from the source: unescape entities,
normalize block-level tags to newlines, rewrite anchors, strip `code` tags
and all remaining tags, drop carriage returns, collapse blank-line runs and
horizontal whitespace, and trim. -/
def html_to_text (s : L) : L :=
  if s = [] then []
  else
    let s1 := pyUnescape s
    let s2 := subScan tryBlockClose (S "\n") s1
    let s3 := subScan tryBlockOpen (S "\n") s2
    let s4 := subAScan s3
    let s5 := subScan tryCode [] s4
    let s6 := subScan tryAnyTag [] s5
    let s7 := s6.filter (fun c => c ≠ '\r')
    let s8 := collapseBlank s7
    let s9 := subScan tryHWSRun (S " ") s8
    pyStripWS s9

/-- Python string comparison `a < b`: lexicographic on code points. -/
def strLt : L → L → Bool
  | [], [] => false
  | [], _ :: _ => true
  | _ :: _, [] => false
  | a :: s, b :: t => if a = b then strLt s t else decide (a < b)

/-- Stable insertion of `a` into an already sorted list: `a` is placed before
the first element not strictly below it, so elements with equal keys keep
their original relative order (Python `sorted` is stable). -/
def insertStable (lt : α → α → Bool) (x : α) : List α → List α
  | [] => [x]
  | y :: ys => if lt y x then y :: insertStable lt x ys else x :: y :: ys

/-- Stable sort with strict comparison `lt` (the order produced by Python
`sorted` for a key whose comparison is `lt`). -/
def pySorted (lt : α → α → Bool) : List α → List α
  | [] => []
  | a :: l => insertStable lt a (pySorted lt l)

/-- `_save_antibubble_history(urls)` stores `urls[-500:]` (the last 500). -/
def save_antibubble_history (urls : List L) : List L :=
  urls.drop (urls.length - 500)

/-- Model of the JSON history file read by `_load_antibubble_history`:
the file may be missing, unreadable/corrupt (any exception while reading or
parsing), parsed JSON that is not a list, or a JSON list whose elements'
`str()` forms are the given strings. -/
inductive HistFile : Type
  | missing : HistFile
  | corrupt : HistFile
  | notAList : HistFile
  | jsonList (elems : List L) : HistFile

/-- `_load_antibubble_history(max_items)` translated from the source: a JSON
list loads as its last `max_items` elements; every other file state loads as
the empty history. -/
def load_antibubble_history (f : HistFile) (max_items : Nat) : List L :=
  match f with
  | .jsonList xs => xs.drop (xs.length - max_items)
  | _ => []

/-- The `AntiBubbleSource` dataclass. -/
structure AntiBubbleSource where
  name : L
  rss_url : L
  homepage : L
deriving DecidableEq

/-- The curated `ANTI_BUBBLE_SOURCES` pool, in source order. -/
def ANTI_BUBBLE_SOURCES : List AntiBubbleSource :=
  [⟨S "Aeon", S "https://aeon.co/feed", S "https://aeon.co"⟩,
   ⟨S "Arts & Letters Daily", S "https://www.aldaily.com/rss.xml", S "https://www.aldaily.com"⟩,
   ⟨S "Nautilus", S "https://nautil.us/feed/", S "https://nautil.us"⟩,
   ⟨S "Quanta Magazine", S "https://www.quantamagazine.org/feed/", S "https://www.quantamagazine.org"⟩,
   ⟨S "Smithsonian", S "https://www.smithsonianmag.com/rss/latest_articles/", S "https://www.smithsonianmag.com"⟩,
   ⟨S "The Conversation", S "https://theconversation.com/us/articles.atom", S "https://theconversation.com"⟩,
   ⟨S "The Marginalian", S "https://www.themarginalian.org/feed/", S "https://www.themarginalian.org"⟩,
   ⟨S "BBC Future", S "https://feeds.bbci.co.uk/news/science_and_environment/rss.xml", S "https://www.bbc.com"⟩,
   ⟨S "JSTOR Daily", S "https://daily.jstor.org/feed/", S "https://daily.jstor.org"⟩,
   ⟨S "Longreads", S "https://longreads.com/feed/", S "https://longreads.com"⟩]

/-- The sort key of `_stable_shuffle`: the hex digest of
`seed + "|" + it.rss_url`.  The digest function `H` is a parameter of the
embedding, standing for the external library primitive
`hashlib.sha256(x.encode("utf-8")).hexdigest()` (a 64-character lowercase-hex
string in reality; theorems needing that state it as a hypothesis on `H`). -/
def shuffleKey (H : L → L) (seed : L) (it : AntiBubbleSource) : L :=
  H (seed ++ S "|" ++ it.rss_url)

/-- `_stable_shuffle(items, seed)`: Python `sorted` (a stable sort, ascending)
by the hex-digest key. -/
def stable_shuffle (H : L → L) (items : List AntiBubbleSource) (seed : L) :
    List AntiBubbleSource :=
  pySorted (fun x y => strLt (shuffleKey H seed x) (shuffleKey H seed y)) items

/-- Numeric value of a hex string (most significant digit first). -/
def hexNat : L → Nat
  | [] => 0
  | c :: s => hexVal c * 16 ^ s.length + hexNat s

/-- `domain_of(url)`: `urlparse(url).netloc.lower()`.  The netloc is the part
between a leading `//` (after an optional `scheme:` whose name is one alpha
character followed by alphanumerics, `+`, `-` or `.`) and the next `/`, `?`
or `#`; a URL without a network location yields the empty string. -/
def isSchemeTailChar (c : Char) : Bool := c.isAlphanum || c = '+' || c = '-' || c = '.'

def afterScheme (url : L) : L :=
  let pre := url.takeWhile (fun c => c ≠ ':')
  match pre with
  | [] => url
  | c :: cs =>
      if pre.length < url.length ∧ c.isAlpha ∧ cs.all isSchemeTailChar then
        url.drop (pre.length + 1)
      else url

def isNetlocEnd (c : Char) : Bool := c = '/' || c = '?' || c = '#'

def domain_of (url : L) : L :=
  let rest := afterScheme url
  if (S "//").isPrefixOf rest then
    pyLower ((rest.drop 2).takeWhile (fun c => !isNetlocEnd c))
  else []

/-- One parsed feed entry as `_fetch_rss_entries` yields it. -/
structure RssEntry where
  title : L
  link : L
deriving DecidableEq

/-- Result of fetching and XML-parsing one feed URL: a non-200 status or a
parse error (both of which make `_fetch_rss_entries` return the empty list),
or the parsed entries in feed order. -/
inductive FeedResult : Type
  | failed : FeedResult
  | parsed (entries : List RssEntry) : FeedResult

/-- The ambient world of one `pick_antibubble_items` run: the feed fetch
outcome per RSS url, the network-dependent part of
`_url_fetch_seems_accessible` (HTTP status / content-type / paywall-cue body
checks on the fetched article HTML), and the history file. -/
structure AntiEnv where
  feed : L → FeedResult
  accessible : L → Bool
  histFile : HistFile

/-- `_fetch_rss_entries(rss_url, limit)`: empty on failure, else the first
`limit` parsed entries. -/
def fetch_rss_entries (env : AntiEnv) (rss_url : L) (limit : Nat) : List RssEntry :=
  match env.feed rss_url with
  | .failed => []
  | .parsed es => es.take limit

/-- `_url_fetch_seems_accessible(url)`: false for an empty URL or one not
starting with `http`; otherwise the outcome of the network-dependent
paywall/fetch heuristic. -/
def url_fetch_seems_accessible (env : AntiEnv) (url : L) : Bool :=
  if url = [] ∨ ¬(S "http").isPrefixOf url then false
  else env.accessible url

/-- One selected anti-bubble pick. -/
structure Pick where
  source : L
  title : L
  link : L
  domain : L
deriving DecidableEq

/-- The inner `for ent in _fetch_rss_entries(...)` loop of
`pick_antibubble_items`: scan the entries of one source in feed order and
return the first accepted candidate (non-empty stripped title and link, link
not in the loaded history, non-empty domain, accessible), if any. -/
def firstPick (env : AntiEnv) (hist : List L) (src : AntiBubbleSource) :
    List RssEntry → Option Pick
  | [] => none
  | e :: rest =>
      let title := pyStripWS e.title
      let link := pyStripWS e.link
      if title = [] ∨ link = [] then firstPick env hist src rest
      else if link ∈ hist then firstPick env hist src rest
      else
        let dom := domain_of link
        if dom = [] then firstPick env hist src rest
        else if url_fetch_seems_accessible env link = false then firstPick env hist src rest
        else some ⟨src.name, title, link, dom⟩

/-- `used_domains.add(dom)` on the set modelled as a duplicate-free list
(membership and cardinality agree with the Python set). -/
def addDomain (used : List L) (d : L) : List L :=
  if d ∈ used then used else used ++ [d]

/-- The outer `for src in ordered_sources` loop of `pick_antibubble_items`:
stop once `n` picks and `min_domains` distinct domains are reached, otherwise
take at most one accepted candidate per source. -/
def pickLoop (env : AntiEnv) (hist : List L) (n min_domains : Nat) :
    List AntiBubbleSource → List Pick → List L → List Pick
  | [], picks, _ => picks
  | src :: rest, picks, used =>
      if n ≤ picks.length ∧ min_domains ≤ used.length then picks
      else
        match firstPick env hist src (fetch_rss_entries env src.rss_url 15) with
        | none => pickLoop env hist n min_domains rest picks used
        | some p => pickLoop env hist n min_domains rest (picks ++ [p]) (addDomain used p.domain)

/-- A UTC calendar date. -/
structure PyDate where
  year : Nat
  month : Nat
  day : Nat
deriving DecidableEq

/-- A UTC timestamp as `pick_antibubble_items` consumes it: only the calendar
date feeds the seed; the time of day is carried to express that the seed does
not depend on it. -/
structure PyDateTime where
  date : PyDate
  secondsOfDay : Nat
deriving DecidableEq

/-- Left-pad with zeros to the given width. -/
def zfill (w : Nat) (s : L) : L := List.replicate (w - s.length) '0' ++ s

/-- `date.isoformat()`: `YYYY-MM-DD`. -/
def isoDate (d : PyDate) : L :=
  zfill 4 (Nat.toDigits 10 d.year) ++ S "-" ++ zfill 2 (Nat.toDigits 10 d.month) ++
    S "-" ++ zfill 2 (Nat.toDigits 10 d.day)

/-- `pick_antibubble_items(now_utc, n, min_domains)` translated from the
source: seed the rotation with the ISO date, stable-shuffle the curated pool,
load the capped history, greedily take at most one fresh accessible candidate
per source until the pick count and domain-diversity targets are both met,
and truncate to `n`.  (The history write-back is covered by the separate
save/load embedding.) -/
def pick_antibubble_items (H : L → L) (env : AntiEnv) (now_utc : PyDateTime)
    (n min_domains : Nat) : List Pick :=
  let seed := isoDate now_utc.date
  let ordered := stable_shuffle H ANTI_BUBBLE_SOURCES seed
  let history := load_antibubble_history env.histFile 300
  (pickLoop env history n min_domains ordered [] []).take n

/-- Python string truthiness choice `a or b`. -/
def orElseEmpty (a b : L) : L := if a = [] then b else a

/-- Python `s.replace(old, new)` (left-to-right, non-overlapping); the fuel
equals the string length, which suffices because a nonempty `old` consumes at
least one character per replacement. -/
def replaceAllF (old new : L) : Nat → L → L
  | 0, s => s
  | _, [] => []
  | fuel + 1, c :: rest =>
      if old ≠ [] ∧ old.isPrefixOf (c :: rest) then
        new ++ replaceAllF old new fuel ((c :: rest).drop old.length)
      else c :: replaceAllF old new fuel rest

def replaceAll (old new s : L) : L :=
  if old = [] then new ++ (s.map (fun c => c :: new)).flatten
  else replaceAllF old new s.length s

/-- `str.rstrip(chars)` with a character set. -/
def rstripSet (cs : List Char) (s : L) : L :=
  (s.reverse.dropWhile (fun c => cs.contains c)).reverse

/-- Decimal rendering of a natural number. -/
def natToStr (n : Nat) : L := Nat.toDigits 10 n

/-- `datetime.isoformat()` for a UTC timestamp with whole seconds. -/
def isoDateTime (t : PyDateTime) : L :=
  isoDate t.date ++ S "T" ++ zfill 2 (natToStr (t.secondsOfDay / 3600)) ++ S ":" ++
    zfill 2 (natToStr (t.secondsOfDay % 3600 / 60)) ++ S ":" ++
    zfill 2 (natToStr (t.secondsOfDay % 60)) ++ S "+00:00"

/-! The Hacker News / Reddit / Readwise side of `generate_briefing_data.py`
and its orchestrating `main`. -/

/-- The JSON fields of one HN item that `fetch_hn_top` reads. -/
structure HNItemData where
  title : Option L
  url : Option L
  score : Option Int
  descendants : Option Int
  text : Option L
  itemType : Option L
deriving DecidableEq

/-- One hit of the Algolia comment search. -/
structure AlgoliaHit where
  author : Option L
  comment_text : Option L
  deleted : Bool
  objectID : L
deriving DecidableEq

/-- One comment record produced by `fetch_hn_top_comments_algolia`. -/
structure HNComment where
  author : L
  excerpt : L
  comment_id : L
  link : L
deriving DecidableEq

/-- One output item of `fetch_hn_top` (with the `top_comments` enrichment
`main` attaches). -/
structure HNItemOut where
  id : Nat
  title : Option L
  url : Option L
  domain : L
  score : Option Int
  comments : Option Int
  hn_link : L
  post_text : L
  itemType : Option L
  top_comments : List HNComment
deriving DecidableEq

/-- The raw fields extracted from one Reddit Atom `<entry>` (before the
stripping and normalization the script applies). -/
structure RedditRawEntry where
  title : L
  link : L
  author : L
  content : Option L
  summary : Option L
deriving DecidableEq

/-- Outcome of fetching and XML-parsing one subreddit feed. -/
inductive RedditFetch : Type
  | badStatus (st : Nat) : RedditFetch
  | parseError (msg : L) : RedditFetch
  | parsed (raw : List RedditRawEntry) : RedditFetch

/-- One comment record produced by `fetch_reddit_comments_rss`. -/
structure RedditComment where
  author : L
  excerpt : L
  link : L
deriving DecidableEq

/-- One filtered entry of a subreddit envelope (with the `top_comments`
enrichment `main` attaches; `none` models Python `None`). -/
structure RedditEntryOut where
  title : L
  link : L
  author : L
  post_text : L
  top_comments : Option (List RedditComment)
deriving DecidableEq

/-- The per-subreddit result envelope of `fetch_reddit_sub_rss`. -/
structure RedditResult where
  subreddit : L
  status : Nat
  error : Option L
  entries : List RedditEntryOut
  fetched : Option Nat
deriving DecidableEq

/-- The raw fields of one entry of a Reddit post's comment feed. -/
structure RedditCommentRaw where
  author : L
  link : L
  content : L
deriving DecidableEq

/-- Outcome of fetching one Reddit comment feed. -/
inductive CommentsFetch : Type
  | failed : CommentsFetch
  | parsed (raw : List RedditCommentRaw) : CommentsFetch

/-- One raw Readwise highlight as returned by the API. -/
structure RawHighlight where
  text : Option L
  tags : List (Option L)
  book_title : Option L
  title : Option L
  book_author : Option L
  author : Option L
  source : Option L
  url : Option L
  highlighted_at : Option L
deriving DecidableEq

/-- One normalized highlight of the Readwise result. -/
structure Highlight where
  text : L
  tags : List L
  title : L
  author : L
  source : L
  url : L
  highlighted_at : L
deriving DecidableEq

/-- The Readwise result envelope. -/
structure ReadwiseResult where
  status : L
  highlights : List Highlight
  since : Option L
deriving DecidableEq

/-- The world of one `generate_briefing_data.main` run.  Network and
filesystem observations are functions of the request; JSON and XML parsing
are modelled by `Option`/sum results (`none` standing for content whose
parse raises).  `readwisePage` maps a page URL to the HTTP status and, on
200, the parse outcome (results plus optional next-page URL). -/
structure GenEnv where
  hnTopStatus : Nat
  hnTopBody : Option (List Nat)
  hnItem : Nat → Nat × Option HNItemData
  algolia : Nat → Option (List AlgoliaHit)
  reddit : L → RedditFetch
  redditComments : L → CommentsFetch
  anti : AntiEnv
  readwiseTokenFile : Option L
  readwiseSince : L
  readwiseSinceQuoted : L
  readwisePage : L → Nat × Option (List RawHighlight × Option L)

/-- The inner item loop of `fetch_hn_top`: skip non-200 items, raise on
malformed item JSON, otherwise normalize the fields. -/
def hnItemsLoop (env : GenEnv) : List Nat → Except L (List HNItemOut)
  | [] => .ok []
  | iid :: rest =>
      let r := env.hnItem iid
      if r.1 ≠ 200 then hnItemsLoop env rest
      else
        match r.2 with
        | none => .error (S "invalid JSON in HN item response")
        | some it =>
            let text := html_to_text (it.text.getD [])
            let dom := match it.url with
              | some u => if u = [] then S "news.ycombinator.com" else domain_of u
              | none => S "news.ycombinator.com"
            match hnItemsLoop env rest with
            | .error e => .error e
            | .ok out =>
                .ok (⟨iid, it.title, it.url, dom, it.score, it.descendants,
                  S "https://news.ycombinator.com/item?id=" ++ natToStr iid,
                  text, it.itemType, []⟩ :: out)

/-- `fetch_hn_top(n)` translated from the source: a non-200 top-stories
response raises `RuntimeError(f"HN topstories failed: {st}")`; malformed
top-stories JSON raises; per-item failures are skipped. -/
def fetch_hn_top (env : GenEnv) (n : Nat) : Except L (List HNItemOut) :=
  if env.hnTopStatus ≠ 200 then
    .error (S "HN topstories failed: " ++ natToStr env.hnTopStatus)
  else
    match env.hnTopBody with
    | none => .error (S "invalid JSON in topstories response")
    | some ids => hnItemsLoop env (ids.take n)

/-- The hit loop of `fetch_hn_top_comments_algolia`. -/
def algoliaLoop (n : Nat) : List AlgoliaHit → List HNComment → List HNComment
  | [], out => out
  | h :: rest, out =>
      if n ≤ out.length then out
      else
        match h.author, h.comment_text with
        | some a, some ct =>
            if a ≠ [] ∧ ct ≠ [] ∧ h.deleted = false then
              let txt := pyStripWS (replaceAll (S "\n\n") (S " ") (html_to_text ct))
              let txt := truncate_excerpt txt
              let out2 := out ++
                [⟨a, txt, h.objectID,
                  S "https://news.ycombinator.com/item?id=" ++ h.objectID⟩]
              if n ≤ out2.length then out2 else algoliaLoop n rest out2
            else algoliaLoop n rest out
        | _, _ => algoliaLoop n rest out

/-- `fetch_hn_top_comments_algolia(item_id, n)`: every failure (non-200,
parse error, transport) degrades to the empty list; otherwise filter and
truncate the hits. -/
def fetch_hn_top_comments_algolia (env : GenEnv) (item_id : Nat) (n : Nat) :
    List HNComment :=
  match env.algolia item_id with
  | none => []
  | some hits => algoliaLoop n hits []

/-- The filter loop of `fetch_reddit_sub_rss`: drop entries with empty title
or link, deduplicate by link (recording the link before the heuristics run),
drop recurring-thread titles and official-looking authors, and stop once
`desired` entries are kept. -/
def isWordChar (c : Char) : Bool := c.isAlphanum || c = '_'

/-- Occurrence of the (lowercase) word `w` at index `i` of `s` with `\b` on
both sides. -/
def isWordOccurrence (w : L) (s : L) (i : Nat) : Bool :=
  w.isPrefixOf (s.drop i) &&
    (decide (i = 0) || !isWordChar (s.getD (i - 1) ' ')) &&
    (decide (s.length ≤ i + w.length) || !isWordChar (s.getD (i + w.length) ' '))

def containsWord (w : L) (s : L) : Bool :=
  (List.range (s.length + 1)).any (fun i => isWordOccurrence w s i)

/-- The first alternative of `REDDIT_RECURRING_TITLE_RE`: a cadence word
followed (with no intervening newline, regex `.`) by a thread keyword, both
as whole words. -/
def cadenceThreadPair (s : L) : Bool :=
  (List.range (s.length + 1)).any (fun i =>
    ([S "weekly", S "monthly", S "daily"]).any (fun w =>
      isWordOccurrence w s i &&
        (List.range (s.length + 1)).any (fun j =>
          decide (i + w.length ≤ j) &&
            ((s.drop (i + w.length)).take (j - (i + w.length))).all (fun c => c ≠ '\n') &&
            ([S "thread", S "discussion", S "check-in", S "check in", S "checkin"]).any
              (fun k => isWordOccurrence k s j))))

/-- `REDDIT_RECURRING_TITLE_RE.search(title)` (the pattern is
case-insensitive, so the title is lowered first). -/
def recurring_title_match (title : L) : Bool :=
  let s := pyLower title
  cadenceThreadPair s ||
    containsWord (S "discussion thread") s ||
    containsWord (S "open thread") s ||
    containsWord (S "reminder") s ||
    containsWord (S "rule") s ||
    containsWord (S "advertising") s ||
    containsWord (S "advertisement") s ||
    containsWord (S "ama") s ||
    containsWord (S "community update") s

def redditFilterLoop (sub : L) (desired : Nat) :
    List RedditEntryOut → List L → List RedditEntryOut → List RedditEntryOut
  | [], _, acc => acc
  | ent :: rest, seen, acc =>
      if ent.title = [] ∨ ent.link = [] then redditFilterLoop sub desired rest seen acc
      else if ent.link ∈ seen then redditFilterLoop sub desired rest seen acc
      else
        let seen2 := seen ++ [ent.link]
        if recurring_title_match ent.title then redditFilterLoop sub desired rest seen2 acc
        else if looks_like_official_account ent.author sub then
          redditFilterLoop sub desired rest seen2 acc
        else
          let acc2 := acc ++ [ent]
          if desired ≤ acc2.length then acc2
          else redditFilterLoop sub desired rest seen2 acc2

/-- `fetch_reddit_sub_rss(sub, desired, max_fetch)` translated from the
source: non-200 and XML parse failures return an error envelope (no
exception); otherwise over-fetch, normalize, filter. -/
def fetch_reddit_sub_rss (env : GenEnv) (sub : L) (desired max_fetch : Nat) :
    RedditResult :=
  match env.reddit sub with
  | .badStatus st => ⟨sub, st, some (S "HTTP " ++ natToStr st), [], none⟩
  | .parseError msg => ⟨sub, 200, some (S "parse_error: " ++ msg), [], none⟩
  | .parsed raw =>
      let rawe := (raw.take max_fetch).map (fun e =>
        (⟨pyStripWS e.title, pyStripWS e.link, pyStripWS e.author,
          html_to_text (orElseEmpty (e.content.getD []) (e.summary.getD [])), none⟩ :
          RedditEntryOut))
      ⟨sub, 200, none, redditFilterLoop sub desired rawe [] [], some rawe.length⟩

/-- The comment loop of `fetch_reddit_comments_rss`. -/
def redditCommentsLoop (comments_url : L) (n : Nat) :
    List RedditCommentRaw → List RedditComment → List RedditComment
  | [], out => out
  | e :: rest, out =>
      if n ≤ out.length then out
      else
        let author := pyStripWS e.author
        let link := pyStripWS e.link
        let txt := pyStripWS (replaceAll (S "\n\n") (S " ") (html_to_text e.content))
        if txt = [] then redditCommentsLoop comments_url n rest out
        else
          let txt := truncate_excerpt txt
          let out2 := out ++ [⟨author, txt, if link = [] then comments_url else link⟩]
          if n ≤ out2.length then out2 else redditCommentsLoop comments_url n rest out2

/-- `fetch_reddit_comments_rss(post_url, n)`: `None` for a non-Reddit URL or
any fetch/parse failure; otherwise up to `n` nonempty normalized comments. -/
def fetch_reddit_comments_rss (env : GenEnv) (post_url : L) (n : Nat) :
    Option (List RedditComment) :=
  if post_url = [] ∨ hasSub (S "reddit.com") post_url = false then none
  else
    let comments_url0 := rstripSet ['/'] post_url
    let comments_url :=
      if (S ".rss").isSuffixOf comments_url0 then comments_url0
      else comments_url0 ++ S ".rss"
    match env.redditComments comments_url with
    | .failed => none
    | .parsed raw => some (redditCommentsLoop comments_url n raw [])

/-- Normalization of one raw Readwise highlight. -/
def normalizeHighlight (r : RawHighlight) : Highlight :=
  ⟨pyStripWS (r.text.getD []),
   (r.tags.filterMap id).filter (fun t => t ≠ []),
   orElseEmpty (r.book_title.getD []) (r.title.getD []),
   orElseEmpty (r.book_author.getD []) (r.author.getD []),
   r.source.getD [], r.url.getD [], r.highlighted_at.getD []⟩

/-- Outcome of the Readwise pagination loop: an exception (malformed JSON), a
non-200 page (returning the highlights gathered so far), or normal
completion. -/
inductive RwLoopOut : Type
  | raised (msg : L) : RwLoopOut
  | httpFail (st : Nat) (acc : List Highlight) : RwLoopOut
  | done (acc : List Highlight) : RwLoopOut

/-- The pagination loop of `fetch_readwise_recent` (`page <= 50` bounds the
iteration count, so fuel 50 is exact). -/
def readwiseLoop (env : GenEnv) (max_highlights : Nat) :
    Nat → Option L → List Highlight → RwLoopOut
  | 0, _, acc => .done acc
  | _ + 1, none, acc => .done acc
  | fuel + 1, some url, acc =>
      if max_highlights ≤ acc.length then .done acc
      else
        let r := env.readwisePage url
        if r.1 ≠ 200 then .httpFail r.1 acc
        else
          match r.2 with
          | none => .raised (S "invalid JSON in Readwise response")
          | some (results, next) =>
              readwiseLoop env max_highlights fuel next
                ((acc ++ results.map normalizeHighlight).take max_highlights)

/-- `fetch_readwise_recent()` translated from the source: a missing or empty
token file yields a skip-status envelope, a non-200 page yields an
`http_<st>` status envelope with the highlights gathered so far, and
malformed page JSON raises.  (The 90-day `since` computation and its URL
quoting are stdlib datetime/urllib primitives, carried by the environment:
`readwiseSince` is the ISO string placed in the result, `readwiseSinceQuoted`
its percent-encoded form placed in the request URL.) -/
def fetch_readwise_recent (env : GenEnv) (max_highlights : Nat) :
    Except L ReadwiseResult :=
  match env.readwiseTokenFile with
  | none => .ok ⟨S "no_token", [], none⟩
  | some rawToken =>
      if pyStripWS rawToken = [] then .ok ⟨S "empty_token", [], none⟩
      else
        let url0 := S "https://readwise.io/api/v2/highlights/?page_size=100&updated__gt=" ++
          env.readwiseSinceQuoted
        match readwiseLoop env max_highlights 50 (some url0) [] with
        | .raised e => .error e
        | .httpFail st acc => .ok ⟨S "http_" ++ natToStr st, acc, none⟩
        | .done hs => .ok ⟨S "ok", hs, some env.readwiseSince⟩

/-- The five configured subreddits of `main`. -/
def SUBS : List L :=
  [S "Biohackers", S "blueprint_", S "productivity", S "whoop", S "slatestarcodex"]

/-- The combined snapshot `main` prints. -/
structure Snapshot where
  generated_at : L
  hn : List HNItemOut
  reddit : List RedditResult
  antibubble : List Pick
  readwise : ReadwiseResult

/-- `main()` of `generate_briefing_data.py` translated from the source: HN
top stories (raising on failure), per-item comment enrichment, the five
subreddit envelopes with per-entry comment enrichment, the anti-bubble picks,
and the Readwise envelope.  `H` stands for the SHA-256 hex-digest
primitive. -/
def genMain (H : L → L) (env : GenEnv) (now : PyDateTime) : Except L Snapshot :=
  match fetch_hn_top env 5 with
  | .error e => .error e
  | .ok hn0 =>
      let hn := hn0.map (fun it =>
        { it with top_comments := fetch_hn_top_comments_algolia env it.id 3 })
      let reddit := SUBS.map (fun sub =>
        let r := fetch_reddit_sub_rss env sub 3 40
        { r with entries := r.entries.map (fun e =>
            { e with top_comments := fetch_reddit_comments_rss env e.link 3 }) })
      let anti := pick_antibubble_items H env.anti now 3 2
      match fetch_readwise_recent env 2000 with
      | .error e => .error e
      | .ok rw => .ok ⟨isoDateTime now, hn, reddit, anti, rw⟩

/-- Anti-bubble environment for the C1 worlds: every feed down. -/
def c1Anti : AntiEnv where
  feed := fun _ => FeedResult.failed
  accessible := fun _ => false
  histFile := HistFile.missing

/-- A healthy world except that the `whoop` subreddit returns HTTP 503: HN
serves one story, Algolia returns no hits, the other subreddits parse one
ordinary entry, Readwise is unconfigured. -/
def c1EnvOk : GenEnv where
  hnTopStatus := 200
  hnTopBody := some [101]
  hnItem := fun _ =>
    (200, some ⟨some (S "A story"), some (S "https://story.example/a"),
      some 10, some 2, none, some (S "story")⟩)
  algolia := fun _ => some []
  reddit := fun sub =>
    if sub = S "whoop" then RedditFetch.badStatus 503
    else RedditFetch.parsed
      [⟨S "Nice post", S "https://www.reddit.com/r/x/1", S "bob", none, none⟩]
  redditComments := fun _ => CommentsFetch.failed
  anti := c1Anti
  readwiseTokenFile := none
  readwiseSince := S "2025-11-18T00:00:00+00:00"
  readwiseSinceQuoted := S "2025-11-18T00%3A00%3A00%2B00%3A00"
  readwisePage := fun _ => (200, some ([], none))

/-- The same world with the HN top-stories endpoint returning HTTP 500. -/
def c1EnvDown : GenEnv := { c1EnvOk with hnTopStatus := 500 }

/-- One raw entry of a YouTube channel feed: title and link strings, and the
outcome of parsing the `published` field (`none` when the field is missing or
`datetime.fromisoformat` raises).  Timestamps are seconds on a common UTC
timeline. -/
structure YtRawEntry where
  title : L
  link : L
  published : Option Int
deriving DecidableEq

/-- The `YtVideo` dataclass. -/
structure YtVideo where
  channel : L
  title : L
  url : L
  published : Int
deriving DecidableEq

/-- The world of one `pick_youtube_videos` run: channel-id resolution
(cache + HTML scraping capability), the per-channel feed (with a flag for
fetches that raise, which the caller catches), and the clock observed by
`datetime.now(timezone.utc)` when a `published` parse fails. -/
structure YtEnv where
  resolveId : L → Option L
  feedOk : L → Bool
  feedEntries : L → List YtRawEntry
  fetchNow : Int

/-- The curated `YOUTUBE_CHANNEL_POOL` (name, channel URL), in source
order. -/
def YOUTUBE_CHANNEL_POOL : List (L × L) :=
  [(S "Huberman Lab", S "https://www.youtube.com/@hubermanlab"),
   (S "Peter Attia MD", S "https://www.youtube.com/@PeterAttiaMD"),
   (S "FoundMyFitness", S "https://www.youtube.com/@FoundMyFitness"),
   (S "Physionic", S "https://www.youtube.com/@Physionic"),
   (S "Nutrition Made Simple", S "https://www.youtube.com/@NutritionMadeSimple"),
   (S "Renaissance Periodization", S "https://www.youtube.com/@RenaissancePeriodization"),
   (S "SmarterEveryDay", S "https://www.youtube.com/@smartereveryday"),
   (S "Veritasium", S "https://www.youtube.com/@veritasium"),
   (S "PBS Space Time", S "https://www.youtube.com/@pbsspacetime"),
   (S "PBS Eons", S "https://www.youtube.com/@PBSEons"),
   (S "Kurzgesagt", S "https://www.youtube.com/@kurzgesagt"),
   (S "Real Engineering", S "https://www.youtube.com/@RealEngineering"),
   (S "Wendover Productions", S "https://www.youtube.com/@Wendoverproductions"),
   (S "How Money Works", S "https://www.youtube.com/@HowMoneyWorks"),
   (S "Big Think", S "https://www.youtube.com/@bigthink"),
   (S "Closer To Truth", S "https://www.youtube.com/@CloserToTruthTV"),
   (S "LEMMiNO", S "https://www.youtube.com/@LEMMiNO"),
   (S "Technology Connections", S "https://www.youtube.com/@TechnologyConnections"),
   (S "Tom Scott", S "https://www.youtube.com/@TomScottGo"),
   (S "Every Frame a Painting", S "https://www.youtube.com/@everyframeapainting"),
   (S "ARTEde", S "https://www.youtube.com/@artede"),
   (S "Kurzgesagt DE", S "https://www.youtube.com/@KurzgesagtDE")]

/-- `fetch_channel_rss_videos(channel_id, channel_name, max_items)`: the
first `max_items` entries, each kept when its stripped title and link are
nonempty, with a failed `published` parse defaulting to the fetch-time
clock. -/
def fetch_channel_rss_videos (env : YtEnv) (channel_id channel_name : L)
    (max_items : Nat) : List YtVideo :=
  ((env.feedEntries channel_id).take max_items).filterMap (fun e =>
    let title := pyStripWS e.title
    let link := pyStripWS e.link
    let published := e.published.getD env.fetchNow
    if title ≠ [] ∧ link ≠ [] then some ⟨channel_name, title, link, published⟩
    else none)

/-- The candidate gathering of `pick_youtube_videos`: per pool channel,
resolve the id (skip on failure) and extend with up to six feed videos
(skipping channels whose fetch raises). -/
def ytCandidates (env : YtEnv) : List YtVideo :=
  (YOUTUBE_CHANNEL_POOL.map (fun ch =>
    match env.resolveId ch.2 with
    | none => []
    | some cid =>
        if env.feedOk cid then fetch_channel_rss_videos env cid ch.1 6 else [])).flatten

/-- `filter_days(days)`: candidates published at or after `now - days`. -/
def filter_days (candidates : List YtVideo) (now : Int) (days : Nat) : List YtVideo :=
  candidates.filter (fun v => decide (now - (days : Int) * 86400 ≤ v.published))

/-- The greedy per-channel selection loop of `pick_youtube_videos`. -/
def ytPickLoop (n : Nat) :
    List YtVideo → List L → List L → List YtVideo → List YtVideo
  | [], _, _, picked => picked
  | v :: rest, usedCh, usedUrl, picked =>
      if v.channel ∈ usedCh then ytPickLoop n rest usedCh usedUrl picked
      else if v.url ∈ usedUrl then ytPickLoop n rest usedCh usedUrl picked
      else
        let picked2 := picked ++ [v]
        if n ≤ picked2.length then picked2
        else ytPickLoop n rest (usedCh ++ [v.channel]) (usedUrl ++ [v.url]) picked2

/-- `pick_youtube_videos(now, n)` translated from the source: gather
candidates, filter to a 14-day window (widened to 30 days when fewer than 3
survive), drop Shorts, sort by publish time descending (Python `list.sort`
with `reverse=True` is stable), and greedily take one video per channel. -/
def pick_youtube_videos (env : YtEnv) (now : Int) (n : Nat) : List YtVideo :=
  let candidates := ytCandidates env
  let recent14 := filter_days candidates now 14
  let recent := if recent14.length < 3 then filter_days candidates now 30 else recent14
  let recent2 := recent.filter (fun v => hasSub (S "/shorts/") v.url = false)
  let sorted := pySorted (fun a b => decide (b.published < a.published)) recent2
  ytPickLoop n sorted [] [] []

/-- Two-channel world for C10: Huberman Lab serves a future-dated video,
Peter Attia MD serves a video whose `published` fails to parse (defaulting to
the fetch clock, equal to the pick timestamp). -/
def c10Env : YtEnv where
  resolveId := fun url =>
    if url = S "https://www.youtube.com/@hubermanlab" then some (S "UCA")
    else if url = S "https://www.youtube.com/@PeterAttiaMD" then some (S "UCB")
    else none
  feedOk := fun _ => true
  feedEntries := fun cid =>
    if cid = S "UCA" then [⟨S "Future video", S "https://youtu.be/f1", some 1000100⟩]
    else if cid = S "UCB" then [⟨S "Undated video", S "https://youtu.be/u1", none⟩]
    else []
  fetchNow := 1000000

/-! The remaining definitions embed the post patcher of
`scripts/update_briefing_post.py`: regular-expression section headers,
`extract_section`, `add_hn_discussion_links` and `upsert_youtube_section`. -/

/-- The code points at which Python `str.splitlines` breaks lines. -/
def isLineBreakChar (c : Char) : Bool :=
  c = '\n' || c = '\r' || c = '\x0b' || c = '\x0c' || c = '\x1c' ||
  c = '\x1d' || c = '\x1e' || c = '\x85' || c = '\u2028' || c = '\u2029'

/-- Split off the first line of a string together with its terminator, the
way `str.splitlines(True)` delimits lines (`\r\n` counts as one break). -/
def lineSplit : L → L × L
  | [] => ([], [])
  | c :: rest =>
      if c = '\r' then
        match rest with
        | c2 :: r2 => if c2 = '\n' then (['\r', '\n'], r2) else (['\r'], c2 :: r2)
        | [] => (['\r'], [])
      else if isLineBreakChar c then ([c], rest)
      else
        let p := lineSplit rest
        (c :: p.1, p.2)

/-- `str.splitlines(True)`, fuelled by the string length (every line consumes
at least one character). -/
def splitlinesKeepF : Nat → L → List L
  | 0, _ => []
  | _, [] => []
  | fuel + 1, c :: rest =>
      let p := lineSplit (c :: rest)
      p.1 :: splitlinesKeepF fuel p.2

def splitlinesKeep (s : L) : List L := splitlinesKeepF s.length s

/-- Index of the last `'\n'` in a list, if any. -/
def lastNlIdx : L → Option Nat
  | [] => none
  | c :: rest =>
      match lastNlIdx rest with
      | some i => some (i + 1)
      | none => if c = '\n' then some 0 else none

/-- The trailing `\s*$` of the header patterns under `re.M`, with the
engine's backtracking: consume characters from the greedy whitespace run so
that `$` holds at the resulting position (end of the string, or immediately
before a newline), preferring the longest consumption; `none` when no
position in the run satisfies `$`. -/
def wsDollar (s : L) : Option Nat :=
  let k := (s.takeWhile isWS).length
  if k = s.length then some k
  else lastNlIdx (s.take k)

/-- Match a literal pattern at the head of a string, returning the rest. -/
def stripLit (pat t : L) : Option L :=
  if pat.isPrefixOf t then some (t.drop pat.length) else none

/-- Literal part of `HN_SECTION_RE`. -/
def hnHeaderLit : L := S "## A) Hacker News — Top 5"

/-- Attempt `HN_SECTION_RE` (`^## A\) Hacker News — Top 5\s*$`, `re.M`) at
the head of `t`; returns the length of the match. -/
def tryHNHeader (t : L) : Option Nat :=
  match stripLit hnHeaderLit t with
  | none => none
  | some r => (wsDollar r).map (fun w => hnHeaderLit.length + w)

/-- Attempt `^##\s+` at the head of `t` (callers only use the match start,
so the greedy tail of `\s+` need not be measured). -/
def tryH2 : L → Option Nat
  | a :: b :: c :: _ => if a = '#' ∧ b = '#' ∧ isWS c then some 3 else none
  | _ => none

/-- Literal part of `ANTI_SECTION_RE`. -/
def antiHeaderLit : L := S "## C) Anti-bubble picks (outside"

/-- One backtracking step for the `.*\)` of `ANTI_SECTION_RE`: close at the
`)` at index `j` of `r` and require `\s*$` on the remainder. -/
def tryParenAt (r : L) (j : Nat) : Option Nat :=
  if r.getD j ' ' = ')' then (wsDollar (r.drop (j + 1))).map (fun w => j + 1 + w)
  else none

/-- Try the closing parenthesis at indices `j, j-1, …, 0`, largest first, as
the greedy `.*` backtracks. -/
def tryParenDesc : Nat → L → Option Nat
  | 0, r => tryParenAt r 0
  | j + 1, r =>
      match tryParenAt r (j + 1) with
      | some x => some x
      | none => tryParenDesc j r

/-- Attempt `ANTI_SECTION_RE` (`^## C\) Anti-bubble picks \(outside.*\)\s*$`,
`re.M`) at the head of `t`: the literal, then a newline-free span closed by
the rightmost workable `)`, then `\s*$`. -/
def tryAntiHeader (t : L) : Option Nat :=
  match stripLit antiHeaderLit t with
  | none => none
  | some r =>
      let d := (r.takeWhile (fun c => c ≠ '\n')).length
      if d = 0 then none
      else (tryParenDesc (d - 1) r).map (fun n => antiHeaderLit.length + n)

/-- Attempt `YOUTUBE_H3_RE` (`^###\s+YouTube\s*$`, `re.M`) at the head of
`t`. Only the maximal `\s+` run can be followed by the literal `YouTube`,
because every character the run gives back is whitespace and so never `Y`. -/
def tryYTHeader (t : L) : Option Nat :=
  match stripLit (S "###") t with
  | none => none
  | some r =>
      let k := (r.takeWhile isWS).length
      if k = 0 then none
      else
        match stripLit (S "YouTube") (r.drop k) with
        | none => none
        | some r2 => (wsDollar r2).map (fun w => 3 + k + 7 + w)

/-- `re.search` under `re.M` for an anchored attempt function `tryAt`: scan
the positions where `^` can match (offset 0 when `ls` is set, and every
position immediately after a newline, including the end of the string) left
to right and return the first match as `(start, length)`. -/
def searchM (tryAt : L → Option Nat) : L → Bool → Option (Nat × Nat)
  | [], ls => if ls then (tryAt []).map (fun k => (0, k)) else none
  | c :: rest, ls =>
      if ls then
        match tryAt (c :: rest) with
        | some k => some (0, k)
        | none => (searchM tryAt rest (c = '\n')).map (fun p => (p.1 + 1, p.2))
      else (searchM tryAt rest (c = '\n')).map (fun p => (p.1 + 1, p.2))

/-- `extract_section`: the span `(start, end)` of the section body after the
first header match, ending at the next `^##\s+` heading of the sliced
remainder or at the end of the document. -/
def extract_section (tryHdr : L → Option Nat) (md : L) : Option (Nat × Nat) :=
  match searchM tryHdr md true with
  | none => none
  | some (p, len) =>
      let s := p + len
      match searchM tryH2 (md.drop s) true with
      | none => some (s, md.length)
      | some (q, _) => some (s, s + q)

/-- Tail of the `Link:` line match after the scheme: the greedy `\S+`, then
`\s*$`; the capture is the scheme together with the non-whitespace run. -/
def linkURLTail (scheme r3 : L) : Option L :=
  let u := r3.takeWhile (fun c => !isWS c)
  if u = [] then none
  else if (r3.drop u.length).all isWS then some (scheme ++ u)
  else none

/-- The check `re.match(r"^Link:\s*(https?://\S+)\s*$", line.strip())`:
the captured URL when the stripped line is a bare `Link:` line. -/
def linkURL (line : L) : Option L :=
  match stripLit (S "Link:") (pyStripWS line) with
  | none => none
  | some r1 =>
      match stripLit (S "https://") (r1.dropWhile isWS) with
      | some r3 => linkURLTail (S "https://") r3
      | none =>
          match stripLit (S "http://") (r1.dropWhile isWS) with
          | some r3 => linkURLTail (S "http://") r3
          | none => none

/-- String-head test used for the already-inserted check:
`line.lstrip().startswith("HN discussion:")`. -/
def startsHNDisc (line : L) : Bool :=
  (S "HN discussion:").isPrefixOf (pyLStripWS line)

/-- First following line that is non-blank after `strip()`. -/
def firstNonBlank : List L → Option L
  | [] => none
  | x :: r => if pyStripWS x = [] then firstNonBlank r else some x

/-- The skip condition of `add_hn_discussion_links`: the next non-blank line
already carries an `HN discussion:` link. -/
def skipOK (rest : List L) : Bool :=
  match firstNonBlank rest with
  | some x => startsHNDisc x
  | none => false

/-- The line loop of `add_hn_discussion_links`: after a `Link:` line whose
URL maps to a nonempty discussion link and whose next non-blank line does
not already start with `HN discussion:`, insert the discussion line and a
blank line. -/
def processLines (m : L → Option L) : List L → List L
  | [] => []
  | line :: rest =>
      let tail := processLines m rest
      match linkURL line with
      | none => line :: tail
      | some url =>
          match m url with
          | none => line :: tail
          | some d =>
              if d = [] then line :: tail
              else if skipOK rest then line :: tail
              else line :: (S "HN discussion: " ++ d ++ S "\n") :: S "\n" :: tail

/-- `add_hn_discussion_links`: patch the Hacker News section body, leaving
the text before and after the extracted span untouched. -/
def add_hn_discussion_links (md : L) (m : L → Option L) : L :=
  match extract_section tryHNHeader md with
  | none => md
  | some (s, e) =>
      let before := md.take s
      let mid := (md.drop s).take (e - s)
      let after := md.drop e
      before ++ (processLines m (splitlinesKeep mid)).flatten ++ after

/-- Video record as consumed by the patcher, carrying a calendar date for
the `strftime("%Y-%m-%d")` rendering (the generation-side `YtVideo` instead
models the timestamp arithmetic of the picker on an integer timeline). -/
structure YtVideoU where
  channel : L
  title : L
  url : L
  published : PyDate
deriving DecidableEq

/-- The placeholder bullet removed by an empty upsert. -/
def PLACEHOLDER_DASH : L :=
  S "- YouTube: not configured yet — add 3–5 channel IDs to enable daily anti-bubble videos."

/-- The same placeholder without the leading dash. -/
def PLACEHOLDER_BARE : L :=
  S "YouTube: not configured yet — add 3–5 channel IDs to enable daily anti-bubble videos."

/-- One rendered video bullet of the YouTube block. -/
def ytLine (v : YtVideoU) : L :=
  S "- **" ++ v.channel ++ S "** (" ++ isoDate v.published ++ S ") — [" ++
    v.title ++ S "](" ++ v.url ++ S ")"

/-- The replacement block `"\n".join(block_lines)`. -/
def ytBlock (videos : List YtVideoU) : L :=
  ((([S "### YouTube", []] ++ videos.map ytLine) ++ [[]]).intersperse (S "\n")).flatten

/-- `upsert_youtube_section`: with no videos, delete the placeholder
occurrences; otherwise replace the existing `### YouTube` block, or insert
the block at the end of the anti-bubble section, or append it at the end. -/
def upsert_youtube_section (md : L) (videos : List YtVideoU) : L :=
  if videos = [] then
    replaceAll PLACEHOLDER_BARE [] (replaceAll PLACEHOLDER_DASH [] md)
  else
    let nb := ytBlock videos
    match searchM tryYTHeader md true with
    | some (p, len) =>
        let mend := p + len
        let e :=
          match searchM tryH2 (md.drop mend) true with
          | some (q, _) => mend + q
          | none => mend + (md.length - mend)
        md.take p ++ nb ++ md.drop e
    | none =>
        match extract_section tryAntiHeader md with
        | some (_, e2) => pyRStripWS (md.take e2) ++ S "\n\n" ++ nb ++ md.drop e2
        | none => pyRStripWS md ++ S "\n\n" ++ nb

/-! Support notions for the patcher verification. -/

/-- No line-break character occurs in the list. -/
def noBrk (l : L) : Bool := l.all (fun c => !isLineBreakChar c)

/-- A list that `lineSplit` recognises as one whole line. -/
def singleLine (l : L) : Prop := lineSplit l = (l, [])

/-- A line carrying a terminator. -/
def termL (l : L) : Prop := ∃ c, l.getLast? = some c ∧ isLineBreakChar c = true

/-- Boundary soundness of a list of lines: rejoining and resplitting gives
the same lines back. Non-last lines are complete terminated lines, the last
may lack its terminator, and a line ending in a bare carriage return is
never followed by a line starting with a newline (they would merge). -/
def linesOK : List L → Prop
  | [] => True
  | [x] => singleLine x ∧ x ≠ []
  | x :: y :: r =>
      singleLine x ∧ termL x ∧
      ¬(x.getLast? = some '\r' ∧ y.head? = some '\n') ∧ linesOK (y :: r)

/-- The positions at which `^` matches under `re.M`: offset 0 when the
initial flag is set, and any position just after a newline. -/
def lineStart (s : L) (ls : Bool) (i : Nat) : Prop :=
  (i = 0 ∧ ls = true) ∨ (1 ≤ i ∧ s[i - 1]? = some '\n')

/-- Line-start flag after scanning past `x`. -/
def flagAfter (x : L) (ls : Bool) : Bool :=
  x.foldl (fun _ c => decide (c = '\n')) ls

/-- A line inviting an insertion: a `Link:` line whose URL maps to a
nonempty discussion link. -/
def insertWorthy (m : L → Option L) (line : L) : Prop :=
  ∃ url d, linkURL line = some url ∧ m url = some d ∧ d ≠ []

/-- Lines after which `add_hn_discussion_links` changes nothing: every
insertion-worthy `Link:` line is already followed (next non-blank line) by an
`HN discussion:` line. -/
def settledLines (m : L → Option L) : List L → Prop
  | [] => True
  | line :: rest =>
      (insertWorthy m line → skipOK rest = true) ∧ settledLines m rest

/-- All discussion-map values are free of line-break characters. -/
def mapNoBrk (m : L → Option L) : Prop :=
  ∀ url d, m url = some d → noBrk d = true

/-- Discussion map used by the C2 counterexample: the linked URL maps to a
value embedding a newline and a fresh `Link:` line. -/
def c2m : L → Option L := fun url =>
  if url = S "https://u" then some (S "x\nLink: https://u") else none

/-- Constant digest used by the C3 witness (the theorem holds for every
digest function). -/
def c3Hash : L → L := fun _ => []

/-- Concrete witness world for C3: the Aeon feed serves one entry whose link
is already in the loaded history followed by one fresh entry; every other
feed fails; every URL is accessible. -/
def c3Env : AntiEnv where
  feed := fun url =>
    if url = S "https://aeon.co/feed" then
      FeedResult.parsed
        [⟨S "Old pick", S "https://example.org/old"⟩,
         ⟨S "Fresh pick", S "https://example.org/new"⟩]
    else FeedResult.failed
  accessible := fun _ => true
  histFile := HistFile.jsonList [S "https://example.org/old"]

/-- Constant all-zero digest used by the C5 witness; it satisfies the
64-character lowercase-hex format hypothesis. -/
def c5Hash : L → L := fun _ => List.replicate 64 '0'

/-- Trivial environment for the C5 witness. -/
def c5Env : AntiEnv where
  feed := fun _ => FeedResult.failed
  accessible := fun _ => false
  histFile := HistFile.missing

theorem rsplitSpaceHead_of_not_mem {s : L} (h : ' ' ∉ s) : rsplitSpaceHead s = s := by
  induction s with
  | nil => rfl
  | cons c rest ih =>
      have hc : ¬c = ' ' := fun hc => h (hc ▸ List.mem_cons_self c rest)
      have hr : ' ' ∉ rest := fun hr => h (List.mem_cons_of_mem c hr)
      simp [rsplitSpaceHead, hr, hc]

theorem rsplitSpaceHead_length (s : L) : (rsplitSpaceHead s).length ≤ s.length := by
  induction s with
  | nil => simp [rsplitSpaceHead]
  | cons c rest ih =>
      by_cases hr : ' ' ∈ rest
      · simpa [rsplitSpaceHead, hr] using ih
      · by_cases hc : c = ' ' <;> simp [rsplitSpaceHead, hr, hc]

theorem rsplitSpaceHead_of_mem {s : L} (h : ' ' ∈ s) :
    ∃ k, rsplitSpaceHead s = s.take k ∧ s.get? k = some ' ' := by
  induction s with
  | nil => cases h
  | cons c rest ih =>
      by_cases hr : ' ' ∈ rest
      · obtain ⟨k, hk1, hk2⟩ := ih hr
        refine ⟨k + 1, ?_, ?_⟩
        · simp [rsplitSpaceHead, hr, hk1]
        · simpa using hk2
      · have hc : c = ' ' := by
          rcases List.mem_cons.mp h with h1 | h1
          · exact h1.symm
          · exact absurd h1 hr
        refine ⟨0, ?_, ?_⟩
        · simp [rsplitSpaceHead, hr, hc]
        · simp [hc]

theorem strLt_irrefl (a : L) : strLt a a = false := by
  induction a with
  | nil => rfl
  | cons c s ih => simp [strLt, ih]

theorem strLt_asymm : ∀ {a b : L}, strLt a b = true → strLt b a = false
  | [], [], h => Bool.noConfusion h
  | [], _ :: _, _ => rfl
  | _ :: _, [], h => Bool.noConfusion h
  | a :: s, b :: t, h => by
      by_cases hab : a = b
      · subst hab
        simp only [strLt, if_pos rfl] at h ⊢
        exact strLt_asymm h
      · simp only [strLt, if_neg hab] at h
        have hlt : a < b := of_decide_eq_true h
        have hba : ¬b = a := fun e => hab e.symm
        simp only [strLt, if_neg hba, decide_eq_false_iff_not]
        exact fun hba2 => absurd (lt_trans hlt hba2) (lt_irrefl a)

theorem strLt_antisymm : ∀ {a b : L}, strLt a b = false → strLt b a = false → a = b
  | [], [], _h1, _h2 => rfl
  | [], c0 :: t0, h, _h2 => Bool.noConfusion h
  | c0 :: t0, [], _h1, h => Bool.noConfusion h
  | a :: s, b :: t, h1, h2 => by
      by_cases hab : a = b
      · subst hab
        simp only [strLt, if_pos rfl] at h1 h2
        rw [strLt_antisymm h1 h2]
      · have hba : ¬b = a := fun e => hab e.symm
        simp only [strLt, if_neg hab, decide_eq_false_iff_not] at h1
        simp only [strLt, if_neg hba, decide_eq_false_iff_not] at h2
        exact absurd (lt_of_le_of_ne (le_of_not_lt h2) hab) h1

theorem strLt_trans : ∀ {a b c : L}, strLt a b = true → strLt b c = true → strLt a c = true
  | [], _, _ :: _, _, _ => rfl
  | [], [], [], h1, _ => Bool.noConfusion h1
  | [], _ :: _, [], _, h2 => Bool.noConfusion h2
  | _ :: _, [], _, h1, _ => Bool.noConfusion h1
  | _ :: _, _ :: _, [], _, h2 => Bool.noConfusion h2
  | a :: s, b :: t, c :: u, h1, h2 => by
      by_cases hab : a = b
      · subst hab
        simp only [strLt, if_pos rfl] at h1
        by_cases hbc : a = c
        · subst hbc
          simp only [strLt, if_pos rfl] at h2 ⊢
          exact strLt_trans h1 h2
        · simpa only [strLt, if_neg hbc] using h2
      · simp only [strLt, if_neg hab] at h1
        have hlt1 : a < b := of_decide_eq_true h1
        by_cases hbc : b = c
        · subst hbc
          simp only [strLt, if_neg hab, decide_eq_true_eq]
          exact hlt1
        · simp only [strLt, if_neg hbc] at h2
          have hlt2 : b < c := of_decide_eq_true h2
          have hac : ¬a = c := fun e => absurd (e ▸ lt_trans hlt1 hlt2) (lt_irrefl _)
          simp only [strLt, if_neg hac, decide_eq_true_eq]
          exact lt_trans hlt1 hlt2

theorem strLt_le_trans {a b c : L} (h1 : strLt b a = false) (h2 : strLt c b = false) :
    strLt c a = false := by
  cases hca : strLt c a
  · rfl
  · exfalso
    cases hbc : strLt b c
    · have hcb := strLt_antisymm h2 hbc
      subst hcb
      exact Bool.noConfusion (h1.symm.trans hca)
    · have h3 := strLt_trans hbc hca
      exact Bool.noConfusion (h1.symm.trans h3)

theorem insertStable_perm (lt : α → α → Bool) (a : α) (l : List α) :
    (insertStable lt a l).Perm (a :: l) := by
  induction l with
  | nil => rfl
  | cons b l ih =>
      by_cases h : lt b a = true
      · simp only [insertStable, h, if_true]
        exact ((ih.cons b).trans (List.Perm.swap a b l))
      · simp [insertStable, h]

theorem pySorted_perm (lt : α → α → Bool) (l : List α) : (pySorted lt l).Perm l := by
  induction l with
  | nil => rfl
  | cons a l ih => exact (insertStable_perm lt a (pySorted lt l)).trans (ih.cons a)

theorem insertStable_pairwise (lt : α → α → Bool)
    (hasymm : ∀ x y, lt x y = true → lt y x = false)
    (htrans : ∀ x y z, lt y x = false → lt z y = false → lt z x = false)
    (a : α) (l : List α) (hl : l.Pairwise (fun x y => lt y x = false)) :
    (insertStable lt a l).Pairwise (fun x y => lt y x = false) := by
  induction l with
  | nil => simp [insertStable]
  | cons b l ih =>
      rcases List.pairwise_cons.mp hl with ⟨hb, hl'⟩
      by_cases h : lt b a = true
      · simp only [insertStable, h, if_true]
        refine List.pairwise_cons.mpr ⟨?_, ih hl'⟩
        intro y hy
        have hy' : y ∈ a :: l := (insertStable_perm lt a l).mem_iff.mp hy
        rcases List.mem_cons.mp hy' with rfl | hy''
        · exact hasymm b y h
        · exact hb y hy''
      · simp only [insertStable, h, if_false]
        refine List.pairwise_cons.mpr ⟨?_, hl⟩
        intro y hy
        have hba : lt b a = false := by
          cases h2 : lt b a
          · rfl
          · exact absurd h2 h
        rcases List.mem_cons.mp hy with rfl | hy''
        · exact hba
        · exact htrans a b y hba (hb y hy'')

theorem pySorted_pairwise (lt : α → α → Bool)
    (hasymm : ∀ x y, lt x y = true → lt y x = false)
    (htrans : ∀ x y z, lt y x = false → lt z y = false → lt z x = false)
    (l : List α) : (pySorted lt l).Pairwise (fun x y => lt y x = false) := by
  induction l with
  | nil => simp [pySorted]
  | cons a l ih => exact insertStable_pairwise lt hasymm htrans a (pySorted lt l) ih

theorem hexVal_le (c : Char) : hexVal c ≤ 15 :=
  Nat.le_of_lt_succ (Nat.mod_lt _ (by norm_num))

theorem hexNat_lt (s : L) : hexNat s < 16 ^ s.length := by
  induction s with
  | nil => simp [hexNat]
  | cons c s ih =>
      have h1 := hexVal_le c
      have h2 : (16 : Nat) ^ (c :: s).length = 16 * 16 ^ s.length := by
        rw [List.length_cons, pow_succ]
        ring
      have h3 : hexVal c * 16 ^ s.length ≤ 15 * 16 ^ s.length :=
        Nat.mul_le_mul_right _ h1
      simp only [hexNat, h2]
      omega

theorem hexVal_lt_of_char_lt :
    ∀ c ∈ hexDigitsLower, ∀ d ∈ hexDigitsLower, c < d → hexVal c < hexVal d := by
  decide

theorem strLt_iff_hexNat_lt :
    ∀ {a b : L}, a.length = b.length →
      (∀ c ∈ a, c ∈ hexDigitsLower) → (∀ c ∈ b, c ∈ hexDigitsLower) →
      (strLt a b = true ↔ hexNat a < hexNat b)
  | [], [], _, _, _ => by simp [strLt, hexNat]
  | [], _ :: _, h, _, _ => by cases h
  | _ :: _, [], h, _, _ => by cases h
  | a :: s, b :: t, hlen, ha, hb => by
      have hlen' : s.length = t.length := by simpa using hlen
      have ha' : ∀ c ∈ s, c ∈ hexDigitsLower := fun c hc => ha c (List.mem_cons_of_mem a hc)
      have hb' : ∀ c ∈ t, c ∈ hexDigitsLower := fun c hc => hb c (List.mem_cons_of_mem b hc)
      have haa : a ∈ hexDigitsLower := ha a (List.mem_cons_self a s)
      have hbb : b ∈ hexDigitsLower := hb b (List.mem_cons_self b t)
      by_cases hab : a = b
      · subst hab
        have hstep : strLt (a :: s) (a :: t) = strLt s t := by
          simp [strLt]
        rw [hstep, strLt_iff_hexNat_lt hlen' ha' hb']
        simp only [hexNat, hlen']
        omega
      · have hstep : strLt (a :: s) (b :: t) = decide (a < b) := by
          simp [strLt, hab]
        rw [hstep]
        simp only [hexNat, hlen']
        have hs := hexNat_lt s
        have ht := hexNat_lt t
        rw [hlen'] at hs
        constructor
        · intro h
          have hcd : a < b := of_decide_eq_true h
          have hv : hexVal a < hexVal b := hexVal_lt_of_char_lt a haa b hbb hcd
          have hm : (hexVal a + 1) * 16 ^ t.length ≤ hexVal b * 16 ^ t.length :=
            Nat.mul_le_mul_right _ (Nat.succ_le_of_lt hv)
          have hd : (hexVal a + 1) * 16 ^ t.length =
              hexVal a * 16 ^ t.length + 16 ^ t.length := by ring
          omega
        · intro h
          by_contra hne
          have hnlt : ¬a < b := fun hcd => hne (decide_eq_true hcd)
          have hba : b < a := lt_of_le_of_ne (le_of_not_lt hnlt) (fun e => hab e.symm)
          have hv : hexVal b < hexVal a := hexVal_lt_of_char_lt b hbb a haa hba
          have hm : (hexVal b + 1) * 16 ^ t.length ≤ hexVal a * 16 ^ t.length :=
            Nat.mul_le_mul_right _ (Nat.succ_le_of_lt hv)
          have hd : (hexVal b + 1) * 16 ^ t.length =
              hexVal b * 16 ^ t.length + 16 ^ t.length := by ring
          omega

theorem hnItemsLoop_ok (env : GenEnv)
    (h : ∀ iid : Nat, (env.hnItem iid).1 = 200 → (env.hnItem iid).2 ≠ none) :
    ∀ ids : List Nat, ∃ l, hnItemsLoop env ids = Except.ok l := by
  intro ids
  induction ids with
  | nil => exact ⟨[], rfl⟩
  | cons iid rest ih =>
      obtain ⟨l, hl⟩ := ih
      by_cases hst : (env.hnItem iid).1 = 200
      · cases h2 : (env.hnItem iid).2 with
        | none => exact absurd h2 (h iid hst)
        | some it =>
            refine ⟨(⟨iid, it.title, it.url,
              (match it.url with
               | some u => if u = [] then S "news.ycombinator.com" else domain_of u
               | none => S "news.ycombinator.com"),
              it.score, it.descendants,
              S "https://news.ycombinator.com/item?id=" ++ natToStr iid,
              html_to_text (it.text.getD []), it.itemType, []⟩ : HNItemOut) :: l, ?_⟩
            simp only [hnItemsLoop, hst, h2, hl]
            simp
      · refine ⟨l, ?_⟩
        simp only [hnItemsLoop]
        simp [hst, hl]

theorem readwiseLoop_not_raised (env : GenEnv) (mh : Nat)
    (h : ∀ url : L, (env.readwisePage url).2 ≠ none) :
    ∀ (fuel : Nat) (ourl : Option L) (acc : List Highlight),
      (∃ st a, readwiseLoop env mh fuel ourl acc = RwLoopOut.httpFail st a) ∨
      (∃ a, readwiseLoop env mh fuel ourl acc = RwLoopOut.done a) := by
  intro fuel
  induction fuel with
  | zero => intro ourl acc; exact Or.inr ⟨acc, rfl⟩
  | succ fuel ih =>
      intro ourl acc
      cases ourl with
      | none => exact Or.inr ⟨acc, rfl⟩
      | some url =>
          by_cases hlen : mh ≤ acc.length
          · exact Or.inr ⟨acc, by simp [readwiseLoop, hlen]⟩
          · by_cases hst : (env.readwisePage url).1 ≠ 200
            · exact Or.inl ⟨(env.readwisePage url).1, acc, by simp [readwiseLoop, hlen, hst]⟩
            · cases h2 : (env.readwisePage url).2 with
              | none => exact absurd h2 (h url)
              | some pr =>
                  have := ih pr.2 ((acc ++ pr.1.map normalizeHighlight).take mh)
                  simpa [readwiseLoop, hlen, hst, h2] using this

theorem fetch_readwise_ok (env : GenEnv)
    (h : ∀ url : L, (env.readwisePage url).2 ≠ none) :
    ∃ rw, fetch_readwise_recent env 2000 = Except.ok rw := by
  unfold fetch_readwise_recent
  cases htok : env.readwiseTokenFile with
  | none => exact ⟨⟨S "no_token", [], none⟩, rfl⟩
  | some rawToken =>
      by_cases hs : pyStripWS rawToken = []
      · refine ⟨⟨S "empty_token", [], none⟩, ?_⟩
        simp [hs]
      · rcases readwiseLoop_not_raised env 2000 h 50
          (some (S "https://readwise.io/api/v2/highlights/?page_size=100&updated__gt=" ++
            env.readwiseSinceQuoted)) [] with ⟨st, a, hb⟩ | ⟨a, hb⟩
        · refine ⟨⟨S "http_" ++ natToStr st, a, none⟩, ?_⟩
          simp [hs, hb]
        · refine ⟨⟨S "ok", a, some env.readwiseSince⟩, ?_⟩
          simp [hs, hb]

/-! Embedding of `scripts/update_briefing_post.py`: the YouTube picker. -/

theorem lineSplit_append (s : L) : (lineSplit s).1 ++ (lineSplit s).2 = s := by
  induction s with
  | nil => rfl
  | cons c rest ih =>
      by_cases hc : c = '\r'
      · subst hc
        cases rest with
        | nil => rfl
        | cons c2 r2 =>
            by_cases h2 : c2 = '\n'
            · subst h2; simp [lineSplit]
            · simp [lineSplit, h2]
      · by_cases hb : isLineBreakChar c
        · simp [lineSplit, hc, hb]
        · simp only [lineSplit, if_neg hc, if_neg hb]
          simpa using ih

theorem lineSplit_snd_len (s : L) (h : s ≠ []) : (lineSplit s).2.length < s.length := by
  induction s with
  | nil => exact absurd rfl h
  | cons c rest ih =>
      by_cases hc : c = '\r'
      · subst hc
        cases rest with
        | nil => simp [lineSplit]
        | cons c2 r2 =>
            by_cases h2 : c2 = '\n'
            · subst h2; simp [lineSplit]; omega
            · simp [lineSplit, h2]
      · by_cases hb : isLineBreakChar c
        · simp [lineSplit, hc, hb]
        · simp only [lineSplit, if_neg hc, if_neg hb]
          cases rest with
          | nil => simp [lineSplit]
          | cons c2 r2 =>
              have := ih (by simp)
              simp only [List.length_cons] at this ⊢
              omega

theorem splitlinesKeepF_nil (n : Nat) : splitlinesKeepF n [] = [] := by
  cases n <;> rfl

theorem splitlinesKeepF_cons (n : Nat) (c : Char) (rest : L) :
    splitlinesKeepF (n + 1) (c :: rest) =
      (lineSplit (c :: rest)).1 :: splitlinesKeepF n (lineSplit (c :: rest)).2 := rfl

theorem splitF_congr : ∀ (n m : Nat) (s : L), s.length ≤ n → s.length ≤ m →
    splitlinesKeepF n s = splitlinesKeepF m s := by
  intro n
  induction n with
  | zero =>
      intro m s hn _
      have : s = [] := List.eq_nil_of_length_eq_zero (Nat.le_zero.mp hn)
      subst this
      simp [splitlinesKeepF_nil]
  | succ n ih =>
      intro m s hn hm
      cases s with
      | nil => simp [splitlinesKeepF_nil]
      | cons c rest =>
          cases m with
          | zero => simp at hm
          | succ m =>
              rw [splitlinesKeepF_cons, splitlinesKeepF_cons]
              have hlt : (lineSplit (c :: rest)).2.length < (c :: rest).length :=
                lineSplit_snd_len _ (by simp)
              exact congrArg _ (ih m _ (by omega) (by omega))

theorem splitlinesKeep_eqF (n : Nat) (s : L) (h : s.length ≤ n) :
    splitlinesKeepF n s = splitlinesKeep s :=
  splitF_congr n s.length s h (Nat.le_refl _)

theorem join_splitF : ∀ (n : Nat) (s : L), s.length ≤ n →
    (splitlinesKeepF n s).flatten = s := by
  intro n
  induction n with
  | zero =>
      intro s hn
      have : s = [] := List.eq_nil_of_length_eq_zero (Nat.le_zero.mp hn)
      subst this; rfl
  | succ n ih =>
      intro s hn
      cases s with
      | nil => rfl
      | cons c rest =>
          rw [splitlinesKeepF_cons]
          have hlt : (lineSplit (c :: rest)).2.length < (c :: rest).length :=
            lineSplit_snd_len _ (by simp)
          rw [List.flatten_cons, ih _ (by omega), lineSplit_append]

theorem join_splitlines (s : L) : (splitlinesKeep s).flatten = s :=
  join_splitF s.length s (Nat.le_refl _)

theorem lineSplit_fst_single (s : L) : singleLine (lineSplit s).1 := by
  induction s with
  | nil => rfl
  | cons c rest ih =>
      by_cases hc : c = '\r'
      · subst hc
        cases rest with
        | nil => rfl
        | cons c2 r2 =>
            by_cases h2 : c2 = '\n'
            · subst h2; simp [lineSplit]; rfl
            · simp [lineSplit, h2]; rfl
      · by_cases hb : isLineBreakChar c
        · simp only [lineSplit, if_neg hc, if_pos hb]
          show lineSplit [c] = ([c], [])
          simp [lineSplit, hc, hb]
        · simp only [lineSplit, if_neg hc, if_neg hb]
          show lineSplit (c :: (lineSplit rest).1) = (c :: (lineSplit rest).1, [])
          have hstep : lineSplit (c :: (lineSplit rest).1) =
              (c :: (lineSplit (lineSplit rest).1).1, (lineSplit (lineSplit rest).1).2) := by
            simp [lineSplit, hc, hb]
          rw [hstep, ih]

theorem getLast_cons_of_ne {c : Char} {l : L} (h : l ≠ []) :
    (c :: l).getLast? = l.getLast? := by
  cases l with
  | nil => exact absurd rfl h
  | cons a r => exact List.getLast?_cons_cons

theorem lineSplit_fst_term (s : L) (h : (lineSplit s).2 ≠ []) :
    termL (lineSplit s).1 ∧
      ¬((lineSplit s).1.getLast? = some '\r' ∧ (lineSplit s).2.head? = some '\n') := by
  induction s with
  | nil => exact absurd rfl h
  | cons c rest ih =>
      by_cases hc : c = '\r'
      · subst hc
        cases rest with
        | nil => simp [lineSplit] at h
        | cons c2 r2 =>
            by_cases h2 : c2 = '\n'
            · subst h2
              simp only [lineSplit, if_pos rfl, if_pos rfl]
              refine ⟨⟨'\n', by simp, by decide⟩, ?_⟩
              simp
            · simp only [lineSplit, if_pos rfl, if_neg h2]
              refine ⟨⟨'\r', by simp, by decide⟩, ?_⟩
              simp [h2]
      · by_cases hb : isLineBreakChar c
        · simp only [lineSplit, if_neg hc, if_pos hb]
          refine ⟨⟨c, by simp, hb⟩, ?_⟩
          simp [hc]
        · simp only [lineSplit, if_neg hc, if_neg hb] at h ⊢
          have := ih (by simpa using h)
          have hne : (lineSplit rest).1 ≠ [] := by
            intro hnil
            rcases this.1 with ⟨d, hd, _⟩
            rw [hnil] at hd
            simp at hd
          refine ⟨?_, ?_⟩
          · rcases this.1 with ⟨d, hd, hdb⟩
            exact ⟨d, by rw [getLast_cons_of_ne hne]; exact hd, hdb⟩
          · rw [getLast_cons_of_ne hne]
            exact this.2

theorem lineSplit_fst_head (s : L) : (lineSplit s).1.head? = s.head? := by
  induction s with
  | nil => rfl
  | cons c rest _ =>
      by_cases hc : c = '\r'
      · subst hc
        cases rest with
        | nil => rfl
        | cons c2 r2 =>
            by_cases h2 : c2 = '\n'
            · subst h2; simp [lineSplit]
            · simp [lineSplit, h2]
      · by_cases hb : isLineBreakChar c
        · simp [lineSplit, hc, hb]
        · simp [lineSplit, hc, hb]

theorem lineSplit_of_single_term (l z : L) (h1 : singleLine l) (h2 : termL l)
    (h3 : ¬(l.getLast? = some '\r' ∧ z.head? = some '\n')) :
    lineSplit (l ++ z) = (l, z) := by
  induction l generalizing z with
  | nil =>
      rcases h2 with ⟨d, hd, _⟩
      simp at hd
  | cons c rest ih =>
      unfold singleLine at h1
      by_cases hc : c = '\r'
      · subst hc
        cases rest with
        | nil =>
            cases hz : z with
            | nil => rfl
            | cons c2 z2 =>
                by_cases h2n : c2 = '\n'
                · exact absurd ⟨rfl, by rw [hz, h2n]; rfl⟩ h3
                · show lineSplit ('\r' :: c2 :: z2) = (['\r'], c2 :: z2)
                  simp [lineSplit, h2n]
        | cons c2 r2 =>
            by_cases h2e : c2 = '\n'
            · subst h2e
              have hred : lineSplit ('\r' :: '\n' :: r2) = (['\r', '\n'], r2) := rfl
              rw [hred] at h1
              have hr2 : r2 = [] := by simpa using congrArg Prod.snd h1
              subst hr2
              rfl
            · have hred : lineSplit ('\r' :: c2 :: r2) = (['\r'], c2 :: r2) := by
                simp [lineSplit, h2e]
              rw [hred] at h1
              exact absurd (congrArg Prod.snd h1) (by simp)
      · by_cases hb : isLineBreakChar c
        · have hred : lineSplit (c :: rest) = ([c], rest) := by
            simp [lineSplit, hc, hb]
          rw [hred] at h1
          have hrest : rest = [] := by simpa using congrArg Prod.snd h1
          subst hrest
          show lineSplit (c :: z) = ([c], z)
          cases z with
          | nil => simp [lineSplit, hc, hb]
          | cons c2 z2 => simp [lineSplit, hc, hb]
        · have hred : lineSplit (c :: rest) =
              (c :: (lineSplit rest).1, (lineSplit rest).2) := by
            simp [lineSplit, hc, hb]
          rw [hred] at h1
          have hfst : (lineSplit rest).1 = rest := by
            have := congrArg Prod.fst h1
            simpa using this
          have hsnd : (lineSplit rest).2 = [] := by simpa using congrArg Prod.snd h1
          have hrne : rest ≠ [] := by
            intro hnil
            subst hnil
            rcases h2 with ⟨d, hd, hdb⟩
            simp at hd
            subst hd
            exact hb hdb
          have hlast : (c :: rest).getLast? = rest.getLast? := getLast_cons_of_ne hrne
          have ih2 : lineSplit (rest ++ z) = (rest, z) := by
            refine ih z ?_ ?_ ?_
            · unfold singleLine
              rw [show lineSplit rest = ((lineSplit rest).1, (lineSplit rest).2) from rfl,
                hfst, hsnd]
            · rcases h2 with ⟨d, hd, hdb⟩
              rw [hlast] at hd
              exact ⟨d, hd, hdb⟩
            · rw [← hlast]
              exact h3
          have hstep : lineSplit (c :: (rest ++ z)) =
              (c :: (lineSplit (rest ++ z)).1, (lineSplit (rest ++ z)).2) := by
            simp [lineSplit, hc, hb]
          show lineSplit (c :: (rest ++ z)) = (c :: rest, z)
          rw [hstep, ih2]

theorem splitlines_cons_of_line (l z : L) (h1 : singleLine l) (h2 : termL l)
    (h3 : ¬(l.getLast? = some '\r' ∧ z.head? = some '\n')) :
    splitlinesKeep (l ++ z) = l :: splitlinesKeep z := by
  have hlne : l ≠ [] := by
    intro hnil
    rcases h2 with ⟨d, hd, _⟩
    rw [hnil] at hd
    simp at hd
  obtain ⟨c, l', rfl⟩ := List.exists_cons_of_ne_nil hlne
  show splitlinesKeep ((c :: l') ++ z) = (c :: l') :: splitlinesKeep z
  have hcons : (c :: l') ++ z = c :: (l' ++ z) := rfl
  rw [splitlinesKeep, hcons]
  have hlen : (c :: (l' ++ z)).length = (l' ++ z).length + 1 := by simp
  rw [hlen, splitlinesKeepF_cons]
  rw [show c :: (l' ++ z) = (c :: l') ++ z from rfl,
    lineSplit_of_single_term _ _ h1 h2 h3]
  exact congrArg _ (splitlinesKeep_eqF _ _ (by simp))

theorem splitlines_linesOK_F : ∀ (n : Nat) (s : L), s.length ≤ n →
    linesOK (splitlinesKeepF n s) := by
  intro n
  induction n with
  | zero =>
      intro s hn
      have : s = [] := List.eq_nil_of_length_eq_zero (Nat.le_zero.mp hn)
      subst this
      exact trivial
  | succ n ih =>
      intro s hn
      cases s with
      | nil => exact trivial
      | cons c rest =>
          rw [splitlinesKeepF_cons]
          have hlt : (lineSplit (c :: rest)).2.length < (c :: rest).length :=
            lineSplit_snd_len _ (by simp)
          have htl := ih (lineSplit (c :: rest)).2 (by omega)
          cases htail : splitlinesKeepF n (lineSplit (c :: rest)).2 with
          | nil =>
              refine ⟨lineSplit_fst_single _, ?_⟩
              have : (lineSplit (c :: rest)).1.head? = some c := by
                rw [lineSplit_fst_head]; rfl
              intro hnil
              rw [hnil] at this
              simp at this
          | cons y r =>
              have hsndne : (lineSplit (c :: rest)).2 ≠ [] := by
                intro hnil
                rw [hnil, splitlinesKeepF_nil] at htail
                exact List.noConfusion htail
              have hterm := lineSplit_fst_term (c :: rest) hsndne
              have hyhead : y.head? = (lineSplit (c :: rest)).2.head? := by
                obtain ⟨c2, r2, hr2⟩ := List.exists_cons_of_ne_nil hsndne
                rw [hr2] at htail
                cases n with
                | zero => exact List.noConfusion (show ([] : List L) = y :: r from htail)
                | succ n2 =>
                    rw [splitlinesKeepF_cons] at htail
                    have hy : y = (lineSplit (c2 :: r2)).1 :=
                      (List.cons.injEq _ _ _ _ ▸ htail.symm).1
                    rw [hy, lineSplit_fst_head, hr2]
          -- wrong direction; fixed below
              refine ⟨lineSplit_fst_single _, hterm.1, ?_, htail ▸ htl⟩
              intro hcontra
              exact hterm.2 ⟨hcontra.1, by rw [← hyhead]; exact hcontra.2⟩

theorem splitlines_linesOK (s : L) : linesOK (splitlinesKeep s) :=
  splitlines_linesOK_F s.length s (Nat.le_refl _)

theorem linesOK_head_ne (y : L) (r : List L) (h : linesOK (y :: r)) : y ≠ [] := by
  cases r with
  | nil => exact h.2
  | cons z r2 =>
      rcases h with ⟨_, ⟨d, hd, _⟩, _, _⟩
      intro hnil
      rw [hnil] at hd
      simp at hd

theorem linesOK_tail (x : L) (r : List L) (h : linesOK (x :: r)) : linesOK r := by
  cases r with
  | nil => exact trivial
  | cons y r2 => exact h.2.2.2

theorem splitlines_flatten_eq : ∀ (ys : List L), linesOK ys →
    splitlinesKeep (ys.flatten) = ys := by
  intro ys
  induction ys with
  | nil => exact fun _ => rfl
  | cons x rest ih =>
      intro hok
      cases rest with
      | nil =>
          rcases hok with ⟨h1, h2⟩
          obtain ⟨c, l', rfl⟩ := List.exists_cons_of_ne_nil h2
          show splitlinesKeep ((c :: l') ++ []) = [c :: l']
          rw [List.append_nil, splitlinesKeep]
          rw [show (c :: l').length = l'.length + 1 from by simp, splitlinesKeepF_cons]
          unfold singleLine at h1
          rw [h1]
          simp [splitlinesKeepF_nil]
      | cons y r =>
          rcases hok with ⟨h1, h2, h3, h4⟩
          have hyne : y ≠ [] := linesOK_head_ne y r h4
          have hhead : ((y :: r).flatten).head? = y.head? := by
            obtain ⟨c, l', rfl⟩ := List.exists_cons_of_ne_nil hyne
            simp
          have hflat : ((x :: y :: r).flatten) = x ++ (y :: r).flatten := rfl
          rw [hflat, splitlines_cons_of_line x _ h1 h2 ?_, ih h4]
          intro hcontra
          rw [hhead] at hcontra
          exact h3 hcontra

theorem flagAfter_cons (c : Char) (x : L) (ls : Bool) :
    flagAfter (c :: x) ls = flagAfter x (decide (c = '\n')) := rfl

theorem lineStart_cons (c : Char) (rest : L) (ls : Bool) (i : Nat) :
    lineStart (c :: rest) ls (i + 1) ↔ lineStart rest (decide (c = '\n')) i := by
  unfold lineStart
  constructor
  · rintro (⟨h0, _⟩ | ⟨_, h2⟩)
    · exact absurd h0 (by omega)
    · cases i with
      | zero =>
          have h2e : c = '\n' := by simpa using h2
          exact Or.inl ⟨rfl, decide_eq_true h2e⟩
      | succ i' =>
          refine Or.inr ⟨by omega, ?_⟩
          simpa using h2
  · rintro (⟨h0, h1⟩ | ⟨h1, h2⟩)
    · subst h0
      exact Or.inr ⟨by omega, by simpa using of_decide_eq_true h1⟩
    · refine Or.inr ⟨by omega, ?_⟩
      cases i with
      | zero => omega
      | succ i' => simpa using h2

theorem searchM_some_spec (tryAt : L → Option Nat) :
    ∀ (s : L) (ls : Bool) (p k : Nat), searchM tryAt s ls = some (p, k) →
      p ≤ s.length ∧ lineStart s ls p ∧ tryAt (s.drop p) = some k ∧
        (∀ i, i < p → lineStart s ls i → tryAt (s.drop i) = none) := by
  intro s
  induction s with
  | nil =>
      intro ls p k h
      by_cases hls : ls = true
      · rw [searchM, if_pos hls] at h
        rcases Option.map_eq_some'.mp h with ⟨a, ha, hpk⟩
        have hp : p = 0 := by
          have := congrArg Prod.fst hpk
          simpa using this.symm
        have hk : k = a := by
          have := congrArg Prod.snd hpk
          simpa using this.symm
        subst hp; subst hk
        exact ⟨Nat.le_refl 0, Or.inl ⟨rfl, hls⟩, ha, fun i hi _ => by omega⟩
      · rw [searchM, if_neg hls] at h
        exact absurd h (by simp)
  | cons c rest ih =>
      intro ls p k h
      by_cases hls : ls = true
      · rw [searchM, if_pos hls] at h
        cases htry : tryAt (c :: rest) with
        | some k0 =>
            rw [htry] at h
            have hp : p = 0 := by
              have := congrArg Prod.fst (Option.some.inj h)
              simpa using this.symm
            have hk : k = k0 := by
              have := congrArg Prod.snd (Option.some.inj h)
              simpa using this.symm
            subst hp; subst hk
            exact ⟨Nat.zero_le _, Or.inl ⟨rfl, hls⟩, htry, fun i hi _ => by omega⟩
        | none =>
            rw [htry] at h
            rcases Option.map_eq_some'.mp h with ⟨⟨p', k'⟩, hrec, hpk⟩
            have hp : p = p' + 1 := by
              have := congrArg Prod.fst hpk
              simpa using this.symm
            have hk : k = k' := by
              have := congrArg Prod.snd hpk
              simpa using this.symm
            subst hp; subst hk
            rcases ih (decide (c = '\n')) p' k hrec with ⟨hle, hst, htr, hmin⟩
            refine ⟨by simpa using Nat.succ_le_succ hle,
              (lineStart_cons c rest ls p').mpr hst, htr, ?_⟩
            intro i hi hsti
            cases i with
            | zero => exact htry
            | succ i' =>
                have := hmin i' (by omega) ((lineStart_cons c rest ls i').mp hsti)
                simpa using this
      · rw [searchM, if_neg hls] at h
        rcases Option.map_eq_some'.mp h with ⟨⟨p', k'⟩, hrec, hpk⟩
        have hp : p = p' + 1 := by
          have := congrArg Prod.fst hpk
          simpa using this.symm
        have hk : k = k' := by
          have := congrArg Prod.snd hpk
          simpa using this.symm
        subst hp; subst hk
        rcases ih (decide (c = '\n')) p' k hrec with ⟨hle, hst, htr, hmin⟩
        refine ⟨by simpa using Nat.succ_le_succ hle,
          (lineStart_cons c rest ls p').mpr hst, htr, ?_⟩
        intro i hi hsti
        cases i with
        | zero =>
            rcases hsti with ⟨_, hl⟩ | ⟨h1, _⟩
            · exact absurd hl hls
            · omega
        | succ i' =>
            have := hmin i' (by omega) ((lineStart_cons c rest ls i').mp hsti)
            simpa using this

theorem searchM_of_found (tryAt : L → Option Nat) :
    ∀ (s : L) (ls : Bool) (p k : Nat),
      lineStart s ls p → tryAt (s.drop p) = some k →
      (∀ i, i < p → lineStart s ls i → tryAt (s.drop i) = none) →
      searchM tryAt s ls = some (p, k) := by
  intro s
  induction s with
  | nil =>
      intro ls p k hst htr _
      rcases hst with ⟨h0, hls⟩ | ⟨h1, h2⟩
      · subst h0
        rw [searchM, if_pos hls]
        simp only [List.drop_nil] at htr
        rw [htr]
        rfl
      · simp at h2
  | cons c rest ih =>
      intro ls p k hst htr hmin
      cases p with
      | zero =>
          have hls : ls = true := by
            rcases hst with ⟨_, hl⟩ | ⟨h1, _⟩
            · exact hl
            · omega
          rw [searchM, if_pos hls]
          simp only [List.drop_zero] at htr
          rw [htr]
      | succ p' =>
          have hrec : searchM tryAt rest (decide (c = '\n')) = some (p', k) := by
            refine ih (decide (c = '\n')) p' k
              ((lineStart_cons c rest ls p').mp hst) (by simpa using htr) ?_
            intro i hi hsti
            have := hmin (i + 1) (by omega) ((lineStart_cons c rest ls i).mpr hsti)
            simpa using this
          by_cases hls : ls = true
          · rw [searchM, if_pos hls]
            have h0 : tryAt (c :: rest) = none := by
              have := hmin 0 (by omega) (Or.inl ⟨rfl, hls⟩)
              simpa using this
            rw [h0, hrec]
            rfl
          · rw [searchM, if_neg hls, hrec]
            rfl

theorem searchM_none_spec (tryAt : L → Option Nat) :
    ∀ (s : L) (ls : Bool), searchM tryAt s ls = none →
      ∀ i, lineStart s ls i → tryAt (s.drop i) = none := by
  intro s
  induction s with
  | nil =>
      intro ls h i hst
      rcases hst with ⟨h0, hls⟩ | ⟨h1, h2⟩
      · subst h0
        rw [searchM, if_pos hls] at h
        simpa using Option.map_eq_none'.mp h
      · simp at h2
  | cons c rest ih =>
      intro ls h i hst
      by_cases hls : ls = true
      · rw [searchM, if_pos hls] at h
        cases htry : tryAt (c :: rest) with
        | some k0 => rw [htry] at h; exact absurd h (by simp)
        | none =>
            rw [htry] at h
            have hrec := Option.map_eq_none'.mp h
            cases i with
            | zero => exact htry
            | succ i' =>
                have := ih _ hrec i' ((lineStart_cons c rest ls i').mp hst)
                simpa using this
      · rw [searchM, if_neg hls] at h
        have hrec := Option.map_eq_none'.mp h
        cases i with
        | zero =>
            rcases hst with ⟨_, hl⟩ | ⟨h1, _⟩
            · exact absurd hl hls
            · omega
        | succ i' =>
            have := ih _ hrec i' ((lineStart_cons c rest ls i').mp hst)
            simpa using this

theorem searchM_append_skip (tryAt : L → Option Nat) :
    ∀ (x y : L) (ls : Bool),
      (∀ i, i < x.length → lineStart (x ++ y) ls i → tryAt ((x ++ y).drop i) = none) →
      searchM tryAt (x ++ y) ls =
        (searchM tryAt y (flagAfter x ls)).map (fun pr => (pr.1 + x.length, pr.2)) := by
  intro x
  induction x with
  | nil =>
      intro y ls _
      show searchM tryAt y ls = (searchM tryAt y (flagAfter [] ls)).map _
      cases h : searchM tryAt y ls with
      | none => simp [flagAfter, h]
      | some pr => simp [flagAfter, h]
  | cons c x' ih =>
      intro y ls hmin
      have htail : searchM tryAt (x' ++ y) (decide (c = '\n')) =
          (searchM tryAt y (flagAfter x' (decide (c = '\n')))).map
            (fun pr => (pr.1 + x'.length, pr.2)) := by
        refine ih y (decide (c = '\n')) ?_
        intro i hi hsti
        have := hmin (i + 1) (by simpa using Nat.succ_lt_succ hi)
          ((lineStart_cons c (x' ++ y) ls i).mpr hsti)
        simpa using this
      by_cases hls : ls = true
      · have h0 : tryAt (c :: (x' ++ y)) = none := by
          have := hmin 0 (by simp) (Or.inl ⟨rfl, hls⟩)
          simpa using this
        show searchM tryAt (c :: (x' ++ y)) ls = _
        rw [searchM, if_pos hls, h0, htail, flagAfter_cons]
        cases hy : searchM tryAt y (flagAfter x' (decide (c = '\n'))) with
        | none => simp
        | some pr =>
            simp only [Option.map_some', Option.map_map]
            have : pr.1 + x'.length + 1 = pr.1 + (x'.length + 1) := by omega
            simp [this]
      · show searchM tryAt (c :: (x' ++ y)) ls = _
        rw [searchM, if_neg hls, htail, flagAfter_cons]
        cases hy : searchM tryAt y (flagAfter x' (decide (c = '\n'))) with
        | none => simp
        | some pr =>
            simp only [Option.map_some', Option.map_map]
            have : pr.1 + x'.length + 1 = pr.1 + (x'.length + 1) := by omega
            simp [this]

theorem lastNlIdx_lt : ∀ (t : L) (i : Nat), lastNlIdx t = some i → i < t.length := by
  intro t
  induction t with
  | nil => intro i h; exact absurd h (by simp [lastNlIdx])
  | cons c rest ih =>
      intro i h
      rw [lastNlIdx] at h
      cases hrec : lastNlIdx rest with
      | some j =>
          rw [hrec] at h
          simp only [Option.some.injEq] at h
          have := ih j hrec
          simp only [List.length_cons]
          omega
      | none =>
          rw [hrec] at h
          by_cases hc : c = '\n'
          · rw [if_pos hc] at h
            simp only [Option.some.injEq] at h
            simp [← h]
          · rw [if_neg hc] at h
            exact absurd h (by simp)

theorem lastNlIdx_get : ∀ (t : L) (i : Nat), lastNlIdx t = some i → t[i]? = some '\n' := by
  intro t
  induction t with
  | nil => intro i h; exact absurd h (by simp [lastNlIdx])
  | cons c rest ih =>
      intro i h
      rw [lastNlIdx] at h
      cases hrec : lastNlIdx rest with
      | some j =>
          rw [hrec] at h
          simp only [Option.some.injEq] at h
          subst h
          simpa using ih j hrec
      | none =>
          rw [hrec] at h
          by_cases hc : c = '\n'
          · rw [if_pos hc] at h
            simp only [Option.some.injEq] at h
            subst h
            simp [hc]
          · rw [if_neg hc] at h
            exact absurd h (by simp)

theorem takeWhileWS_length_lt {a : L} {c : Char} (hc : c ∈ a) (hp : isWS c = false) :
    (a.takeWhile isWS).length < a.length := by
  have hle : (a.takeWhile isWS).length ≤ a.length :=
    (List.takeWhile_prefix isWS).length_le
  rcases Nat.lt_or_ge (a.takeWhile isWS).length a.length with h | h
  · exact h
  · exfalso
    have heq : a.takeWhile isWS = a :=
      (List.takeWhile_prefix isWS).eq_of_length (Nat.le_antisymm hle h)
    have : isWS c = true := List.mem_takeWhile_imp (heq ▸ hc)
    rw [this] at hp
    exact Bool.noConfusion hp

theorem wsDollar_le (s : L) (w : Nat) (h : wsDollar s = some w) : w ≤ s.length := by
  unfold wsDollar at h
  by_cases hk : (s.takeWhile isWS).length = s.length
  · rw [if_pos hk] at h
    simp only [Option.some.injEq] at h
    omega
  · rw [if_neg hk] at h
    have := lastNlIdx_lt _ _ h
    have h2 : (s.take (s.takeWhile isWS).length).length ≤ s.length := by
      simp [List.length_take]
    omega

theorem wsDollar_end (s : L) (w : Nat) (h : wsDollar s = some w) :
    w = s.length ∨ s[w]? = some '\n' := by
  unfold wsDollar at h
  by_cases hk : (s.takeWhile isWS).length = s.length
  · rw [if_pos hk] at h
    simp only [Option.some.injEq] at h
    exact Or.inl (by omega)
  · rw [if_neg hk] at h
    refine Or.inr ?_
    have hget := lastNlIdx_get _ _ h
    have hlt := lastNlIdx_lt _ _ h
    have hconj : w < (s.takeWhile isWS).length ∧ w < s.length := by
      simpa [List.length_take] using hlt
    rw [List.getElem?_take_of_lt hconj.1] at hget
    exact hget

theorem wsDollar_det (v z u u' : L) (hz : ∃ c ∈ z, isWS c = false) :
    wsDollar (v ++ (z ++ u)) = wsDollar (v ++ (z ++ u')) := by
  rcases hz with ⟨c, hcz, hcw⟩
  have hca : c ∈ v ++ z := List.mem_append_right v hcz
  have hklt : ((v ++ z).takeWhile isWS).length < (v ++ z).length :=
    takeWhileWS_length_lt hca hcw
  have key : ∀ X : L, wsDollar ((v ++ z) ++ X) =
      lastNlIdx ((v ++ z).take ((v ++ z).takeWhile isWS).length) := by
    intro X
    have htw : (((v ++ z) ++ X).takeWhile isWS) = (v ++ z).takeWhile isWS := by
      rw [List.takeWhile_append, if_neg (by omega)]
    have hlx : ((v ++ z) ++ X).length = (v ++ z).length + X.length := by
      simp
      omega
    show (if (((v ++ z) ++ X).takeWhile isWS).length = ((v ++ z) ++ X).length
        then some ((((v ++ z) ++ X).takeWhile isWS).length)
        else lastNlIdx (((v ++ z) ++ X).take ((((v ++ z) ++ X).takeWhile isWS).length))) = _
    rw [htw]
    rw [if_neg (by omega)]
    rw [List.take_append_of_le_length (by omega)]
  rw [← List.append_assoc, ← List.append_assoc, key u, key u']

theorem isPrefixOf_append_left (pat v X : L) (h : pat.length ≤ v.length) :
    pat.isPrefixOf (v ++ X) = pat.isPrefixOf v := by
  have h1 : pat.isPrefixOf (v ++ X) = true ↔ pat.isPrefixOf v = true := by
    rw [List.isPrefixOf_iff_prefix, List.isPrefixOf_iff_prefix,
      List.prefix_iff_eq_take, List.prefix_iff_eq_take,
      List.take_append_of_le_length h]
  cases hb : pat.isPrefixOf v with
  | true => exact h1.mpr hb
  | false =>
      cases hb2 : pat.isPrefixOf (v ++ X) with
      | true => rw [hb] at h1; exact absurd (h1.mp hb2) (by simp)
      | false => rfl

theorem stripLit_append_left (pat v X : L) (h : pat.length ≤ v.length) :
    stripLit pat (v ++ X) = (stripLit pat v).map (fun r => r ++ X) := by
  unfold stripLit
  rw [isPrefixOf_append_left pat v X h]
  cases hb : pat.isPrefixOf v with
  | true =>
      rw [if_pos rfl, if_pos rfl]
      simp [List.drop_append_of_le_length h]
  | false =>
      rw [if_neg (by simp), if_neg (by simp)]
      rfl

theorem tryHNHeader_ge (t : L) (k : Nat) (h : tryHNHeader t = some k) :
    hnHeaderLit.length ≤ k := by
  unfold tryHNHeader at h
  cases hs : stripLit hnHeaderLit t with
  | none => rw [hs] at h; exact absurd h (by simp)
  | some r =>
      rw [hs] at h
      rcases Option.map_eq_some'.mp h with ⟨w, _, hk⟩
      omega

theorem stripLit_some (pat t r : L) (h : stripLit pat t = some r) :
    pat.length ≤ t.length ∧ t = pat ++ r := by
  unfold stripLit at h
  by_cases hp : pat.isPrefixOf t
  · rw [if_pos hp] at h
    simp only [Option.some.injEq] at h
    have hpre : pat <+: t := List.isPrefixOf_iff_prefix.mp hp
    have hlen : pat.length ≤ t.length := hpre.length_le
    refine ⟨hlen, ?_⟩
    rcases hpre with ⟨w, hw⟩
    rw [← hw, ← h]
    simp [← hw]
  · rw [if_neg hp] at h
    exact absurd h (by simp)

theorem tryHNHeader_le (t : L) (k : Nat) (h : tryHNHeader t = some k) : k ≤ t.length := by
  unfold tryHNHeader at h
  cases hs : stripLit hnHeaderLit t with
  | none => rw [hs] at h; exact absurd h (by simp)
  | some r =>
      rw [hs] at h
      rcases Option.map_eq_some'.mp h with ⟨w, hw, hk⟩
      have h1 := wsDollar_le r w hw
      rcases stripLit_some _ _ _ hs with ⟨hlen, hteq⟩
      have : t.length = hnHeaderLit.length + r.length := by
        rw [hteq]; simp
      omega

theorem tryHNHeader_end (t : L) (k : Nat) (h : tryHNHeader t = some k) :
    k = t.length ∨ t[k]? = some '\n' := by
  unfold tryHNHeader at h
  cases hs : stripLit hnHeaderLit t with
  | none => rw [hs] at h; exact absurd h (by simp)
  | some r =>
      rw [hs] at h
      rcases Option.map_eq_some'.mp h with ⟨w, hw, hk⟩
      rcases stripLit_some _ _ _ hs with ⟨hlen, hteq⟩
      have hlen2 : t.length = hnHeaderLit.length + r.length := by
        rw [hteq]; simp
      rcases wsDollar_end r w hw with hend | hnl
      · exact Or.inl (by omega)
      · refine Or.inr ?_
        rw [hteq, ← hk, List.getElem?_append,
          if_neg (by simp only [Nat.not_lt]; omega)]
        simpa using hnl

theorem tryHNHeader_det (v z u u' : L) (hv : hnHeaderLit.length ≤ v.length)
    (hz : ∃ c ∈ z, isWS c = false) :
    tryHNHeader (v ++ (z ++ u)) = tryHNHeader (v ++ (z ++ u')) := by
  unfold tryHNHeader
  rw [stripLit_append_left hnHeaderLit v (z ++ u) hv,
    stripLit_append_left hnHeaderLit v (z ++ u') hv]
  cases hs : stripLit hnHeaderLit v with
  | none => rfl
  | some r =>
      simp only [Option.map_some']
      rw [show r ++ (z ++ u) = r ++ (z ++ u) from rfl]
      rw [wsDollar_det r z u u' hz]

theorem searchM_det_trans (tryAt : L → Option Nat) (n0 : Nat)
    (hge : ∀ t k, tryAt t = some k → n0 ≤ k)
    (hdet : ∀ v z u u', n0 ≤ v.length → (∃ c ∈ z, isWS c = false) →
      tryAt (v ++ (z ++ u)) = tryAt (v ++ (z ++ u')))
    (v z u u' : L) (ls : Bool) (p k : Nat)
    (hz : ∃ c ∈ z, isWS c = false) (hle : p + k ≤ v.length)
    (h : searchM tryAt (v ++ (z ++ u)) ls = some (p, k)) :
    searchM tryAt (v ++ (z ++ u')) ls = some (p, k) := by
  rcases searchM_some_spec tryAt _ ls p k h with ⟨hp, hst, htr, hmin⟩
  have hkn0 : n0 ≤ k := hge _ _ htr
  have hdrop : ∀ (i : Nat) (X : L), i ≤ v.length →
      (v ++ (z ++ X)).drop i = (v.drop i) ++ (z ++ X) := by
    intro i X hi
    exact List.drop_append_of_le_length hi
  have hstart : ∀ (i : Nat), i ≤ v.length →
      (lineStart (v ++ (z ++ u)) ls i ↔ lineStart (v ++ (z ++ u')) ls i) := by
    intro i hi
    unfold lineStart
    constructor
    · rintro (h1 | ⟨h1, h2⟩)
      · exact Or.inl h1
      · refine Or.inr ⟨h1, ?_⟩
        rw [List.getElem?_append, if_pos (by omega)] at h2 ⊢
        exact h2
    · rintro (h1 | ⟨h1, h2⟩)
      · exact Or.inl h1
      · refine Or.inr ⟨h1, ?_⟩
        rw [List.getElem?_append, if_pos (by omega)] at h2 ⊢
        exact h2
  refine searchM_of_found tryAt _ ls p k ((hstart p (by omega)).mp hst) ?_ ?_
  · rw [hdrop p u' (by omega)]
    rw [← hdet (v.drop p) z u u' (by simp [List.length_drop]; omega) hz]
    rw [← hdrop p u (by omega)]
    exact htr
  · intro i hi hsti
    rw [hdrop i u' (by omega)]
    rw [← hdet (v.drop i) z u u' (by simp [List.length_drop]; omega) hz]
    rw [← hdrop i u (by omega)]
    exact hmin i hi ((hstart i (by omega)).mpr hsti)

theorem head_dropWhileWS (l : L) (c : Char) (h : (l.dropWhile isWS).head? = some c) :
    isWS c = false := by
  induction l with
  | nil => simp at h
  | cons a rest ih =>
      rw [List.dropWhile_cons] at h
      by_cases ha : isWS a = true
      · rw [if_pos ha] at h
        exact ih h
      · rw [if_neg ha] at h
        simp only [List.head?_cons, Option.some.injEq] at h
        subst h
        simpa using ha

theorem pyStripWS_getLast (l : L) (c : Char) (h : (pyStripWS l).getLast? = some c) :
    isWS c = false := by
  unfold pyStripWS pyRStripWS at h
  rw [List.getLast?_reverse] at h
  exact head_dropWhileWS _ c h

theorem pyStripWS_of_allWS {l : L} (h : ∀ c ∈ l, isWS c = true) : pyStripWS l = [] := by
  unfold pyStripWS pyLStripWS pyRStripWS
  have h1 : l.dropWhile isWS = [] := List.dropWhile_eq_nil_iff.mpr h
  rw [h1]
  rfl

theorem strip_suffix_allWS {x Y rem : L} (hd : pyStripWS x = Y ++ rem)
    (hw : ∀ c ∈ rem, isWS c = true) : rem = [] := by
  cases hrem : rem with
  | nil => rfl
  | cons a r =>
      exfalso
      subst hrem
      have hne : (a :: r) ≠ ([] : L) := by simp
      have hlast9 : (a :: r).getLast? = some ((a :: r).getLast hne) :=
        List.getLast?_eq_getLast _ hne
      have hlastx : (pyStripWS x).getLast? = some ((a :: r).getLast hne) := by
        rw [hd, List.getLast?_append_of_ne_nil Y hne, hlast9]
      have h1 := pyStripWS_getLast x _ hlastx
      have h2 := hw _ (List.getLast_mem hne)
      rw [h2] at h1
      exact Bool.noConfusion h1

theorem rstrip_decomp (l : L) : ∃ b, l = pyRStripWS l ++ b ∧ ∀ c ∈ b, isWS c = true := by
  refine ⟨(l.reverse.takeWhile isWS).reverse, ?_, ?_⟩
  · unfold pyRStripWS
    calc l = l.reverse.reverse := by simp
    _ = (l.reverse.takeWhile isWS ++ l.reverse.dropWhile isWS).reverse := by
          rw [List.takeWhile_append_dropWhile]
    _ = (l.reverse.dropWhile isWS).reverse ++ (l.reverse.takeWhile isWS).reverse := by
          rw [List.reverse_append]
  · intro c hc
    rw [List.mem_reverse] at hc
    exact List.mem_takeWhile_imp hc

theorem strip_decomp (l : L) : ∃ a b, l = a ++ pyStripWS l ++ b ∧
    (∀ c ∈ a, isWS c = true) ∧ (∀ c ∈ b, isWS c = true) := by
  obtain ⟨b, hb, hbw⟩ := rstrip_decomp (pyLStripWS l)
  refine ⟨l.takeWhile isWS, b, ?_, ?_, hbw⟩
  · conv_lhs => rw [← List.takeWhile_append_dropWhile isWS l]
    unfold pyStripWS
    rw [List.append_assoc, ← hb]
    rfl
  · intro c hc
    exact List.mem_takeWhile_imp hc

theorem dropWhileWS_append_allWS {a r : L} (ha : ∀ c ∈ a, isWS c = true) :
    (a ++ r).dropWhile isWS = r.dropWhile isWS := by
  rw [List.dropWhile_append, if_pos]
  rw [List.dropWhile_eq_nil_iff.mpr ha]
  rfl

theorem takeWhile_append_allP {p : Char → Bool} {u R : L} (hu : ∀ c ∈ u, p c = true) :
    (u ++ R).takeWhile p = u ++ R.takeWhile p := by
  rw [List.takeWhile_append, if_pos]
  rw [List.takeWhile_eq_self_iff.mpr hu]

theorem rstrip_append_of_ne_nil {Y Z : L} (h : pyRStripWS Z ≠ []) :
    pyRStripWS (Y ++ Z) = Y ++ pyRStripWS Z := by
  unfold pyRStripWS at h ⊢
  have hd : Z.reverse.dropWhile isWS ≠ [] := by
    intro hnil
    rw [hnil] at h
    exact h rfl
  rw [List.reverse_append, List.dropWhile_append, if_neg (by simpa using hd),
    List.reverse_append]
  simp

theorem rstrip_self_append (Y Z : L) (hY : pyRStripWS Y = Y) :
    ∃ δ, pyRStripWS (Y ++ Z) = Y ++ δ := by
  by_cases h : pyRStripWS Z = []
  · refine ⟨[], ?_⟩
    unfold pyRStripWS at h ⊢
    have hd : Z.reverse.dropWhile isWS = [] := by
      cases hzz : Z.reverse.dropWhile isWS with
      | nil => rfl
      | cons a r => rw [hzz] at h; simp at h
    rw [List.reverse_append, List.dropWhile_append, if_pos (by simp [hd])]
    rw [List.append_nil]
    exact hY
  · exact ⟨pyRStripWS Z, rstrip_append_of_ne_nil h⟩

theorem linkURLTail_inv (sch r3 url : L) (h : linkURLTail sch r3 = some url) :
    ∃ u rem, r3 = u ++ rem ∧ u ≠ [] ∧ (∀ c ∈ u, isWS c = false) ∧
      (∀ c ∈ rem, isWS c = true) ∧ url = sch ++ u := by
  unfold linkURLTail at h
  by_cases h0 : r3.takeWhile (fun c => !isWS c) = []
  · rw [if_pos h0] at h
    exact absurd h (by simp)
  · rw [if_neg h0] at h
    by_cases h1 : (r3.drop (r3.takeWhile (fun c => !isWS c)).length).all isWS
    · rw [if_pos h1] at h
      refine ⟨r3.takeWhile (fun c => !isWS c),
        r3.drop (r3.takeWhile (fun c => !isWS c)).length, ?_, h0, ?_, ?_, ?_⟩
      · have hpre : r3.takeWhile (fun c => !isWS c) <+: r3 := List.takeWhile_prefix _
        have htake : r3.takeWhile (fun c => !isWS c) =
            r3.take (r3.takeWhile (fun c => !isWS c)).length :=
          List.prefix_iff_eq_take.mp hpre
        conv_lhs => rw [← List.take_append_drop (r3.takeWhile (fun c => !isWS c)).length r3]
        rw [← htake]
      · intro c hc
        have := List.mem_takeWhile_imp hc
        simpa using this
      · intro c hc
        exact List.all_eq_true.mp h1 c hc
      · exact (Option.some.inj h).symm
    · rw [if_neg h1] at h
      exact absurd h (by simp)

theorem linkURL_none (x : L) (hs : stripLit (S "Link:") (pyStripWS x) = none) :
    linkURL x = none := by
  unfold linkURL
  rw [hs]

theorem linkURL_some_eq (x r1 : L) (hs : stripLit (S "Link:") (pyStripWS x) = some r1) :
    linkURL x =
      match stripLit (S "https://") (r1.dropWhile isWS) with
      | some r3 => linkURLTail (S "https://") r3
      | none =>
          match stripLit (S "http://") (r1.dropWhile isWS) with
          | some r3 => linkURLTail (S "http://") r3
          | none => none := by
  unfold linkURL
  rw [hs]

theorem linkURL_inv (x url : L) (h : linkURL x = some url) :
    ∃ w sch u b, pyStripWS x = S "Link:" ++ (w ++ (sch ++ (u ++ b))) ∧
      (∀ c ∈ w, isWS c = true) ∧ (sch = S "https://" ∨ sch = S "http://") ∧
      u ≠ [] ∧ (∀ c ∈ u, isWS c = false) ∧ (∀ c ∈ b, isWS c = true) ∧
      url = sch ++ u := by
  cases hs : stripLit (S "Link:") (pyStripWS x) with
  | none => rw [linkURL_none x hs] at h; exact absurd h (by simp)
  | some r1 =>
      rw [linkURL_some_eq x r1 hs] at h
      rcases stripLit_some _ _ _ hs with ⟨_, ht1⟩
      have hr1 : r1 = r1.takeWhile isWS ++ r1.dropWhile isWS :=
        (List.takeWhile_append_dropWhile isWS r1).symm
      have hwall : ∀ c ∈ r1.takeWhile isWS, isWS c = true := by
        intro c hc; exact List.mem_takeWhile_imp hc
      cases hs2 : stripLit (S "https://") (r1.dropWhile isWS) with
      | some r3 =>
          rw [hs2] at h
          have h2 : linkURLTail (S "https://") r3 = some url := h
          rcases stripLit_some _ _ _ hs2 with ⟨_, ht2⟩
          rcases linkURLTail_inv _ _ _ h2 with ⟨u, rem, hr3, hune, hunw, hremw, hurl⟩
          refine ⟨r1.takeWhile isWS, S "https://", u, rem, ?_, hwall, Or.inl rfl,
            hune, hunw, hremw, hurl⟩
          rw [ht1]
          conv_lhs => rw [hr1, ht2, hr3]
      | none =>
          rw [hs2] at h
          cases hs3 : stripLit (S "http://") (r1.dropWhile isWS) with
          | none =>
              rw [hs3] at h
              exact absurd h (by simp)
          | some r3 =>
              rw [hs3] at h
              have h2 : linkURLTail (S "http://") r3 = some url := h
              rcases stripLit_some _ _ _ hs3 with ⟨_, ht2⟩
              rcases linkURLTail_inv _ _ _ h2 with ⟨u, rem, hr3, hune, hunw, hremw, hurl⟩
              refine ⟨r1.takeWhile isWS, S "http://", u, rem, ?_, hwall, Or.inr rfl,
                hune, hunw, hremw, hurl⟩
              rw [ht1]
              conv_lhs => rw [hr1, ht2, hr3]

theorem lstrip_head_nonws (c : Char) (t : L) (h : isWS c = false) :
    pyLStripWS (c :: t) = c :: t := by
  unfold pyLStripWS
  rw [List.dropWhile_cons, if_neg (by simp [h])]

theorem rstrip_eq_self (Y : L) (c : Char) (h1 : Y.getLast? = some c)
    (h2 : isWS c = false) : pyRStripWS Y = Y := by
  unfold pyRStripWS
  have hrev : Y.reverse.head? = some c := by rw [List.head?_reverse, h1]
  cases hY : Y.reverse with
  | nil => rw [hY] at hrev; exact absurd hrev (by simp)
  | cons hd tl =>
      rw [hY] at hrev
      simp only [List.head?_cons, Option.some.injEq] at hrev
      subst hrev
      rw [List.dropWhile_cons, if_neg (by simp [h2])]
      conv_rhs => rw [← List.reverse_reverse Y, hY]

theorem stripLit_link_on_hn (δ : L) :
    stripLit (S "Link:") (S "HN discussion:" ++ δ) = none := by
  unfold stripLit
  rw [if_neg]
  intro hp
  have hpre := List.isPrefixOf_iff_prefix.mp hp
  have htake := List.prefix_iff_eq_take.mp hpre
  rw [List.take_append_of_le_length (by decide)] at htake
  exact absurd htake (by decide)

theorem stripLit_https_on_http (δ : L) :
    stripLit (S "https://") (S "http://" ++ δ) = none := by
  unfold stripLit
  rw [if_neg]
  intro hp
  have hpre := List.isPrefixOf_iff_prefix.mp hp
  have h5 : (S "https") <+: (S "http://" ++ δ) :=
    List.IsPrefix.trans (List.isPrefixOf_iff_prefix.mp (by decide)) hpre
  have htake := List.prefix_iff_eq_take.mp h5
  rw [List.take_append_of_le_length (by decide)] at htake
  exact absurd htake (by decide)

theorem stripLit_append_self (pat rest : L) :
    stripLit pat (pat ++ rest) = some rest := by
  unfold stripLit
  rw [if_pos (List.isPrefixOf_iff_prefix.mpr (List.prefix_append pat rest))]
  simp

theorem linkURL_of_strip_hn (line : L) (δ : L)
    (hstrip : pyStripWS line = S "HN discussion:" ++ δ) : linkURL line = none :=
  linkURL_none line (by rw [hstrip]; exact stripLit_link_on_hn δ)

theorem startsHNDisc_insert (X : L) :
    startsHNDisc (S "HN discussion: " ++ X) = true := by
  unfold startsHNDisc
  have hshape : S "HN discussion: " ++ X = 'H' :: (S "N discussion: " ++ X) := rfl
  rw [hshape, lstrip_head_nonws 'H' _ (by decide), ← hshape]
  refine List.isPrefixOf_iff_prefix.mpr ?_
  have : S "HN discussion: " ++ X = S "HN discussion:" ++ (' ' :: X) := rfl
  rw [this]
  exact List.prefix_append _ _

theorem linkURL_hn_insert (X : L) : linkURL (S "HN discussion: " ++ X) = none := by
  have hshape : S "HN discussion: " ++ X = 'H' :: (S "N discussion: " ++ X) := rfl
  have hl : pyLStripWS (S "HN discussion: " ++ X) = S "HN discussion: " ++ X := by
    rw [hshape, lstrip_head_nonws 'H' _ (by decide), ← hshape]
  have hshape2 : S "HN discussion: " ++ X = S "HN discussion:" ++ (' ' :: X) := rfl
  obtain ⟨δ, hδ⟩ := rstrip_self_append (S "HN discussion:") (' ' :: X)
    (rstrip_eq_self _ ':' (by decide) (by decide))
  refine linkURL_of_strip_hn _ δ ?_
  show pyRStripWS (pyLStripWS (S "HN discussion: " ++ X)) = S "HN discussion:" ++ δ
  rw [hl, hshape2]
  exact hδ

theorem linkURL_blank (line : L) (h : pyStripWS line = []) : linkURL line = none := by
  refine linkURL_none line ?_
  rw [h]
  unfold stripLit
  rw [if_neg]
  intro hp
  have hpre := List.isPrefixOf_iff_prefix.mp hp
  have := hpre.length_le
  simp [S] at this

theorem startsHN_not_link (y : L) (h : startsHNDisc y = true) : linkURL y = none := by
  unfold startsHNDisc at h
  have hpre := List.isPrefixOf_iff_prefix.mp h
  rcases hpre with ⟨γ, hγ⟩
  obtain ⟨δ, hδ⟩ := rstrip_self_append (S "HN discussion:") γ
    (rstrip_eq_self _ ':' (by decide) (by decide))
  refine linkURL_of_strip_hn _ δ ?_
  show pyRStripWS (pyLStripWS y) = S "HN discussion:" ++ δ
  rw [← hγ]
  exact hδ

theorem linkURLTail_eq (sch r3 : L) : linkURLTail sch r3 =
    (if r3.takeWhile (fun c => !isWS c) = [] then none
     else if (r3.drop (r3.takeWhile (fun c => !isWS c)).length).all isWS = true
       then some (sch ++ r3.takeWhile (fun c => !isWS c)) else none) := by
  simp only [linkURLTail]

theorem linkURLTail_glue_none (sch u B δ2 : L) (hune : u ≠ [])
    (hunw : ∀ c ∈ u, isWS c = false) (hBw : ∀ c ∈ B, isWS c = true) :
    linkURLTail sch (u ++ (B ++ (S "HN discussion:" ++ δ2))) = none := by
  have hu2 : ∀ c ∈ u, (!isWS c) = true := by
    intro c hc; simp [hunw c hc]
  rw [linkURLTail_eq]
  cases hB : B with
  | nil =>
      subst hB
      have hshape : ([] : L) ++ (S "HN discussion:" ++ δ2) =
          ('H' : Char) :: 'N' :: ' ' :: (S "discussion:" ++ δ2) := rfl
      have htw : (u ++ (([] : L) ++ (S "HN discussion:" ++ δ2))).takeWhile
          (fun c => !isWS c) = u ++ ['H', 'N'] := by
        rw [takeWhile_append_allP hu2, hshape]
        rw [List.takeWhile_cons, if_pos (by decide), List.takeWhile_cons,
          if_pos (by decide), List.takeWhile_cons, if_neg (by decide)]
      rw [htw, if_neg (by simp), if_neg]
      intro hall
      have hsplit : u ++ (([] : L) ++ (S "HN discussion:" ++ δ2)) =
          (u ++ ['H', 'N']) ++ (' ' :: (S "discussion:" ++ δ2)) := by
        simp only [List.nil_append, List.append_assoc]
        rfl
      rw [hsplit, List.drop_left] at hall
      have hmem : ('d' : Char) ∈ ' ' :: (S "discussion:" ++ δ2) :=
        List.mem_cons_of_mem _ (List.mem_append_left _ (by decide))
      have := List.all_eq_true.mp hall 'd' hmem
      exact absurd this (by decide)
  | cons hd B' =>
      subst hB
      have hhd : isWS hd = true := hBw hd (List.mem_cons_self hd B')
      have htw : (u ++ ((hd :: B') ++ (S "HN discussion:" ++ δ2))).takeWhile
          (fun c => !isWS c) = u := by
        rw [takeWhile_append_allP hu2]
        rw [show (hd :: B') ++ (S "HN discussion:" ++ δ2) =
          hd :: (B' ++ (S "HN discussion:" ++ δ2)) from rfl]
        rw [List.takeWhile_cons, if_neg (by simp [hhd])]
        simp
      rw [htw, if_neg hune, if_neg]
      intro hall
      rw [List.drop_left] at hall
      have hmem : ('H' : Char) ∈ (hd :: B') ++ (S "HN discussion:" ++ δ2) :=
        List.mem_append_right _ (List.mem_append_left _ (by decide))
      have := List.all_eq_true.mp hall 'H' hmem
      exact absurd this (by decide)

theorem linkURL_glue (x d2 url : L) (h : linkURL x = some url) :
    linkURL (x ++ (S "HN discussion: " ++ (d2 ++ S "\n"))) = none := by
  rcases linkURL_inv x url h with ⟨w, sch, u, b, hstrip, hw, hsch, hune, hunw, hbw, _⟩
  obtain ⟨b3, hb3, hb3w⟩ := rstrip_decomp (pyLStripWS x)
  have hb3u : x.dropWhile isWS = pyStripWS x ++ b3 := hb3
  have hlne : pyLStripWS x ≠ [] := by
    intro hnil
    have h0 : pyStripWS x ++ b3 = [] := by
      rw [← hb3u]
      exact hnil
    have h1 : pyStripWS x = [] := (List.append_eq_nil.mp h0).1
    rw [hstrip] at h1
    have := congrArg List.length h1
    simp [S] at this
  have hlT : pyLStripWS (x ++ (S "HN discussion: " ++ (d2 ++ S "\n"))) =
      (pyStripWS x ++ b3) ++ (S "HN discussion: " ++ (d2 ++ S "\n")) := by
    unfold pyLStripWS
    rw [List.dropWhile_append, if_neg (by rw [List.isEmpty_iff]; exact hlne), hb3u]
  have hY : (pyStripWS x ++ b3) ++ (S "HN discussion: " ++ (d2 ++ S "\n")) =
      (pyStripWS x ++ (b3 ++ S "HN discussion:")) ++ (' ' :: (d2 ++ S "\n")) := by
    simp only [List.append_assoc]
    rfl
  have hYlast : (pyStripWS x ++ (b3 ++ S "HN discussion:")).getLast? = some ':' := by
    rw [List.getLast?_append_of_ne_nil _
        (by intro hnil; exact absurd (List.append_eq_nil.mp hnil).2 (by decide)),
      List.getLast?_append_of_ne_nil _ (by decide)]
    decide
  obtain ⟨δ, hδ⟩ := rstrip_self_append (pyStripWS x ++ (b3 ++ S "HN discussion:"))
    (' ' :: (d2 ++ S "\n")) (rstrip_eq_self _ ':' hYlast (by decide))
  have hstripglue : pyStripWS (x ++ (S "HN discussion: " ++ (d2 ++ S "\n"))) =
      (pyStripWS x ++ (b3 ++ S "HN discussion:")) ++ δ := by
    show pyRStripWS (pyLStripWS (x ++ (S "HN discussion: " ++ (d2 ++ S "\n")))) = _
    rw [hlT, hY, hδ]
  have hfinal : pyStripWS (x ++ (S "HN discussion: " ++ (d2 ++ S "\n"))) =
      S "Link:" ++ (w ++ (sch ++ (u ++ (b ++ (b3 ++ (S "HN discussion:" ++ δ)))))) := by
    rw [hstripglue, hstrip]
    simp [List.append_assoc]
  have hs : stripLit (S "Link:")
      (pyStripWS (x ++ (S "HN discussion: " ++ (d2 ++ S "\n")))) =
      some (w ++ (sch ++ (u ++ (b ++ (b3 ++ (S "HN discussion:" ++ δ)))))) := by
    rw [hfinal]
    exact stripLit_append_self _ _
  rw [linkURL_some_eq _ _ hs]
  have hbb3 : ∀ c ∈ b ++ b3, isWS c = true := by
    intro c hc
    rcases List.mem_append.mp hc with hc | hc
    · exact hbw c hc
    · exact hb3w c hc
  have hassoc : u ++ (b ++ (b3 ++ (S "HN discussion:" ++ δ))) =
      u ++ ((b ++ b3) ++ (S "HN discussion:" ++ δ)) := by
    simp [List.append_assoc]
  rcases hsch with rfl | rfl
  · have hdw : (w ++ (S "https://" ++ (u ++ (b ++ (b3 ++
        (S "HN discussion:" ++ δ)))))).dropWhile isWS =
        S "https://" ++ (u ++ (b ++ (b3 ++ (S "HN discussion:" ++ δ)))) := by
      rw [dropWhileWS_append_allWS hw]
      show List.dropWhile isWS ('h' :: (S "ttps://" ++ _)) = _
      rw [List.dropWhile_cons, if_neg (by decide)]
      rfl
    rw [hdw, stripLit_append_self]
    show linkURLTail (S "https://") (u ++ (b ++ (b3 ++ (S "HN discussion:" ++ δ)))) = none
    rw [hassoc]
    exact linkURLTail_glue_none _ u (b ++ b3) δ hune hunw hbb3
  · have hdw : (w ++ (S "http://" ++ (u ++ (b ++ (b3 ++
        (S "HN discussion:" ++ δ)))))).dropWhile isWS =
        S "http://" ++ (u ++ (b ++ (b3 ++ (S "HN discussion:" ++ δ)))) := by
      rw [dropWhileWS_append_allWS hw]
      show List.dropWhile isWS ('h' :: (S "ttp://" ++ _)) = _
      rw [List.dropWhile_cons, if_neg (by decide)]
      rfl
    rw [hdw, stripLit_https_on_http, stripLit_append_self]
    show linkURLTail (S "http://") (u ++ (b ++ (b3 ++ (S "HN discussion:" ++ δ)))) = none
    rw [hassoc]
    exact linkURLTail_glue_none _ u (b ++ b3) δ hune hunw hbb3

theorem processLines_keep (m : L → Option L) (line : L) (rest : List L)
    (h : insertWorthy m line → skipOK rest = true) :
    processLines m (line :: rest) = line :: processLines m rest := by
  simp only [processLines]
  cases hu : linkURL line with
  | none => rfl
  | some url =>
      show (match m url with
            | none => line :: processLines m rest
            | some d =>
                if d = [] then line :: processLines m rest
                else if skipOK rest then line :: processLines m rest
                else line :: (S "HN discussion: " ++ d ++ S "\n") :: S "\n" ::
                  processLines m rest)
          = line :: processLines m rest
      cases hd : m url with
      | none => rfl
      | some d =>
          show (if d = [] then line :: processLines m rest
                else if skipOK rest then line :: processLines m rest
                else line :: (S "HN discussion: " ++ d ++ S "\n") :: S "\n" ::
                  processLines m rest)
              = line :: processLines m rest
          by_cases hde : d = []
          · rw [if_pos hde]
          · rw [if_neg hde, if_pos (h ⟨url, d, hu, hd, hde⟩)]

theorem processLines_insert (m : L → Option L) (line : L) (rest : List L)
    (url d : L) (hu : linkURL line = some url) (hd : m url = some d) (hde : d ≠ [])
    (hs : skipOK rest = false) :
    processLines m (line :: rest) =
      line :: (S "HN discussion: " ++ d ++ S "\n") :: S "\n" :: processLines m rest := by
  simp only [processLines]
  rw [hu]
  show (match m url with
        | none => line :: processLines m rest
        | some d =>
            if d = [] then line :: processLines m rest
            else if skipOK rest then line :: processLines m rest
            else line :: (S "HN discussion: " ++ d ++ S "\n") :: S "\n" ::
              processLines m rest)
      = line :: (S "HN discussion: " ++ d ++ S "\n") :: S "\n" :: processLines m rest
  rw [hd]
  show (if d = [] then line :: processLines m rest
        else if skipOK rest then line :: processLines m rest
        else line :: (S "HN discussion: " ++ d ++ S "\n") :: S "\n" ::
          processLines m rest)
      = line :: (S "HN discussion: " ++ d ++ S "\n") :: S "\n" :: processLines m rest
  rw [if_neg hde, if_neg (by simp [hs])]

theorem processLines_head (m : L → Option L) (y : L) (r : List L) :
    ∃ tl, processLines m (y :: r) = y :: tl := by
  cases hu : linkURL y with
  | none =>
      exact ⟨processLines m r, processLines_keep m y r
        (fun hw => by rcases hw with ⟨url, d, hurl, _, _⟩; rw [hu] at hurl; cases hurl)⟩
  | some url =>
      cases hd : m url with
      | none =>
          refine ⟨processLines m r, processLines_keep m y r ?_⟩
          rintro ⟨url2, d2, hurl, hmd, _⟩
          rw [hu] at hurl
          have : url2 = url := (Option.some.inj hurl).symm
          subst this
          rw [hd] at hmd
          cases hmd
      | some d =>
          by_cases hde : d = []
          · refine ⟨processLines m r, processLines_keep m y r ?_⟩
            rintro ⟨url2, d2, hurl, hmd, hne⟩
            rw [hu] at hurl
            have : url2 = url := (Option.some.inj hurl).symm
            subst this
            rw [hd] at hmd
            have : d2 = d := (Option.some.inj hmd).symm
            subst this
            exact absurd hde hne
          · cases hs : skipOK r with
            | true => exact ⟨processLines m r, processLines_keep m y r (fun _ => hs)⟩
            | false =>
                exact ⟨(S "HN discussion: " ++ d ++ S "\n") :: S "\n" :: processLines m r,
                  processLines_insert m y r url d hu hd hde hs⟩

theorem processLines_settled_id (m : L → Option L) :
    ∀ zs, settledLines m zs → processLines m zs = zs := by
  intro zs
  induction zs with
  | nil => exact fun _ => rfl
  | cons x r ih =>
      intro h
      rw [processLines_keep m x r h.1, ih h.2]

theorem skipOK_cons_blank {x : L} (r : List L) (hx : pyStripWS x = []) :
    skipOK (x :: r) = skipOK r := by
  simp only [skipOK]
  rw [show firstNonBlank (x :: r) = firstNonBlank r from by
    simp only [firstNonBlank]; rw [if_pos hx]]

theorem skipOK_cons_nonblank {x : L} (r : List L) (hx : pyStripWS x ≠ []) :
    skipOK (x :: r) = startsHNDisc x := by
  simp only [skipOK]
  rw [show firstNonBlank (x :: r) = some x from by
    simp only [firstNonBlank]; rw [if_neg hx]]

theorem skipOK_take : ∀ (rest : List L) (t : Nat) (y : L), skipOK rest = true →
    rest[t]? = some y → pyStripWS y ≠ [] → startsHNDisc y = false →
    skipOK (rest.take t) = true := by
  intro rest
  induction rest with
  | nil => intro t y _ hy _ _; simp at hy
  | cons x r ih =>
      intro t y h hy hy1 hy2
      by_cases hx : pyStripWS x = []
      · rw [skipOK_cons_blank r hx] at h
        cases t with
        | zero =>
            simp only [List.getElem?_cons_zero, Option.some.injEq] at hy
            subst hy
            exact absurd hx hy1
        | succ t' =>
            rw [List.take_succ_cons, skipOK_cons_blank _ hx]
            exact ih t' y h (by simpa using hy) hy1 hy2
      · rw [skipOK_cons_nonblank r hx] at h
        cases t with
        | zero =>
            simp only [List.getElem?_cons_zero, Option.some.injEq] at hy
            subst hy
            rw [h] at hy2
            cases hy2
        | succ t' =>
            rw [List.take_succ_cons, skipOK_cons_nonblank _ hx]
            exact h

theorem settledLines_take (m : L → Option L) :
    ∀ (ys : List L) (k : Nat), settledLines m ys →
      (∀ nl, ys[k]? = some nl → pyStripWS nl ≠ [] ∧ startsHNDisc nl = false) →
      settledLines m (ys.take k) := by
  intro ys
  induction ys with
  | nil => intro k _ _; simp [settledLines]
  | cons x r ih =>
      intro k h hk
      cases k with
      | zero => exact trivial
      | succ k' =>
          rw [List.take_succ_cons]
          refine ⟨?_, ih k' h.2 (fun nl hnl => hk nl (by simpa using hnl))⟩
          intro hw
          have hr := h.1 hw
          cases hget : r[k']? with
          | some nl =>
              rcases hk nl (by simpa using hget) with ⟨h1, h2⟩
              exact skipOK_take r k' nl hr hget h1 h2
          | none =>
              have : r.length ≤ k' := by
                by_contra hcon
                push_neg at hcon
                rw [List.getElem?_eq_getElem hcon] at hget
                cases hget
              rw [List.take_of_length_le this]
              exact hr

theorem splitlines_single (y : L) (h1 : singleLine y) (h2 : y ≠ []) :
    splitlinesKeep y = [y] := by
  have := splitlines_flatten_eq [y] ⟨h1, h2⟩
  simpa using this

theorem skipOK_trans (m : L → Option L) :
    ∀ rest, linesOK rest → skipOK rest = true →
      skipOK (splitlinesKeep ((processLines m rest).flatten)) = true := by
  intro rest
  induction rest with
  | nil => intro _ h; simp [skipOK, firstNonBlank] at h
  | cons y r ih =>
      intro hok h
      by_cases hy : pyStripWS y = []
      · rw [skipOK_cons_blank r hy] at h
        cases r with
        | nil => simp [skipOK, firstNonBlank] at h
        | cons z r2 =>
            rcases hok with ⟨h1, h2, h3, h4⟩
            have hkeep : processLines m (y :: z :: r2) = y :: processLines m (z :: r2) :=
              processLines_keep m y _ (fun hw => by
                rcases hw with ⟨url, d, hurl, _, _⟩
                rw [linkURL_blank y hy] at hurl
                cases hurl)
            obtain ⟨tl, htl⟩ := processLines_head m z r2
            have hzne : z ≠ [] := linesOK_head_ne z r2 h4
            have hsplit : splitlinesKeep ((processLines m (y :: z :: r2)).flatten) =
                y :: splitlinesKeep ((processLines m (z :: r2)).flatten) := by
              rw [hkeep, List.flatten_cons]
              refine splitlines_cons_of_line y _ h1 h2 ?_
              intro hcontra
              refine h3 ⟨hcontra.1, ?_⟩
              rw [htl, List.flatten_cons] at hcontra
              obtain ⟨c0, z', rfl⟩ := List.exists_cons_of_ne_nil hzne
              simpa using hcontra.2
            rw [hsplit, skipOK_cons_blank _ hy]
            exact ih h4 h
      · rw [skipOK_cons_nonblank r hy] at h
        have hkeep : processLines m (y :: r) = y :: processLines m r :=
          processLines_keep m y r (fun hw => by
            rcases hw with ⟨url, d, hurl, _, _⟩
            rw [startsHN_not_link y h] at hurl
            cases hurl)
        cases r with
        | nil =>
            have h1 := hok.1
            have h2 := hok.2
            rw [hkeep]
            show skipOK (splitlinesKeep ((y :: processLines m []).flatten)) = true
            have : (y :: processLines m []).flatten = y := by
              simp [processLines]
            rw [this, splitlines_single y h1 h2, skipOK_cons_nonblank _ hy]
            exact h
        | cons z r2 =>
            rcases hok with ⟨h1, h2, h3, h4⟩
            obtain ⟨tl, htl⟩ := processLines_head m z r2
            have hzne : z ≠ [] := linesOK_head_ne z r2 h4
            have hsplit : splitlinesKeep ((processLines m (y :: z :: r2)).flatten) =
                y :: splitlinesKeep ((processLines m (z :: r2)).flatten) := by
              rw [hkeep, List.flatten_cons]
              refine splitlines_cons_of_line y _ h1 h2 ?_
              intro hcontra
              refine h3 ⟨hcontra.1, ?_⟩
              rw [htl, List.flatten_cons] at hcontra
              obtain ⟨c0, z', rfl⟩ := List.exists_cons_of_ne_nil hzne
              simpa using hcontra.2
            rw [hsplit, skipOK_cons_nonblank _ hy]
            exact h

theorem lineSplit_noBrk_nl : ∀ (body z : L), noBrk body = true →
    lineSplit (body ++ ('\n' :: z)) = (body ++ ['\n'], z) := by
  intro body
  induction body with
  | nil =>
      intro z _
      show lineSplit ('\n' :: z) = (['\n'], z)
      have h1 : ('\n' : Char) = '\r' ↔ False := by simp
      have h2 : isLineBreakChar '\n' = true := by decide
      simp [lineSplit, h1, h2]
  | cons b t ih =>
      intro z hb
      have hbnb : isLineBreakChar b = false := by
        have := List.all_eq_true.mp hb b (List.mem_cons_self b t)
        simpa using this
      have hbr : b ≠ '\r' := by
        intro hr
        rw [hr] at hbnb
        exact absurd hbnb (by decide)
      have htb : noBrk t = true := by
        refine List.all_eq_true.mpr ?_
        intro c hc
        exact List.all_eq_true.mp hb c (List.mem_cons_of_mem b hc)
      show lineSplit (b :: (t ++ ('\n' :: z))) = ((b :: t) ++ ['\n'], z)
      have hred : lineSplit (b :: (t ++ ('\n' :: z))) =
          (b :: (lineSplit (t ++ ('\n' :: z))).1, (lineSplit (t ++ ('\n' :: z))).2) := by
        simp [lineSplit, hbr, hbnb]
      rw [hred, ih z htb]
      simp

theorem singleLine_nl (body : L) (hb : noBrk body = true) :
    singleLine (body ++ ['\n']) := by
  unfold singleLine
  have := lineSplit_noBrk_nl body [] hb
  simpa using this

theorem termL_nl (body : L) : termL (body ++ ['\n']) :=
  ⟨'\n', by rw [List.getLast?_append_of_ne_nil _ (by simp)]; rfl, by decide⟩

theorem strip_ne_nil_of_head_nonws (c : Char) (t : L) (h : isWS c = false) :
    pyStripWS (c :: t) ≠ [] := by
  intro hnil
  have hl : pyLStripWS (c :: t) = c :: t := lstrip_head_nonws c t h
  have hthis : pyRStripWS (pyLStripWS (c :: t)) = [] := hnil
  rw [hl] at hthis
  have this : pyRStripWS (c :: t) = [] := hthis
  unfold pyRStripWS at this
  have h2 : (c :: t).reverse.dropWhile isWS = [] := by
    cases hd : (c :: t).reverse.dropWhile isWS with
    | nil => rfl
    | cons a r => rw [hd] at this; simp at this
  have h3 := List.dropWhile_eq_nil_iff.mp h2
  have h4 : isWS c = true := h3 c (by simp)
  rw [h4] at h
  cases h

theorem noBrk_of_single_unterm : ∀ (x : L), singleLine x → ¬termL x → noBrk x = true := by
  intro x
  induction x with
  | nil => intro _ _; rfl
  | cons c t ih =>
      intro h1 h2
      unfold singleLine at h1
      by_cases hc : c = '\r'
      · exfalso
        subst hc
        cases t with
        | nil => exact h2 ⟨'\r', rfl, by decide⟩
        | cons c2 r2 =>
            by_cases h2e : c2 = '\n'
            · subst h2e
              have hred : lineSplit ('\r' :: '\n' :: r2) = (['\r', '\n'], r2) := rfl
              rw [hred] at h1
              have hr2 : r2 = [] := by simpa using congrArg Prod.snd h1
              subst hr2
              exact h2 ⟨'\n', rfl, by decide⟩
            · have hred : lineSplit ('\r' :: c2 :: r2) = (['\r'], c2 :: r2) := by
                simp [lineSplit, h2e]
              rw [hred] at h1
              have := congrArg Prod.snd h1
              simp at this
      · by_cases hb : isLineBreakChar c
        · exfalso
          have hred : lineSplit (c :: t) = ([c], t) := by
            simp [lineSplit, hc, hb]
          rw [hred] at h1
          have ht : t = [] := by simpa using congrArg Prod.snd h1
          subst ht
          exact h2 ⟨c, rfl, hb⟩
        · have hred : lineSplit (c :: t) =
              (c :: (lineSplit t).1, (lineSplit t).2) := by
            simp [lineSplit, hc, hb]
          rw [hred] at h1
          have hfst : (lineSplit t).1 = t := by
            have := congrArg Prod.fst h1
            simpa using this
          have hsnd : (lineSplit t).2 = [] := by simpa using congrArg Prod.snd h1
          have hsingle : singleLine t := by
            unfold singleLine
            rw [show lineSplit t = ((lineSplit t).1, (lineSplit t).2) from rfl, hfst, hsnd]
          refine List.all_eq_true.mpr ?_
          intro a ha
          rcases List.mem_cons.mp ha with rfl | ha2
          · simpa using hb
          · by_cases htn : t = []
            · rw [htn] at ha2; simp at ha2
            · have hterm : ¬termL t := by
                rintro ⟨d, hd, hdb⟩
                exact h2 ⟨d, by rw [getLast_cons_of_ne htn]; exact hd, hdb⟩
              exact List.all_eq_true.mp (ih hsingle hterm) a ha2

theorem processLines_cases (m : L → Option L) (x : L) (rest : List L) :
    (processLines m (x :: rest) = x :: processLines m rest ∧
      (insertWorthy m x → skipOK rest = true)) ∨
    (∃ url d, linkURL x = some url ∧ m url = some d ∧ d ≠ [] ∧ skipOK rest = false ∧
      processLines m (x :: rest) =
        x :: (S "HN discussion: " ++ d ++ S "\n") :: S "\n" :: processLines m rest) := by
  cases hu : linkURL x with
  | none =>
      refine Or.inl ⟨processLines_keep m x rest ?_, ?_⟩ <;>
        · rintro ⟨url, d, hurl, _, _⟩
          rw [hu] at hurl
          cases hurl
  | some url =>
      cases hd : m url with
      | none =>
          refine Or.inl ⟨processLines_keep m x rest ?_, ?_⟩ <;>
            · rintro ⟨url2, d2, hurl, hmd, _⟩
              rw [hu] at hurl
              have : url2 = url := (Option.some.inj hurl).symm
              subst this
              rw [hd] at hmd
              cases hmd
      | some d =>
          by_cases hde : d = []
          · refine Or.inl ⟨processLines_keep m x rest ?_, ?_⟩ <;>
              · rintro ⟨url2, d2, hurl, hmd, hne⟩
                rw [hu] at hurl
                have : url2 = url := (Option.some.inj hurl).symm
                subst this
                rw [hd] at hmd
                have : d2 = d := (Option.some.inj hmd).symm
                subst this
                exact absurd hde hne
          · cases hs : skipOK rest with
            | true =>
                exact Or.inl ⟨processLines_keep m x rest (fun _ => hs), fun _ => rfl⟩
            | false =>
                exact Or.inr ⟨url, d, rfl, hd, hde, rfl,
                  processLines_insert m x rest url d hu hd hde hs⟩

theorem settled_core (m : L → Option L) (hm : mapNoBrk m) :
    ∀ xs, linesOK xs → settledLines m (splitlinesKeep ((processLines m xs).flatten)) := by
  intro xs
  induction xs with
  | nil => intro _; exact trivial
  | cons x rest ih =>
      intro hok
      rcases processLines_cases m x rest with ⟨heq, himp⟩ | ⟨url, d, hu, hd, hde, hs, heq⟩
      · rw [heq]
        cases rest with
        | nil =>
            have hflat : (x :: processLines m []).flatten = x := by
              simp [processLines]
            rw [hflat, splitlines_single x hok.1 hok.2]
            exact ⟨himp, trivial⟩
        | cons z r2 =>
            rcases hok with ⟨h1, h2, h3, h4⟩
            obtain ⟨tl, htl⟩ := processLines_head m z r2
            have hzne : z ≠ [] := linesOK_head_ne z r2 h4
            have hsplit : splitlinesKeep ((x :: processLines m (z :: r2)).flatten) =
                x :: splitlinesKeep ((processLines m (z :: r2)).flatten) := by
              rw [List.flatten_cons]
              refine splitlines_cons_of_line x _ h1 h2 ?_
              intro hcontra
              refine h3 ⟨hcontra.1, ?_⟩
              rw [htl, List.flatten_cons] at hcontra
              obtain ⟨c0, z', rfl⟩ := List.exists_cons_of_ne_nil hzne
              simpa using hcontra.2
            rw [hsplit]
            refine ⟨?_, ih h4⟩
            intro hw
            exact skipOK_trans m (z :: r2) h4 (himp hw)
      · have hdnb : noBrk d = true := hm url d hd
        have hbody : noBrk (S "HN discussion: " ++ d) = true := by
          unfold noBrk at hdnb ⊢
          rw [List.all_append, hdnb]
          rw [show (S "HN discussion: ").all (fun c => !isLineBreakChar c) = true from by decide]
          rfl
        have hHNd : S "HN discussion: " ++ d ++ S "\n" =
            (S "HN discussion: " ++ d) ++ ['\n'] := rfl
        have hsingleHN : singleLine (S "HN discussion: " ++ d ++ S "\n") :=
          hHNd ▸ singleLine_nl _ hbody
        have htermHN : termL (S "HN discussion: " ++ d ++ S "\n") :=
          hHNd ▸ termL_nl _
        have hlastHN : (S "HN discussion: " ++ d ++ S "\n").getLast? = some '\n' := by
          rw [hHNd, List.getLast?_append_of_ne_nil _ (by simp)]
          rfl
        have hshape : S "HN discussion: " ++ d ++ S "\n" =
            'H' :: (S "N discussion: " ++ d ++ S "\n") := rfl
        have hstripHN : pyStripWS (S "HN discussion: " ++ d ++ S "\n") ≠ [] := by
          rw [hshape]
          exact strip_ne_nil_of_head_nonws 'H' _ (by decide)
        have hassocHN : S "HN discussion: " ++ d ++ S "\n" =
            S "HN discussion: " ++ (d ++ S "\n") := by
          simp [List.append_assoc]
        have hHNworthyless : ¬ insertWorthy m (S "HN discussion: " ++ d ++ S "\n") := by
          rintro ⟨url2, d2, hurl, _, _⟩
          rw [hassocHN, linkURL_hn_insert _] at hurl
          cases hurl
        have hNLworthyless : ¬ insertWorthy m (S "\n") := by
          rintro ⟨url2, d2, hurl, _, _⟩
          rw [linkURL_blank _ (by decide)] at hurl
          cases hurl
        have hstartsHN : startsHNDisc (S "HN discussion: " ++ d ++ S "\n") = true := by
          rw [hassocHN]
          exact startsHNDisc_insert _
        have hsingleNL : singleLine (S "\n") := by
          unfold singleLine
          decide
        have htermNL : termL (S "\n") := ⟨'\n', rfl, by decide⟩
        rw [heq]
        cases rest with
        | cons z r2 =>
            rcases hok with ⟨h1, h2, h3, h4⟩
            obtain ⟨tl, htl⟩ := processLines_head m z r2
            have hzne : z ≠ [] := linesOK_head_ne z r2 h4
            have hsplit1 : splitlinesKeep ((x :: (S "HN discussion: " ++ d ++ S "\n") ::
                S "\n" :: processLines m (z :: r2)).flatten) =
                x :: splitlinesKeep (((S "HN discussion: " ++ d ++ S "\n") ::
                  S "\n" :: processLines m (z :: r2)).flatten) := by
              rw [List.flatten_cons]
              refine splitlines_cons_of_line x _ h1 h2 ?_
              rintro ⟨_, hhead⟩
              rw [List.flatten_cons, hshape] at hhead
              simp at hhead
            have hsplit2 : splitlinesKeep (((S "HN discussion: " ++ d ++ S "\n") ::
                S "\n" :: processLines m (z :: r2)).flatten) =
                (S "HN discussion: " ++ d ++ S "\n") ::
                  splitlinesKeep ((S "\n" :: processLines m (z :: r2)).flatten) := by
              rw [List.flatten_cons]
              refine splitlines_cons_of_line _ _ hsingleHN htermHN ?_
              rintro ⟨hlast, _⟩
              rw [hlastHN] at hlast
              simp at hlast
            have hsplit3 : splitlinesKeep ((S "\n" :: processLines m (z :: r2)).flatten) =
                S "\n" :: splitlinesKeep ((processLines m (z :: r2)).flatten) := by
              rw [List.flatten_cons]
              refine splitlines_cons_of_line _ _ hsingleNL htermNL ?_
              rintro ⟨hlast, _⟩
              simp [S] at hlast
            rw [hsplit1, hsplit2, hsplit3]
            refine ⟨?_, fun hw => absurd hw hHNworthyless,
              fun hw => absurd hw hNLworthyless, ih h4⟩
            intro _
            rw [skipOK_cons_nonblank _ hstripHN]
            exact hstartsHN
        | nil =>
            have h1 := hok.1
            have h2 := hok.2
            have hflat : ((x :: (S "HN discussion: " ++ d ++ S "\n") ::
                S "\n" :: processLines m []).flatten) =
                x ++ ((S "HN discussion: " ++ d ++ S "\n") ++ S "\n") := by
              show x ++ ((S "HN discussion: " ++ d ++ S "\n") ++ (S "\n" ++
                (processLines m []).flatten)) = _
              simp [processLines]
            by_cases hterm : termL x
            · have hsplA : splitlinesKeep (x ++ ((S "HN discussion: " ++ d ++ S "\n") ++
                  S "\n")) = x :: splitlinesKeep ((S "HN discussion: " ++ d ++ S "\n") ++
                  S "\n") := by
                refine splitlines_cons_of_line x _ h1 hterm ?_
                rintro ⟨_, hhead⟩
                rw [hshape] at hhead
                simp at hhead
              have hsplB : splitlinesKeep ((S "HN discussion: " ++ d ++ S "\n") ++ S "\n") =
                  (S "HN discussion: " ++ d ++ S "\n") :: splitlinesKeep (S "\n") := by
                refine splitlines_cons_of_line _ _ hsingleHN htermHN ?_
                rintro ⟨hlast, _⟩
                rw [hlastHN] at hlast
                simp at hlast
              rw [hflat, hsplA, hsplB, splitlines_single (S "\n") hsingleNL (by decide)]
              refine ⟨?_, fun hw => absurd hw hHNworthyless,
                fun hw => absurd hw hNLworthyless, trivial⟩
              intro _
              rw [skipOK_cons_nonblank _ hstripHN]
              exact hstartsHN
            · have hxnb : noBrk x = true := noBrk_of_single_unterm x h1 hterm
              have hbody2 : noBrk (x ++ (S "HN discussion: " ++ d)) = true := by
                unfold noBrk at hxnb hbody ⊢
                rw [List.all_append, hxnb, hbody]
                rfl
              have hglue : x ++ ((S "HN discussion: " ++ d ++ S "\n") ++ S "\n") =
                  ((x ++ (S "HN discussion: " ++ d)) ++ ['\n']) ++ ['\n'] := by
                simp [List.append_assoc]
                rfl
              have hgl_single : singleLine ((x ++ (S "HN discussion: " ++ d)) ++ ['\n']) :=
                singleLine_nl _ hbody2
              have hgl_term : termL ((x ++ (S "HN discussion: " ++ d)) ++ ['\n']) :=
                termL_nl _
              have hgl_last : ((x ++ (S "HN discussion: " ++ d)) ++ ['\n']).getLast? =
                  some '\n' := by
                rw [List.getLast?_append_of_ne_nil _ (by simp)]
                rfl
              have hsplC : splitlinesKeep ((((x ++ (S "HN discussion: " ++ d)) ++ ['\n'])) ++
                  ['\n']) = ((x ++ (S "HN discussion: " ++ d)) ++ ['\n']) ::
                  splitlinesKeep ['\n'] := by
                refine splitlines_cons_of_line _ _ hgl_single hgl_term ?_
                rintro ⟨hlast, _⟩
                rw [hgl_last] at hlast
                simp at hlast
              have hglworthyless : ¬ insertWorthy m ((x ++ (S "HN discussion: " ++ d)) ++
                  ['\n']) := by
                rintro ⟨url2, d2, hurl, _, _⟩
                have hgl2 : (x ++ (S "HN discussion: " ++ d)) ++ ['\n'] =
                    x ++ (S "HN discussion: " ++ (d ++ S "\n")) := by
                  simp [List.append_assoc]
                  rfl
                rw [hgl2, linkURL_glue x d url hu] at hurl
                cases hurl
              rw [hflat, hglue, hsplC,
                show splitlinesKeep ['\n'] = [['\n']] from splitlines_single _ (by unfold singleLine; decide) (by simp)]
              refine ⟨fun hw => absurd hw hglworthyless, ?_, trivial⟩
              rintro ⟨url2, d2, hurl, _, _⟩
              rw [linkURL_blank _ (by decide)] at hurl
              cases hurl

theorem head?_take_pos (s : L) (k : Nat) (hk : 1 ≤ k) : (s.take k).head? = s.head? := by
  cases s with
  | nil => simp
  | cons a b =>
      rw [show k = (k - 1) + 1 from by omega, List.take_succ_cons]
      rfl

theorem splitlinesKeep_nil : splitlinesKeep [] = [] := rfl

theorem splitlinesKeep_cons_eq (c : Char) (rest : L) :
    splitlinesKeep (c :: rest) =
      (lineSplit (c :: rest)).1 :: splitlinesKeep (lineSplit (c :: rest)).2 := by
  rw [splitlinesKeep, show (c :: rest).length = rest.length + 1 from by simp,
    splitlinesKeepF_cons]
  refine congrArg _ (splitlinesKeep_eqF _ _ ?_)
  have := lineSplit_snd_len (c :: rest) (by simp)
  simp only [List.length_cons] at this
  omega

theorem nl_in_line : ∀ (u : L) (j : Nat), (lineSplit u).1[j]? = some '\n' →
    j = (lineSplit u).1.length - 1 := by
  intro u
  induction u with
  | nil => intro j h; simp [lineSplit] at h
  | cons c rest ih =>
      intro j h
      by_cases hc : c = '\r'
      · subst hc
        cases rest with
        | nil =>
            have : (lineSplit ['\r']).1 = ['\r'] := rfl
            rw [this] at h
            cases j with
            | zero => simp at h
            | succ j' => simp at h
        | cons c2 r2 =>
            by_cases h2 : c2 = '\n'
            · subst h2
              have : (lineSplit ('\r' :: '\n' :: r2)).1 = ['\r', '\n'] := rfl
              rw [this] at h ⊢
              cases j with
              | zero => simp at h
              | succ j' =>
                  cases j' with
                  | zero => rfl
                  | succ j2 => simp at h
            · have hred : (lineSplit ('\r' :: c2 :: r2)).1 = ['\r'] := by
                simp [lineSplit, h2]
              rw [hred] at h
              cases j with
              | zero => simp at h
              | succ j' => simp at h
      · by_cases hb : isLineBreakChar c
        · have hred : (lineSplit (c :: rest)).1 = [c] := by
            simp [lineSplit, hc, hb]
          rw [hred] at h ⊢
          cases j with
          | zero => rfl
          | succ j' => simp at h
        · have hred : (lineSplit (c :: rest)).1 = c :: (lineSplit rest).1 := by
            simp [lineSplit, hc, hb]
          rw [hred] at h ⊢
          cases j with
          | zero =>
              simp only [List.getElem?_cons_zero, Option.some.injEq] at h
              subst h
              exact absurd (by decide : isLineBreakChar '\n' = true) hb
          | succ j' =>
              have := ih j' (by simpa using h)
              have hne : (lineSplit rest).1 ≠ [] := by
                intro hnil
                rw [hnil] at h
                simp at h
              have hlen : 1 ≤ (lineSplit rest).1.length := by
                cases hl : (lineSplit rest).1 with
                | nil => exact absurd hl hne
                | cons a b => simp
              simp only [List.length_cons]
              omega

theorem splitlines_take_drop : ∀ (n : Nat) (u : L) (r : Nat), u.length ≤ n →
    r ≤ u.length →
    (r = 0 ∨ r = u.length ∨ (1 ≤ r ∧ u[r - 1]? = some '\n')) →
    ∃ k, splitlinesKeep (u.take r) = (splitlinesKeep u).take k ∧
      (splitlinesKeep u).drop k = splitlinesKeep (u.drop r) := by
  intro n
  induction n with
  | zero =>
      intro u r hn hr _
      have hu : u = [] := List.eq_nil_of_length_eq_zero (Nat.le_zero.mp hn)
      subst hu
      exact ⟨0, by simp [splitlinesKeep_nil], by simp⟩
  | succ n ih =>
      intro u r hn hr hcut
      rcases hcut with rfl | hcut2 | ⟨hr1, hnl⟩
      · exact ⟨0, by simp [splitlinesKeep_nil], by simp⟩
      · subst hcut2
        exact ⟨(splitlinesKeep u).length, by simp, by simp [splitlinesKeep_nil]⟩
      · cases hu : u with
        | nil => subst hu; simp at hr; omega
        | cons c rest =>
            subst hu
            have hsplit := splitlinesKeep_cons_eq c rest
            have happ := lineSplit_append (c :: rest)
            have hllen : 1 ≤ (lineSplit (c :: rest)).1.length := by
              have := lineSplit_fst_head (c :: rest)
              cases hl : (lineSplit (c :: rest)).1 with
              | nil => rw [hl] at this; simp at this
              | cons a b => simp
            by_cases hrl : r < (lineSplit (c :: rest)).1.length
            · exfalso
              have hget : (lineSplit (c :: rest)).1[r - 1]? = some '\n' := by
                have : ((lineSplit (c :: rest)).1 ++ (lineSplit (c :: rest)).2)[r - 1]? =
                    some '\n' := by rw [happ]; exact hnl
                rw [List.getElem?_append, if_pos (by omega)] at this
                exact this
              have := nl_in_line (c :: rest) (r - 1) hget
              omega
            · push_neg at hrl
              set l := (lineSplit (c :: rest)).1 with hldef
              set s2 := (lineSplit (c :: rest)).2 with hs2def
              have hrlen : r ≤ l.length + s2.length := by
                have := congrArg List.length happ
                simp only [List.length_append] at this
                omega
              have hs2lt : s2.length < (c :: rest).length :=
                lineSplit_snd_len _ (by simp)
              by_cases hr0 : r = l.length
              · refine ⟨1, ?_, ?_⟩
                · have htake : (c :: rest).take r = l := by
                    conv_lhs => rw [← happ]
                    rw [List.take_append_of_le_length (by omega), hr0, List.take_length]
                  rw [htake, hsplit]
                  have hsl : splitlinesKeep l = [l] := by
                    refine splitlines_single l (lineSplit_fst_single _) ?_
                    intro hnil
                    rw [hnil] at hllen
                    simp at hllen
                  rw [hsl]
                  rfl
                · have hdrop : (c :: rest).drop r = s2 := by
                    conv_lhs => rw [← happ, hr0]
                    exact List.drop_left _ _
                  rw [hsplit, hdrop]
                  rfl
              · have hrgt : l.length < r := by omega
                have hs2ne : s2 ≠ [] := by
                  intro hnil
                  rw [hnil] at hrlen
                  simp at hrlen
                  omega
                have hterm := lineSplit_fst_term (c :: rest) (by rw [← hs2def]; exact hs2ne)
                have hcut2 : (1 ≤ r - l.length ∧ s2[r - l.length - 1]? = some '\n') := by
                  refine ⟨by omega, ?_⟩
                  have : ((l ++ s2))[r - 1]? = some '\n' := by rw [happ]; exact hnl
                  rw [List.getElem?_append, if_neg (by omega)] at this
                  have harith : r - 1 - l.length = r - l.length - 1 := by omega
                  rw [harith] at this
                  exact this
                obtain ⟨k', hk1, hk2⟩ := ih s2 (r - l.length) (by omega) (by omega)
                  (Or.inr (Or.inr hcut2))
                refine ⟨k' + 1, ?_, ?_⟩
                · have htake : (c :: rest).take r = l ++ s2.take (r - l.length) := by
                    conv_lhs => rw [← happ]
                    rw [List.take_append_eq_append_take]
                    congr 1
                    exact List.take_of_length_le (by omega)
                  rw [htake]
                  have hbd : ¬(l.getLast? = some '\r' ∧
                      (s2.take (r - l.length)).head? = some '\n') := by
                    rintro ⟨ha, hb⟩
                    rw [head?_take_pos s2 _ (by omega)] at hb
                    exact hterm.2 ⟨ha, hb⟩
                  rw [splitlines_cons_of_line l _ (lineSplit_fst_single _) hterm.1 hbd]
                  rw [hsplit, hk1]
                  rfl
                · have hdrop : (c :: rest).drop r = s2.drop (r - l.length) := by
                    conv_lhs => rw [← happ,
                      show r = l.length + (r - l.length) from by omega]
                    exact List.drop_append _
                  rw [hsplit, hdrop]
                  rw [show k' + 1 = k' + 1 from rfl]
                  show (splitlinesKeep s2).drop k' = _
                  exact hk2

theorem flatten_ne_nil_of_head (z : L) (r2 : List (L)) (hz : z ≠ []) :
    (z :: r2).flatten ≠ [] := by
  rw [List.flatten_cons]
  intro hnil
  exact hz (List.append_eq_nil.mp hnil).1

theorem processLines_flatten_last (m : L → Option L) :
    ∀ xs, linesOK xs → (xs.flatten).getLast? = some '\n' →
      ((processLines m xs).flatten).getLast? = some '\n' := by
  intro xs
  induction xs with
  | nil => intro _ h; exact h
  | cons x rest ih =>
      intro hok hlast
      rcases processLines_cases m x rest with ⟨heq, _⟩ | ⟨url, d, hu, hd, hde, hs, heq⟩
      · rw [heq]
        cases rest with
        | nil =>
            rw [show processLines m [] = [] from rfl]
            exact hlast
        | cons z r2 =>
            have h4 := hok.2.2.2
            have hzne : z ≠ [] := linesOK_head_ne z r2 h4
            have hfne : (z :: r2).flatten ≠ [] := flatten_ne_nil_of_head z r2 hzne
            rw [List.flatten_cons, List.getLast?_append_of_ne_nil _ hfne] at hlast
            obtain ⟨tl, htl⟩ := processLines_head m z r2
            have hpne : (processLines m (z :: r2)).flatten ≠ [] := by
              rw [htl]
              exact flatten_ne_nil_of_head z tl hzne
            rw [List.flatten_cons, List.getLast?_append_of_ne_nil _ hpne]
            exact ih h4 hlast
      · rw [heq]
        cases rest with
        | nil =>
            rw [show processLines m [] = [] from rfl]
            show (x ++ ((S "HN discussion: " ++ d ++ S "\n") ++ (S "\n" ++
              ([] : List L).flatten))).getLast? = some '\n'
            rw [List.getLast?_append_of_ne_nil _ (by simp [S]),
              List.getLast?_append_of_ne_nil _ (by simp [S])]
            rfl
        | cons z r2 =>
            have h4 := hok.2.2.2
            have hzne : z ≠ [] := linesOK_head_ne z r2 h4
            have hfne : (z :: r2).flatten ≠ [] := flatten_ne_nil_of_head z r2 hzne
            rw [List.flatten_cons, List.getLast?_append_of_ne_nil _ hfne] at hlast
            obtain ⟨tl, htl⟩ := processLines_head m z r2
            have hpne : (processLines m (z :: r2)).flatten ≠ [] := by
              rw [htl]
              exact flatten_ne_nil_of_head z tl hzne
            show (x ++ ((S "HN discussion: " ++ d ++ S "\n") ++ (S "\n" ++
              (processLines m (z :: r2)).flatten))).getLast? = some '\n'
            rw [List.getLast?_append_of_ne_nil _ (by
                intro hnil
                rcases List.append_eq_nil.mp hnil with ⟨_, h2⟩
                rcases List.append_eq_nil.mp h2 with ⟨h3, _⟩
                simp [S] at h3),
              List.getLast?_append_of_ne_nil _ (by
                intro hnil
                rcases List.append_eq_nil.mp hnil with ⟨h3, _⟩
                simp [S] at h3),
              List.getLast?_append_of_ne_nil _ hpne]
            exact ih h4 hlast

theorem exists_nonblank_split : ∀ (xs : List L),
    (∃ c ∈ xs.flatten, isWS c = false) →
    ∃ bl w rest, xs = bl ++ w :: rest ∧ (∀ l ∈ bl, ∀ c ∈ l, isWS c = true) ∧
      ∃ c ∈ w, isWS c = false := by
  intro xs
  induction xs with
  | nil => rintro ⟨c, hc, _⟩; simp at hc
  | cons x r ih =>
      rintro ⟨c, hc, hcw⟩
      by_cases hx : ∃ c2 ∈ x, isWS c2 = false
      · exact ⟨[], x, r, rfl, by simp, hx⟩
      · push_neg at hx
        have hcx : c ∉ x := by
          intro hmem
          have := hx c hmem
          rw [hcw] at this
          exact this rfl
        have hcr : c ∈ r.flatten := by
          rw [List.flatten_cons] at hc
          rcases List.mem_append.mp hc with h | h
          · exact absurd h hcx
          · exact h
        obtain ⟨bl, w, rest, heq, hblw, hww⟩ := ih ⟨c, hcr, hcw⟩
        refine ⟨x :: bl, w, rest, by rw [heq]; rfl, ?_, hww⟩
        intro l hl
        rcases List.mem_cons.mp hl with rfl | hl2
        · intro c2 hc2
          have := hx c2 hc2
          cases hb : isWS c2 with
          | false => exact absurd hb this
          | true => rfl
        · exact hblw l hl2

theorem processLines_blankPre (m : L → Option L) :
    ∀ (bl : List L) (ys : List L), (∀ l ∈ bl, ∀ c ∈ l, isWS c = true) →
      processLines m (bl ++ ys) = bl ++ processLines m ys := by
  intro bl
  induction bl with
  | nil => intro ys _; rfl
  | cons b bl2 ih =>
      intro ys hb
      have hbw : ∀ c ∈ b, isWS c = true := hb b (List.mem_cons_self b bl2)
      have hkeep : processLines m (b :: (bl2 ++ ys)) =
          b :: processLines m (bl2 ++ ys) := by
        refine processLines_keep m b _ ?_
        rintro ⟨url, d, hurl, _, _⟩
        rw [linkURL_blank b (pyStripWS_of_allWS hbw)] at hurl
        cases hurl
      show processLines m (b :: (bl2 ++ ys)) = b :: (bl2 ++ processLines m ys)
      rw [hkeep, ih ys (fun l hl => hb l (List.mem_cons_of_mem b hl))]

theorem slice_restore (s e : Nat) (md : L) (h1 : s ≤ e) :
    md.take s ++ ((md.drop s).take (e - s) ++ md.drop e) = md := by
  have h3 : (md.drop s).take (e - s) = (md.take e).drop s := (List.drop_take e s md).symm
  have h4 : md.take s = (md.take e).take s := by
    rw [List.take_take]
    congr 1
    omega
  rw [h3, h4, ← List.append_assoc, List.take_append_drop, List.take_append_drop]

theorem tryH2_some_head (t : L) (k : Nat) (h : tryH2 t = some k) :
    t.head? = some '#' := by
  match t with
  | [] => exact absurd h (by simp [tryH2])
  | [a] => exact absurd h (by simp [tryH2])
  | [a, b] => exact absurd h (by simp [tryH2])
  | a :: b :: c :: rest =>
      by_cases hcond : a = '#' ∧ b = '#' ∧ isWS c
      · rw [hcond.1]
        rfl
      · rw [show tryH2 (a :: b :: c :: rest) =
          (if a = '#' ∧ b = '#' ∧ isWS c then some 3 else none) from rfl,
          if_neg hcond] at h
        cases h

theorem skipOK_nil : skipOK [] = false := rfl

theorem startsHN_hash (t : L) : startsHNDisc ('#' :: t) = false := by
  unfold startsHNDisc
  rw [lstrip_head_nonws '#' t (by decide)]
  rfl

theorem extract_section_none (tryHdr : L → Option Nat) (md : L)
    (h : searchM tryHdr md true = none) : extract_section tryHdr md = none := by
  unfold extract_section
  rw [h]

theorem extract_section_eq (tryHdr : L → Option Nat) (md : L) (p len : Nat)
    (h : searchM tryHdr md true = some (p, len)) :
    extract_section tryHdr md =
      (match searchM tryH2 (md.drop (p + len)) true with
       | none => some (p + len, md.length)
       | some (q, _) => some (p + len, p + len + q)) := by
  unfold extract_section
  rw [h]

theorem add_hn_eq_of_none (md : L) (m : L → Option L)
    (h : extract_section tryHNHeader md = none) :
    add_hn_discussion_links md m = md := by
  unfold add_hn_discussion_links
  rw [h]

theorem add_hn_eq_of_some (md : L) (m : L → Option L) (s e : Nat)
    (h : extract_section tryHNHeader md = some (s, e)) :
    add_hn_discussion_links md m =
      md.take s ++ (processLines m (splitlinesKeep ((md.drop s).take (e - s)))).flatten ++
        md.drop e := by
  unfold add_hn_discussion_links
  rw [h]

theorem extract_section_spec (md : L) (s e : Nat)
    (hx : extract_section tryHNHeader md = some (s, e)) :
    ∃ p len, searchM tryHNHeader md true = some (p, len) ∧ s = p + len ∧
      s ≤ e ∧ e ≤ md.length ∧ s ≤ md.length ∧
      (s = md.length ∨ md[s]? = some '\n') ∧
      ((e = md.length ∧ searchM tryH2 (md.drop s) true = none) ∨
       (∃ q k3, searchM tryH2 (md.drop s) true = some (q, k3) ∧ e = s + q)) := by
  cases hsr : searchM tryHNHeader md true with
  | none => rw [extract_section_none _ _ hsr] at hx; cases hx
  | some pr =>
      obtain ⟨p, len⟩ := pr
      rw [extract_section_eq _ _ p len hsr] at hx
      rcases searchM_some_spec tryHNHeader md true p len hsr with ⟨hple, _, htry, _⟩
      have hlen_le : len ≤ md.length - p := by
        have := tryHNHeader_le _ _ htry
        simp [List.length_drop] at this
        omega
      have hsle : p + len ≤ md.length := by omega
      have hend : p + len = md.length ∨ md[p + len]? = some '\n' := by
        rcases tryHNHeader_end _ _ htry with h1 | h2
        · left
          simp [List.length_drop] at h1
          omega
        · right
          rw [List.getElem?_drop] at h2
          exact h2
      cases hq : searchM tryH2 (md.drop (p + len)) true with
      | none =>
          rw [hq] at hx
          have hs : s = p + len := by
            have := congrArg (fun o => Option.map Prod.fst o) hx
            simpa using this.symm
          have he : e = md.length := by
            have := congrArg (fun o => Option.map Prod.snd o) hx
            simpa using this.symm
          subst hs; subst he
          exact ⟨p, len, rfl, rfl, hsle, Nat.le_refl _, hsle, hend,
            Or.inl ⟨rfl, hq⟩⟩
      | some pr2 =>
          obtain ⟨q, k3⟩ := pr2
          rw [hq] at hx
          have hs : s = p + len := by
            have := congrArg (fun o => Option.map Prod.fst o) hx
            simpa using this.symm
          have he : e = p + len + q := by
            have := congrArg (fun o => Option.map Prod.snd o) hx
            simpa using this.symm
          subst hs; subst he
          rcases searchM_some_spec tryH2 _ true q k3 hq with ⟨hqle, _, _, _⟩
          simp only [List.length_drop] at hqle
          exact ⟨p, len, rfl, rfl, by omega, by omega, hsle, hend,
            Or.inr ⟨q, k3, hq, rfl⟩⟩

theorem add_hn_fix_of_allws (md : L) (m : L → Option L) (s e : Nat)
    (hx : extract_section tryHNHeader md = some (s, e)) (hse : s ≤ e)
    (hws : ∀ c ∈ (md.drop s).take (e - s), isWS c = true) :
    add_hn_discussion_links md m = md := by
  rw [add_hn_eq_of_some md m s e hx]
  have hlines_ws : ∀ l ∈ splitlinesKeep ((md.drop s).take (e - s)), ∀ c ∈ l,
      isWS c = true := by
    intro l hl c hc
    refine hws c ?_
    rw [← join_splitlines ((md.drop s).take (e - s))]
    exact List.mem_flatten.mpr ⟨l, hl, hc⟩
  have hid : processLines m (splitlinesKeep ((md.drop s).take (e - s))) =
      splitlinesKeep ((md.drop s).take (e - s)) := by
    have := processLines_blankPre m (splitlinesKeep ((md.drop s).take (e - s))) []
      hlines_ws
    simpa [show processLines m ([] : List L) = [] from rfl] using this
  rw [hid, join_splitlines, List.append_assoc]
  exact slice_restore s e md hse

theorem add_hn_idem (md : L) (m : L → Option L) (hm : mapNoBrk m) :
    add_hn_discussion_links (add_hn_discussion_links md m) m =
      add_hn_discussion_links md m := by
  cases hx : extract_section tryHNHeader md with
  | none =>
      rw [add_hn_eq_of_none md m hx]
      exact add_hn_eq_of_none md m hx
  | some se =>
      obtain ⟨s, e⟩ := se
      obtain ⟨p, len, hsr, hspl, hse, hele, hsle, hsnl, hqcase⟩ :=
        extract_section_spec md s e hx
      by_cases hnw : ∃ c ∈ (md.drop s).take (e - s), isWS c = false
      case neg =>
          push_neg at hnw
          have hws : ∀ c ∈ (md.drop s).take (e - s), isWS c = true := by
            intro c hc
            cases hb : isWS c with
            | true => rfl
            | false => exact absurd hb (hnw c hc)
          have hfix := add_hn_fix_of_allws md m s e hx hse hws
          rw [hfix]
          exact hfix
      case pos =>
      have hmidne : (md.drop s).take (e - s) ≠ [] := by
        rcases hnw with ⟨c, hc, _⟩
        intro h0
        rw [h0] at hc
        simp at hc
      have hslt : s < e := by
        rcases Nat.lt_or_ge s e with h | h
        · exact h
        · exfalso
          have : e = s := Nat.le_antisymm h hse
          rw [this] at hmidne
          simp at hmidne
      have hok : linesOK (splitlinesKeep ((md.drop s).take (e - s))) :=
        splitlines_linesOK _
      have hjoin : (splitlinesKeep ((md.drop s).take (e - s))).flatten =
          (md.drop s).take (e - s) := join_splitlines _
      obtain ⟨bl, w, rest, hxs_eq, hbl_ws, hw_nw⟩ :=
        exists_nonblank_split _ (by rw [hjoin]; exact hnw)
      obtain ⟨tl, htl⟩ := processLines_head m w rest
      have hproc : processLines m (splitlinesKeep ((md.drop s).take (e - s))) =
          bl ++ (w :: tl) := by
        rw [hxs_eq, processLines_blankPre m bl (w :: rest) hbl_ws, htl]
      have hmid' : (processLines m (splitlinesKeep ((md.drop s).take (e - s)))).flatten =
          (bl.flatten ++ w) ++ tl.flatten := by
        rw [hproc, List.flatten_append, List.flatten_cons, ← List.append_assoc]
      have hmid_z : (md.drop s).take (e - s) = (bl.flatten ++ w) ++ rest.flatten := by
        rw [← hjoin, hxs_eq, List.flatten_append, List.flatten_cons, ← List.append_assoc]
      have hz_nw : ∃ c ∈ bl.flatten ++ w, isWS c = false := by
        rcases hw_nw with ⟨c, hc, hcw⟩
        exact ⟨c, List.mem_append_right _ hc, hcw⟩
      have hmd_eq : md = md.take s ++ ((bl.flatten ++ w) ++
          (rest.flatten ++ md.drop e)) := by
        conv_lhs => rw [← slice_restore s e md hse]
        rw [hmid_z, List.append_assoc]
      have hlenA : (md.take s).length = s := by
        simp [List.length_take]
        omega
      have hsr2 : searchM tryHNHeader (md.take s ++ ((bl.flatten ++ w) ++
          (tl.flatten ++ md.drop e))) true = some (p, len) := by
        refine searchM_det_trans tryHNHeader hnHeaderLit.length tryHNHeader_ge
          tryHNHeader_det (md.take s) (bl.flatten ++ w) (rest.flatten ++ md.drop e)
          (tl.flatten ++ md.drop e) true p len hz_nw ?_ ?_
        · rw [hlenA]
          omega
        · rw [← hmd_eq]
          exact hsr
      have hout2 : add_hn_discussion_links md m =
          md.take s ++ ((bl.flatten ++ w) ++ (tl.flatten ++ md.drop e)) := by
        rw [add_hn_eq_of_some md m s e hx, hmid']
        simp only [List.append_assoc]
      have hdl : ∀ (A l2 : L), A.length = s → (A ++ l2).drop s = l2 := by
        intro A l2 hA
        rw [← hA, List.drop_left]
      have htl2 : ∀ (A l2 : L), A.length = s → (A ++ l2).take s = A := by
        intro A l2 hA
        rw [← hA, List.take_left]
      have hdrop_out : (md.take s ++ ((bl.flatten ++ w) ++
          (tl.flatten ++ md.drop e))).drop s =
          ((bl.flatten ++ w) ++ tl.flatten) ++ md.drop e := by
        rw [hdl (md.take s) _ hlenA]
        simp only [List.append_assoc]
      have hBfact : md.drop e ≠ [] →
          (∃ k3, tryH2 (md.drop e) = some k3) ∧
            lineStart ((((bl.flatten ++ w) ++ tl.flatten)) ++ md.drop e) true
              ((bl.flatten ++ w) ++ tl.flatten).length := by
        intro hBne
        rcases hqcase with ⟨he_len, _⟩ | ⟨q, k3, hq, heq⟩
        · exfalso
          apply hBne
          rw [he_len]
          exact List.drop_length md
        · rcases searchM_some_spec tryH2 (md.drop s) true q k3 hq with
            ⟨hqle2, hql, hqtry, _⟩
          have hBtry : tryH2 (md.drop e) = some k3 := by
            rw [heq, ← List.drop_drop]
            exact hqtry
          have hq1 : 1 ≤ q := by
            rcases Nat.lt_or_ge 0 q with h | h
            · exact h
            · exfalso
              have hq0 : q = 0 := by omega
              rw [hq0] at heq
              omega
          have hmidnl : ((md.drop s).take (e - s)).getLast? = some '\n' := by
            rcases hql with ⟨h0, _⟩ | ⟨_, hnl3⟩
            · exact absurd h0 (by omega)
            · rw [List.getLast?_eq_getElem?]
              have hlenmid : ((md.drop s).take (e - s)).length = e - s := by
                simp [List.length_take, List.length_drop]
                omega
              rw [hlenmid, List.getElem?_take, if_pos (by omega)]
              rw [show e - s - 1 = q - 1 from by omega]
              exact hnl3
          have hmid'nl := processLines_flatten_last m _ hok (by rw [hjoin]; exact hmidnl)
          rw [hmid'] at hmid'nl
          have hmid'ne : ((bl.flatten ++ w) ++ tl.flatten) ≠ [] := by
            intro h0
            rw [h0] at hmid'nl
            simp at hmid'nl
          refine ⟨⟨k3, hBtry⟩, Or.inr ⟨List.length_pos.mpr hmid'ne, ?_⟩⟩
          rw [List.getElem?_append, if_pos (by
            have := List.length_pos.mpr hmid'ne
            omega)]
          rw [← List.getLast?_eq_getElem?]
          exact hmid'nl
      have hsettled : settledLines m (splitlinesKeep
          ((bl.flatten ++ w) ++ tl.flatten)) := by
        have := settled_core m hm _ hok
        rw [hmid'] at this
        exact this
      rw [hout2]
      have hex2base := extract_section_eq tryHNHeader _ p len hsr2
      rw [← hspl, hdrop_out] at hex2base
      cases hq2 : searchM tryH2 ((((bl.flatten ++ w) ++ tl.flatten)) ++ md.drop e)
          true with
      | none =>
          rw [hq2] at hex2base
          have hex2 : extract_section tryHNHeader (md.take s ++ ((bl.flatten ++ w) ++
              (tl.flatten ++ md.drop e))) = some (s, (md.take s ++ ((bl.flatten ++ w) ++
              (tl.flatten ++ md.drop e))).length) := hex2base
          have hBnil : md.drop e = [] := by
            cases hB : md.drop e with
            | nil => rfl
            | cons b0 brest =>
                exfalso
                have hBne : md.drop e ≠ [] := by rw [hB]; simp
                obtain ⟨⟨k3, hBtry⟩, hstart⟩ := hBfact hBne
                have := searchM_none_spec tryH2 _ true hq2 _ hstart
                rw [List.drop_left] at this
                rw [hBtry] at this
                cases this
          rw [add_hn_eq_of_some _ m s _ hex2]
          have hd1 : ((md.take s ++ ((bl.flatten ++ w) ++ (tl.flatten ++
              md.drop e))).drop s) = ((bl.flatten ++ w) ++ tl.flatten) ++ md.drop e :=
            hdrop_out
          rw [hd1, hBnil]
          simp only [List.append_nil]
          have htk : (bl.flatten ++ w ++ tl.flatten).take
              ((List.take s md ++ (bl.flatten ++ w ++ tl.flatten)).length - s) =
              bl.flatten ++ w ++ tl.flatten := by
            apply List.take_of_length_le
            simp only [List.length_append, hlenA]
            omega
          rw [htk]
          rw [processLines_settled_id m _ hsettled, join_splitlines]
          rw [List.drop_length]
          have htakeA : (md.take s ++ ((bl.flatten ++ w) ++ (tl.flatten ++
              md.drop e))).take s = md.take s := htl2 (md.take s) _ hlenA
          rw [hBnil] at htakeA
          simp only [List.append_nil] at htakeA
          rw [htakeA]
          simp only [List.append_assoc, List.append_nil]
      | some pr3 =>
          obtain ⟨q2, k2⟩ := pr3
          rw [hq2] at hex2base
          have hex2 : extract_section tryHNHeader (md.take s ++ ((bl.flatten ++ w) ++
              (tl.flatten ++ md.drop e))) = some (s, s + q2) := hex2base
          rcases searchM_some_spec tryH2 _ true q2 k2 hq2 with
            ⟨hq2le, hq2ls, hq2try, hq2min⟩
          have hq2mid : q2 ≤ ((bl.flatten ++ w) ++ tl.flatten).length := by
            rcases Nat.lt_or_ge (((bl.flatten ++ w) ++ tl.flatten)).length q2 with h | h
            · exfalso
              cases hB : md.drop e with
              | nil =>
                  rw [hB, List.append_nil] at hq2le
                  omega
              | cons b0 brest =>
                  have hBne : md.drop e ≠ [] := by rw [hB]; simp
                  obtain ⟨⟨k3, hBtry⟩, hstart⟩ := hBfact hBne
                  have := hq2min _ h hstart
                  rw [List.drop_left] at this
                  rw [hBtry] at this
                  cases this
            · exact h
          rw [add_hn_eq_of_some _ m s (s + q2) hex2]
          rw [hdrop_out]
          have harith : s + q2 - s = q2 := by omega
          rw [harith]
          have hPtake : (((bl.flatten ++ w) ++ tl.flatten) ++ md.drop e).take q2 =
              ((bl.flatten ++ w) ++ tl.flatten).take q2 :=
            List.take_append_of_le_length hq2mid
          rw [hPtake]
          have hcut : q2 = 0 ∨ q2 = ((bl.flatten ++ w) ++ tl.flatten).length ∨
              (1 ≤ q2 ∧ ((bl.flatten ++ w) ++ tl.flatten)[q2 - 1]? = some '\n') := by
            rcases hq2ls with ⟨h0, _⟩ | ⟨h1, h2⟩
            · exact Or.inl h0
            · rcases Nat.lt_or_ge (q2 - 1) (((bl.flatten ++ w) ++ tl.flatten)).length
                with hlt | hge
              · refine Or.inr (Or.inr ⟨h1, ?_⟩)
                rw [List.getElem?_append, if_pos hlt] at h2
                exact h2
              · exact Or.inr (Or.inl (by omega))
          obtain ⟨k, hk1, hk2⟩ := splitlines_take_drop
            (((bl.flatten ++ w) ++ tl.flatten)).length _ q2 (Nat.le_refl _) hq2mid hcut
          rw [hk1]
          have hsettled_take : settledLines m
              ((splitlinesKeep ((bl.flatten ++ w) ++ tl.flatten)).take k) := by
            refine settledLines_take m _ k hsettled ?_
            intro nl hnl
            have hnl2 : ((splitlinesKeep ((bl.flatten ++ w) ++ tl.flatten)).drop
                k).head? = some nl := by
              rw [List.head?_drop]
              exact hnl
            rw [hk2] at hnl2
            by_cases hq2e : q2 = ((bl.flatten ++ w) ++ tl.flatten).length
            · rw [hq2e, List.drop_length] at hnl2
              rw [splitlinesKeep_nil] at hnl2
              cases hnl2
            · have hq2lt : q2 < ((bl.flatten ++ w) ++ tl.flatten).length := by omega
              have hdne : ((bl.flatten ++ w) ++ tl.flatten).drop q2 ≠ [] := by
                intro h0
                have hlen := congrArg List.length h0
                rw [List.length_drop] at hlen
                simp only [List.length_nil] at hlen
                omega
              obtain ⟨c0, t0, hct⟩ :=
                List.exists_cons_of_ne_nil hdne
              rw [hct, splitlinesKeep_cons_eq] at hnl2
              simp only [List.head?_cons, Option.some.injEq] at hnl2
              subst hnl2
              have hda : ((((bl.flatten ++ w) ++ tl.flatten)) ++ md.drop e).drop q2 =
                  (((bl.flatten ++ w) ++ tl.flatten).drop q2) ++ md.drop e :=
                List.drop_append_of_le_length hq2mid
              rw [hda, hct] at hq2try
              have hc0 : c0 = '#' := by
                have hh := tryH2_some_head _ _ hq2try
                simpa using hh
              subst hc0
              have hheadnl : ((lineSplit ('#' :: t0)).1).head? = some '#' := by
                rw [lineSplit_fst_head]
                rfl
              obtain ⟨nlt, hnlt⟩ : ∃ nlt, (lineSplit ('#' :: t0)).1 = '#' :: nlt := by
                cases hnl3 : (lineSplit ('#' :: t0)).1 with
                | nil => rw [hnl3] at hheadnl; cases hheadnl
                | cons a b =>
                    rw [hnl3] at hheadnl
                    simp only [List.head?_cons, Option.some.injEq] at hheadnl
                    subst hheadnl
                    exact ⟨b, rfl⟩
              rw [hnlt]
              exact ⟨strip_ne_nil_of_head_nonws '#' _ (by decide), startsHN_hash _⟩
          rw [processLines_settled_id m _ hsettled_take, ← hk1, join_splitlines]
          have htakeA : (md.take s ++ ((bl.flatten ++ w) ++ (tl.flatten ++
              md.drop e))).take s = md.take s := htl2 (md.take s) _ hlenA
          rw [htakeA]
          have hdropq2 : (md.take s ++ ((bl.flatten ++ w) ++ (tl.flatten ++
              md.drop e))).drop (s + q2) =
              ((((bl.flatten ++ w) ++ tl.flatten)) ++ md.drop e).drop q2 := by
            rw [show s + q2 = (md.take s).length + q2 from by rw [hlenA]]
            rw [List.drop_append]
            simp only [List.append_assoc]
          rw [hdropq2, ← hPtake]
          rw [List.append_assoc, List.take_append_drop]
          simp only [List.append_assoc]

theorem tryH2_none_head : ∀ (l : L), (∀ a, l.head? = some a → a ≠ '#') → tryH2 l = none
  | [], _ => rfl
  | [_], _ => rfl
  | [_, _], _ => rfl
  | a :: b :: c :: _, h => by
      show (if a = '#' ∧ b = '#' ∧ isWS c then some 3 else none) = none
      rw [if_neg]
      intro hc
      exact h a rfl hc.1

theorem flagAfter_last_nl : ∀ (x : L) (ls : Bool), x.getLast? = some '\n' →
    flagAfter x ls = true := by
  intro x
  induction x with
  | nil => intro ls h; cases h
  | cons c r ih =>
      intro ls h
      cases r with
      | nil =>
          simp only [List.getLast?_singleton, Option.some.injEq] at h
          subst h
          rfl
      | cons c2 r2 =>
          rw [flagAfter_cons]
          apply ih
          rw [List.getLast?_cons_cons] at h
          exact h

theorem getLast?_append_right (l1 l2 : L) (h : l2 ≠ []) :
    (l1 ++ l2).getLast? = l2.getLast? := by
  rw [List.getLast?_append]
  cases hl : l2.getLast? with
  | none => exact absurd (List.getLast?_eq_none_iff.mp hl) h
  | some c => rfl

theorem flat_last_nl : ∀ (ls : List L), ls ≠ [] →
    (∀ l ∈ ls, l.getLast? = some '\n') → ls.flatten.getLast? = some '\n' := by
  intro ls
  induction ls with
  | nil => intro h _; exact absurd rfl h
  | cons l rest ih =>
      intro _ hall
      rw [List.flatten_cons]
      cases hr : rest with
      | nil =>
          subst hr
          simp only [List.flatten_nil, List.append_nil]
          exact hall l (List.mem_cons_self l [])
      | cons l2 r2 =>
          have hrn : rest ≠ [] := by rw [hr]; simp
          have hfl := ih hrn (fun x hx => hall x (List.mem_cons_of_mem l hx))
          rw [← hr]
          rw [getLast?_append_right l rest.flatten (by
            intro h0
            rw [h0] at hfl
            cases hfl)]
          exact hfl

theorem mismatch_not_prefix (pat a u : L) (i : Nat) (hi : i < a.length)
    (hip : i < pat.length) (hne : pat[i]? ≠ a[i]?) :
    pat.isPrefixOf (a ++ u) = false := by
  cases hb : pat.isPrefixOf (a ++ u) with
  | false => rfl
  | true =>
      exfalso
      have hpre : pat <+: a ++ u := List.isPrefixOf_iff_prefix.mp hb
      rcases hpre with ⟨t, ht⟩
      have h2 : pat[i]? = (a ++ u)[i]? := by
        conv_rhs => rw [← ht]
        rw [List.getElem?_append, if_pos hip]
      rw [List.getElem?_append, if_pos hi] at h2
      exact hne h2

theorem yt_pat_no_hash (i : Nat) : (S "YouTube")[i]? ≠ some '#' := by
  intro h
  have hm : '#' ∈ S "YouTube" := List.getElem?_mem h
  exact absurd hm (by decide)

theorem stripLit_pref (pat r : L) : stripLit pat (pat ++ r) = some r := by
  unfold stripLit
  rw [if_pos (List.isPrefixOf_iff_prefix.mpr (List.prefix_append pat r))]
  rw [List.drop_left]

theorem tryYT_le (t : L) (k : Nat) (h : tryYTHeader t = some k) : k ≤ t.length := by
  unfold tryYTHeader at h
  cases hs : stripLit (S "###") t with
  | none => rw [hs] at h; cases h
  | some r =>
      rw [hs] at h
      have h2 : (if (r.takeWhile isWS).length = 0 then none
          else
            match stripLit (S "YouTube") (r.drop (r.takeWhile isWS).length) with
            | none => none
            | some r2 => (wsDollar r2).map
                (fun w => 3 + (r.takeWhile isWS).length + 7 + w)) = some k := h
      by_cases hk0 : (r.takeWhile isWS).length = 0
      · rw [if_pos hk0] at h2; cases h2
      · rw [if_neg hk0] at h2
        cases hs2 : stripLit (S "YouTube") (r.drop (r.takeWhile isWS).length) with
        | none => rw [hs2] at h2; cases h2
        | some r2 =>
            rw [hs2] at h2
            rcases Option.map_eq_some'.mp h2 with ⟨w, hw, hk⟩
            have hwle := wsDollar_le r2 w hw
            rcases stripLit_some _ _ _ hs with ⟨_, hteq⟩
            rcases stripLit_some _ _ _ hs2 with ⟨_, hreq⟩
            have h3 : (S "###").length = 3 := by decide
            have h7 : (S "YouTube").length = 7 := by decide
            have ht : t.length = 3 + r.length := by
              rw [hteq, List.length_append]
              omega
            have hkr : (r.takeWhile isWS).length ≤ r.length :=
              (r.takeWhile_prefix isWS).length_le
            have hr2 : r.length - (r.takeWhile isWS).length = 7 + r2.length := by
              have hlr := congrArg List.length hreq
              simp only [List.length_drop, List.length_append] at hlr
              omega
            omega

theorem flat_inter_term : ∀ (ls : List L),
    (((ls ++ [([] : L)]).intersperse (S "\n"))).flatten =
      (ls.map (fun b => b ++ S "\n")).flatten := by
  intro ls
  induction ls with
  | nil => rfl
  | cons x xs ih =>
      have hne : xs ++ [([] : L)] ≠ [] := by simp
      obtain ⟨y, ys, hxs⟩ := List.exists_cons_of_ne_nil hne
      show ((x :: (xs ++ [([] : L)])).intersperse (S "\n")).flatten = _
      rw [hxs, List.intersperse_cons_cons, List.flatten_cons, List.flatten_cons,
        ← hxs, ih]
      simp [List.append_assoc]

theorem ytBlock_flat (videos : List YtVideoU) :
    ytBlock videos =
      S "### YouTube\n\n" ++
        ((videos.map ytLine).map (fun b => b ++ S "\n")).flatten := by
  unfold ytBlock
  have h1 : (([S "### YouTube", ([] : L)] ++ videos.map ytLine) ++ [([] : L)]) =
      S "### YouTube" :: ([] : L) :: (videos.map ytLine ++ [([] : L)]) := by simp
  rw [h1]
  have hne : videos.map ytLine ++ [([] : L)] ≠ [] := by simp
  obtain ⟨y, ys, hm⟩ := List.exists_cons_of_ne_nil hne
  rw [hm, List.intersperse_cons_cons, List.intersperse_cons_cons, List.flatten_cons,
    List.flatten_cons, List.flatten_cons, List.flatten_cons, ← hm, flat_inter_term]
  rw [show S "### YouTube\n\n" = S "### YouTube" ++ (S "\n" ++ (S "\n")) from by decide]
  simp [List.append_assoc]

theorem ytLine_cons (v : YtVideoU) : ∃ t, ytLine v = '-' :: t := by
  unfold ytLine
  rw [show S "- **" = '-' :: S " **" from by decide]
  simp only [List.cons_append]
  exact ⟨_, rfl⟩

theorem noHash_lines_skip : ∀ (lines2 : List L) (B : L),
    (∀ l ∈ lines2, ∃ b, l = b ++ S "\n" ∧ noBrk b = true ∧
      (∀ a, l.head? = some a → a ≠ '#')) →
    ∀ i, i < lines2.flatten.length → lineStart (lines2.flatten ++ B) true i →
      tryH2 ((lines2.flatten ++ B).drop i) = none := by
  intro lines2
  induction lines2 with
  | nil => intro B _ i hi _; simp at hi
  | cons l rest ih =>
      intro B hl i hi hst
      obtain ⟨b, hlb, hbnb, hlh⟩ := hl l (List.mem_cons_self l rest)
      have hlne : l ≠ [] := by
        rw [hlb]
        intro h0
        exact absurd (List.append_eq_nil.mp h0).2 (by decide)
      have hll : l.length = b.length + 1 := by rw [hlb]; simp [S]
      simp only [List.flatten_cons, List.append_assoc] at hi hst ⊢
      simp only [List.length_append] at hi
      rcases Nat.lt_or_ge i l.length with hil | hil
      · rcases hst with ⟨h0, _⟩ | ⟨h1, hnl⟩
        · subst h0
          rw [List.drop_zero]
          apply tryH2_none_head
          intro a ha
          apply hlh a
          cases hl0 : l with
          | nil => exact absurd hl0 hlne
          | cons c lr =>
              rw [hl0] at ha
              simp only [List.cons_append, List.head?_cons] at ha ⊢
              exact ha
        · exfalso
          have hgl : l[i - 1]? = some '\n' := by
            rw [List.getElem?_append, if_pos (by omega)] at hnl
            exact hnl
          rw [hlb, List.getElem?_append] at hgl
          by_cases hib : i - 1 < b.length
          · rw [if_pos hib] at hgl
            have hmem : '\n' ∈ b := List.getElem?_mem hgl
            have hfb := List.all_eq_true.mp hbnb '\n' hmem
            simp at hfb
            exact absurd hfb (by decide)
          · omega
      · have h1 : 1 ≤ i := by
          have : 1 ≤ l.length := List.length_pos.mpr hlne
          omega
        have hj : i - l.length < rest.flatten.length := by omega
        have hdrop : (l ++ (rest.flatten ++ B)).drop i =
            (rest.flatten ++ B).drop (i - l.length) := by
          rw [show i = l.length + (i - l.length) from by omega, List.drop_append]
          congr 1
          omega
        rw [hdrop]
        apply ih B (fun l2 hl2 => hl l2 (List.mem_cons_of_mem l hl2)) _ hj
        rcases Nat.lt_or_ge l.length i with hlt | hge
        · refine Or.inr ⟨by omega, ?_⟩
          rcases hst with ⟨h0, _⟩ | ⟨_, hnl⟩
          · exact absurd h0 (by omega)
          · rw [List.getElem?_append, if_neg (by omega)] at hnl
            rw [show i - l.length - 1 = i - 1 - l.length from by omega]
            exact hnl
        · have h0 : i - l.length = 0 := by omega
          rw [h0]
          exact Or.inl ⟨rfl, rfl⟩

theorem tryYT_eq_of_strip (t r : L) (h : stripLit (S "###") t = some r) :
    tryYTHeader t =
      (if (r.takeWhile isWS).length = 0 then none
       else
         match stripLit (S "YouTube") (r.drop (r.takeWhile isWS).length) with
         | none => none
         | some r2 => (wsDollar r2).map
             (fun w => 3 + (r.takeWhile isWS).length + 7 + w)) := by
  unfold tryYTHeader
  rw [h]

theorem tryYT_none_of_strip (t : L) (h : stripLit (S "###") t = none) :
    tryYTHeader t = none := by
  unfold tryYTHeader
  rw [h]

theorem takeWhile_ws_hash (rv X : L) :
    (rv ++ (S "###" ++ X)).takeWhile isWS = rv.takeWhile isWS := by
  have hle : (rv.takeWhile isWS).length ≤ rv.length := (rv.takeWhile_prefix isWS).length_le
  have h3 : (S "###").length = 3 := by decide
  have hin : (rv ++ S "###").takeWhile isWS = rv.takeWhile isWS := by
    rw [List.takeWhile_append]
    by_cases hk : (rv.takeWhile isWS).length = rv.length
    · rw [if_pos hk]
      have hfull : rv.takeWhile isWS = rv := (rv.takeWhile_prefix isWS).eq_of_length hk
      rw [show (S "###").takeWhile isWS = [] from by decide, List.append_nil, hfull]
    · rw [if_neg hk]
  rw [← List.append_assoc, List.takeWhile_append, hin,
    if_neg (by rw [List.length_append]; omega)]

theorem tryYT_det (v u u' : L) (hv : 1 ≤ v.length) :
    tryYTHeader (v ++ (S "###" ++ u)) = tryYTHeader (v ++ (S "###" ++ u')) := by
  have h3c : (S "###").length = 3 := by decide
  have h7c : (S "YouTube").length = 7 := by decide
  by_cases h3v : 3 ≤ v.length
  · have hsl : ∀ X : L, stripLit (S "###") (v ++ X) =
        (stripLit (S "###") v).map (fun r => r ++ X) := by
      intro X
      exact stripLit_append_left (S "###") v X (by omega)
    cases hs : stripLit (S "###") v with
    | none =>
        rw [tryYT_none_of_strip _ (by rw [hsl, hs]; rfl),
          tryYT_none_of_strip _ (by rw [hsl, hs]; rfl)]
    | some rv =>
        have h1 : stripLit (S "###") (v ++ (S "###" ++ u)) =
            some (rv ++ (S "###" ++ u)) := by rw [hsl, hs]; rfl
        have h1' : stripLit (S "###") (v ++ (S "###" ++ u')) =
            some (rv ++ (S "###" ++ u')) := by rw [hsl, hs]; rfl
        rw [tryYT_eq_of_strip _ _ h1, tryYT_eq_of_strip _ _ h1']
        rw [takeWhile_ws_hash rv u, takeWhile_ws_hash rv u']
        by_cases hk0 : (rv.takeWhile isWS).length = 0
        · rw [if_pos hk0, if_pos hk0]
        · rw [if_neg hk0, if_neg hk0]
          have hkle : (rv.takeWhile isWS).length ≤ rv.length :=
            (rv.takeWhile_prefix isWS).length_le
          rw [List.drop_append_of_le_length hkle, List.drop_append_of_le_length hkle]
          rw [← List.append_assoc, ← List.append_assoc]
          by_cases h7 : 7 ≤ (rv.drop (rv.takeWhile isWS).length ++ S "###").length
          · rw [stripLit_append_left (S "YouTube") _ u (by omega),
              stripLit_append_left (S "YouTube") _ u' (by omega)]
            cases hs2 : stripLit (S "YouTube")
                (rv.drop (rv.takeWhile isWS).length ++ S "###") with
            | none => rfl
            | some r2a =>
                simp only [Option.map_some']
                have hmem : '#' ∈ r2a := by
                  rcases stripLit_some _ _ _ hs2 with ⟨_, haeq⟩
                  have hin2 : '#' ∈ rv.drop (rv.takeWhile isWS).length ++ S "###" :=
                    List.mem_append_right _ (by decide)
                  rw [haeq] at hin2
                  rcases List.mem_append.mp hin2 with h | h
                  · exact absurd h (by decide)
                  · exact h
                have hwd := wsDollar_det [] r2a u u' ⟨'#', hmem, by decide⟩
                simp only [List.nil_append] at hwd
                show (wsDollar (r2a ++ u)).map _ = (wsDollar (r2a ++ u')).map _
                rw [hwd]
          · have hane : (rv.drop (rv.takeWhile isWS).length ++ S "###") ≠ [] := by
              intro h0
              exact absurd (List.append_eq_nil.mp h0).2 (by decide)
            have halen : 1 ≤ (rv.drop (rv.takeWhile isWS).length ++ S "###").length :=
              List.length_pos.mpr hane
            have hget : (rv.drop (rv.takeWhile isWS).length ++ S "###")[
                (rv.drop (rv.takeWhile isWS).length ++ S "###").length - 1]? =
                some '#' := by
              rw [← List.getLast?_eq_getElem?]
              rw [getLast?_append_right _ _ (by decide)]
              decide
            have hpf : ∀ X : L, (S "YouTube").isPrefixOf
                ((rv.drop (rv.takeWhile isWS).length ++ S "###") ++ X) = false := by
              intro X
              refine mismatch_not_prefix _ _ _
                ((rv.drop (rv.takeWhile isWS).length ++ S "###").length - 1)
                (by omega) (by omega) ?_
              rw [hget]
              exact yt_pat_no_hash _
            rw [show stripLit (S "YouTube")
                ((rv.drop (rv.takeWhile isWS).length ++ S "###") ++ u) = none from by
              unfold stripLit
              rw [hpf u]
              rfl]
            rw [show stripLit (S "YouTube")
                ((rv.drop (rv.takeWhile isWS).length ++ S "###") ++ u') = none from by
              unfold stripLit
              rw [hpf u']
              rfl]
  · rw [← List.append_assoc, ← List.append_assoc]
    have hsl : ∀ X : L, stripLit (S "###") ((v ++ S "###") ++ X) =
        (stripLit (S "###") (v ++ S "###")).map (fun r => r ++ X) := by
      intro X
      exact stripLit_append_left (S "###") _ X (by rw [List.length_append]; omega)
    cases hs : stripLit (S "###") (v ++ S "###") with
    | none =>
        rw [tryYT_none_of_strip _ (by rw [hsl, hs]; rfl),
          tryYT_none_of_strip _ (by rw [hsl, hs]; rfl)]
    | some r =>
        have h1 : stripLit (S "###") ((v ++ S "###") ++ u) = some (r ++ u) := by
          rw [hsl, hs]; rfl
        have h1' : stripLit (S "###") ((v ++ S "###") ++ u') = some (r ++ u') := by
          rw [hsl, hs]; rfl
        rw [tryYT_eq_of_strip _ _ h1, tryYT_eq_of_strip _ _ h1']
        obtain ⟨rt, hrt⟩ : ∃ rt, r = '#' :: rt := by
          rcases stripLit_some _ _ _ hs with ⟨_, heq⟩
          have hg : (v ++ S "###")[3]? = some '#' := by
            rw [List.getElem?_append, if_neg (by omega)]
            rcases (by omega : v.length = 1 ∨ v.length = 2) with h | h <;>
              rw [h] <;> decide
          rw [heq, List.getElem?_append, if_neg (by decide),
            show (3 - (S "###").length) = 0 from by decide] at hg
          cases hr0 : r with
          | nil => rw [hr0] at hg; cases hg
          | cons c rt =>
              rw [hr0] at hg
              simp only [List.getElem?_cons_zero, Option.some.injEq] at hg
              subst hg
              exact ⟨rt, rfl⟩
        have htk : ∀ X : L, ((r ++ X).takeWhile isWS).length = 0 := by
          intro X
          rw [hrt]
          simp only [List.cons_append]
          rw [List.takeWhile_cons, if_neg (by decide)]
          rfl
        rw [if_pos (htk u), if_pos (htk u')]

theorem tryYT_prefix12 (u : L) :
    tryYTHeader (S "### YouTube\n\n-" ++ u) = some 12 := by
  have hstrip : stripLit (S "###") (S "### YouTube\n\n-" ++ u) =
      some (S " YouTube\n\n-" ++ u) := by
    rw [show S "### YouTube\n\n-" = S "###" ++ S " YouTube\n\n-" from by decide,
      List.append_assoc]
    exact stripLit_pref _ _
  rw [tryYT_eq_of_strip _ _ hstrip]
  have htw : ((S " YouTube\n\n-" ++ u).takeWhile isWS) = [' '] := by
    rw [show S " YouTube\n\n-" = ' ' :: ('Y' :: S "ouTube\n\n-") from by decide]
    simp only [List.cons_append]
    rw [List.takeWhile_cons, if_pos (by decide), List.takeWhile_cons,
      if_neg (by decide)]
  rw [htw]
  rw [if_neg (by decide)]
  have hdrop : (S " YouTube\n\n-" ++ u).drop ([' '] : L).length =
      S "YouTube\n\n-" ++ u := by
    rw [show (([' '] : L)).length = 1 from rfl,
      show S " YouTube\n\n-" = ' ' :: S "YouTube\n\n-" from by decide]
    simp only [List.cons_append, List.drop_succ_cons, List.drop_zero]
  rw [hdrop]
  have hstrip2 : stripLit (S "YouTube") (S "YouTube\n\n-" ++ u) =
      some (S "\n\n-" ++ u) := by
    rw [show S "YouTube\n\n-" = S "YouTube" ++ S "\n\n-" from by decide,
      List.append_assoc]
    exact stripLit_pref _ _
  rw [hstrip2]
  show (wsDollar (S "\n\n-" ++ u)).map _ = some 12
  have hwd := wsDollar_det [] (S "\n\n-") u [] ⟨'-', by decide, by decide⟩
  simp only [List.nil_append, List.append_nil] at hwd
  rw [hwd, show wsDollar (S "\n\n-") = some 1 from by decide]
  rfl

theorem upsert_eq_empty (md : L) :
    upsert_youtube_section md [] =
      replaceAll PLACEHOLDER_BARE [] (replaceAll PLACEHOLDER_DASH [] md) := by
  unfold upsert_youtube_section
  rw [if_pos rfl]

theorem upsert_eq_found_some (md : L) (videos : List YtVideoU) (hne : ¬videos = [])
    (p len q k3 : Nat) (h : searchM tryYTHeader md true = some (p, len))
    (hq : searchM tryH2 (md.drop (p + len)) true = some (q, k3)) :
    upsert_youtube_section md videos =
      md.take p ++ ytBlock videos ++ md.drop (p + len + q) := by
  unfold upsert_youtube_section
  rw [if_neg hne, h]
  show (md.take p ++ ytBlock videos ++
      md.drop (match searchM tryH2 (md.drop (p + len)) true with
               | some (q, _) => p + len + q
               | none => p + len + (md.length - (p + len)))) = _
  rw [hq]

theorem upsert_eq_found_none (md : L) (videos : List YtVideoU) (hne : ¬videos = [])
    (p len : Nat) (h : searchM tryYTHeader md true = some (p, len))
    (hq : searchM tryH2 (md.drop (p + len)) true = none) :
    upsert_youtube_section md videos =
      md.take p ++ ytBlock videos ++
        md.drop (p + len + (md.length - (p + len))) := by
  unfold upsert_youtube_section
  rw [if_neg hne, h]
  show (md.take p ++ ytBlock videos ++
      md.drop (match searchM tryH2 (md.drop (p + len)) true with
               | some (q, _) => p + len + q
               | none => p + len + (md.length - (p + len)))) = _
  rw [hq]

theorem upsert_eq_anti (md : L) (videos : List YtVideoU) (hne : ¬videos = [])
    (hn : searchM tryYTHeader md true = none) (s2 e2 : Nat)
    (ha : extract_section tryAntiHeader md = some (s2, e2)) :
    upsert_youtube_section md videos =
      pyRStripWS (md.take e2) ++ S "\n\n" ++ ytBlock videos ++ md.drop e2 := by
  unfold upsert_youtube_section
  rw [if_neg hne, hn]
  show (match extract_section tryAntiHeader md with
        | some (_, e2) => pyRStripWS (md.take e2) ++ S "\n\n" ++ ytBlock videos ++
            md.drop e2
        | none => pyRStripWS md ++ S "\n\n" ++ ytBlock videos) = _
  rw [ha]

theorem upsert_eq_append (md : L) (videos : List YtVideoU) (hne : ¬videos = [])
    (hn : searchM tryYTHeader md true = none)
    (ha : extract_section tryAntiHeader md = none) :
    upsert_youtube_section md videos =
      pyRStripWS md ++ S "\n\n" ++ ytBlock videos := by
  unfold upsert_youtube_section
  rw [if_neg hne, hn]
  show (match extract_section tryAntiHeader md with
        | some (_, e2) => pyRStripWS (md.take e2) ++ S "\n\n" ++ ytBlock videos ++
            md.drop e2
        | none => pyRStripWS md ++ S "\n\n" ++ ytBlock videos) = _
  rw [ha]

theorem upsert_replace_idem (md : L) (videos : List YtVideoU)
    (hne : ¬videos = [])
    (hbf : ∀ v ∈ videos, noBrk (ytLine v) = true)
    (p len : Nat) (hf : searchM tryYTHeader md true = some (p, len)) :
    upsert_youtube_section (upsert_youtube_section md videos) videos =
      upsert_youtube_section md videos := by
  obtain ⟨vid, vs, hv⟩ := List.exists_cons_of_ne_nil hne
  rcases searchM_some_spec tryYTHeader md true p len hf with ⟨hple, hpst, hptry, hpmin⟩
  have hlenle : len ≤ md.length - p := by
    have := tryYT_le _ _ hptry
    rw [List.length_drop] at this
    exact this
  have hA : (md.take p).length = p := by
    simp [List.length_take]
    omega
  obtain ⟨rr, hrr⟩ : ∃ rr, md.drop p = S "###" ++ rr := by
    unfold tryYTHeader at hptry
    cases hs : stripLit (S "###") (md.drop p) with
    | none => rw [hs] at hptry; cases hptry
    | some rr => exact ⟨rr, (stripLit_some _ _ _ hs).2⟩
  obtain ⟨yt1, hyt1⟩ := ytLine_cons vid
  have hnbflat := ytBlock_flat videos
  have hnb_pref : ∀ X : L, ytBlock videos ++ X =
      S "### YouTube\n\n-" ++ ((yt1 ++ S "\n") ++
        (((vs.map ytLine).map (fun b => b ++ S "\n")).flatten ++ X)) := by
    intro X
    rw [hnbflat, hv]
    simp only [List.map_cons, List.flatten_cons, hyt1]
    rw [show S "### YouTube\n\n-" = S "### YouTube\n\n" ++ ['-'] from by decide]
    simp [List.append_assoc, List.cons_append, List.singleton_append]
  obtain ⟨nbr, hnbr⟩ : ∃ nbr, ytBlock videos = S "###" ++ nbr := by
    rw [hnbflat]
    rw [show S "### YouTube\n\n" = S "###" ++ S " YouTube\n\n" from by decide,
      List.append_assoc]
    exact ⟨_, rfl⟩
  have hdl : ∀ (A l2 : L), A.length = p → (A ++ l2).drop p = l2 := by
    intro A l2 h
    rw [← h, List.drop_left]
  have htl : ∀ (A l2 : L), A.length = p → (A ++ l2).take p = A := by
    intro A l2 h
    rw [← h, List.take_left]
  -- facts shared by both end-of-section cases, for an arbitrary section end E
  have core : ∀ E : Nat,
      upsert_youtube_section md videos =
        md.take p ++ (ytBlock videos ++ md.drop E) →
      (md.drop E = [] ∨ ∃ k3, tryH2 (md.drop E) = some k3) →
      upsert_youtube_section (upsert_youtube_section md videos) videos =
        upsert_youtube_section md videos := by
    intro E hout hBalt
    have hfound2 : searchM tryYTHeader
        (md.take p ++ (ytBlock videos ++ md.drop E)) true = some (p, 12) := by
      apply searchM_of_found
      · rcases hpst with ⟨h0, _⟩ | ⟨h1, hnl⟩
        · exact Or.inl ⟨h0, rfl⟩
        · refine Or.inr ⟨h1, ?_⟩
          rw [List.getElem?_append, if_pos (by rw [hA]; omega),
            List.getElem?_take, if_pos (by omega)]
          exact hnl
      · rw [hdl (md.take p) _ hA]
        rw [hnb_pref (md.drop E)]
        exact tryYT_prefix12 _
      · intro i hip hist
        have hmdst : lineStart md true i := by
          rcases hist with ⟨h0, _⟩ | ⟨h1, hnl⟩
          · exact Or.inl ⟨h0, rfl⟩
          · refine Or.inr ⟨h1, ?_⟩
            rw [List.getElem?_append, if_pos (by rw [hA]; omega),
              List.getElem?_take, if_pos (by omega)] at hnl
            exact hnl
        have hnone := hpmin i hip hmdst
        have hod : (md.take p ++ (ytBlock videos ++ md.drop E)).drop i =
            (md.take p).drop i ++ (ytBlock videos ++ md.drop E) :=
          List.drop_append_of_le_length (by rw [hA]; omega)
        have hmd : md.drop i = (md.take p).drop i ++ md.drop p := by
          conv_lhs => rw [← List.take_append_drop p md]
          rw [List.drop_append_of_le_length (by rw [hA]; omega)]
        have hvlen : 1 ≤ ((md.take p).drop i).length := by
          rw [List.length_drop, hA]
          omega
        rw [hod,
          show ytBlock videos ++ md.drop E = S "###" ++ (nbr ++ md.drop E) from by
            rw [hnbr, List.append_assoc],
          tryYT_det ((md.take p).drop i) (nbr ++ md.drop E) rr hvlen,
          show (md.take p).drop i ++ (S "###" ++ rr) = md.drop i from by
            rw [← hrr, ← hmd]]
        exact hnone
    have hlines : ∀ l ∈ (([('\n' : Char)] : L) ::
        ((videos.map ytLine).map (fun b => b ++ S "\n"))),
        ∃ b, l = b ++ S "\n" ∧ noBrk b = true ∧
          (∀ a, l.head? = some a → a ≠ '#') := by
      intro l hl
      rcases List.mem_cons.mp hl with h | h
      · refine ⟨[], by rw [h]; rfl, rfl, ?_⟩
        intro a ha
        rw [h] at ha
        simp only [List.head?_cons, Option.some.injEq] at ha
        subst ha
        decide
      · obtain ⟨b0, hb0mem, hb0eq⟩ := List.mem_map.mp h
        obtain ⟨v0, hv0mem, hv0eq⟩ := List.mem_map.mp hb0mem
        refine ⟨b0, hb0eq.symm, by rw [← hv0eq]; exact hbf v0 hv0mem, ?_⟩
        intro a ha
        obtain ⟨t0, ht0⟩ := ytLine_cons v0
        rw [← hb0eq, ← hv0eq, ht0] at ha
        simp only [List.cons_append, List.head?_cons, Option.some.injEq] at ha
        subst ha
        decide
    have hflatlines : ((([('\n' : Char)] : L) ::
        ((videos.map ytLine).map (fun b => b ++ S "\n"))).flatten) =
        ['\n'] ++ ((videos.map ytLine).map (fun b => b ++ S "\n")).flatten := by
      rw [List.flatten_cons]
    have hdrop12 : (md.take p ++ (ytBlock videos ++ md.drop E)).drop (p + 12) =
        ((([('\n' : Char)] : L) ::
          ((videos.map ytLine).map (fun b => b ++ S "\n"))).flatten) ++ md.drop E := by
      rw [show p + 12 = (md.take p).length + 12 from by rw [hA], List.drop_append]
      rw [hnbflat, List.append_assoc]
      rw [List.drop_append_of_le_length (by decide)]
      rw [show (S "### YouTube\n\n").drop 12 = ['\n'] from by decide]
      rw [hflatlines, List.append_assoc]
    have hflag : flagAfter ((([('\n' : Char)] : L) ::
        ((videos.map ytLine).map (fun b => b ++ S "\n"))).flatten) true = true := by
      apply flagAfter_last_nl
      apply flat_last_nl
      · simp
      · intro l hl
        obtain ⟨b, hb, _, _⟩ := hlines l hl
        rw [hb]
        rw [getLast?_append_right _ _ (by decide)]
        decide
    have hsrch2 : searchM tryH2
        ((md.take p ++ (ytBlock videos ++ md.drop E)).drop (p + 12)) true =
        (searchM tryH2 (md.drop E) true).map
          (fun pr => (pr.1 + ((([('\n' : Char)] : L) ::
            ((videos.map ytLine).map (fun b => b ++ S "\n"))).flatten).length,
            pr.2)) := by
      rw [hdrop12]
      rw [searchM_append_skip tryH2 _ (md.drop E) true
        (noHash_lines_skip _ (md.drop E) hlines)]
      rw [hflag]
    rw [hout]
    rcases hBalt with hBnil | ⟨k3, hBtry⟩
    · have hq2 : searchM tryH2
          ((md.take p ++ (ytBlock videos ++ md.drop E)).drop (p + 12)) true =
          none := by
        rw [hsrch2, hBnil]
        rfl
      rw [upsert_eq_found_none _ videos hne p 12 hfound2 hq2]
      rw [htl (md.take p) _ hA]
      rw [List.drop_eq_nil_of_le (by omega)]
      rw [hBnil]
      simp [List.append_assoc]
    · have hsB : searchM tryH2 (md.drop E) true = some (0, k3) := by
        apply searchM_of_found
        · exact Or.inl ⟨rfl, rfl⟩
        · rw [List.drop_zero]
          exact hBtry
        · intro i hi _
          exact absurd hi (by omega)
      have hq2 : searchM tryH2
          ((md.take p ++ (ytBlock videos ++ md.drop E)).drop (p + 12)) true =
          some (0 + ((([('\n' : Char)] : L) ::
            ((videos.map ytLine).map (fun b => b ++ S "\n"))).flatten).length,
            k3) := by
        rw [hsrch2, hsB]
        rfl
      rw [upsert_eq_found_some _ videos hne p 12 _ k3 hfound2 hq2]
      rw [htl (md.take p) _ hA]
      have hlen_nb : (ytBlock videos).length =
          12 + ((([('\n' : Char)] : L) ::
            ((videos.map ytLine).map (fun b => b ++ S "\n"))).flatten).length := by
        rw [hnbflat, hflatlines]
        simp only [List.length_append]
        rw [show (S "### YouTube\n\n").length = 13 from by decide,
          show (['\n'] : L).length = 1 from rfl]
        omega
      have hdropE : (md.take p ++ (ytBlock videos ++ md.drop E)).drop
          (p + 12 + (0 + ((([('\n' : Char)] : L) ::
            ((videos.map ytLine).map (fun b => b ++ S "\n"))).flatten).length)) =
          md.drop E := by
        rw [show p + 12 + (0 + ((([('\n' : Char)] : L) ::
            ((videos.map ytLine).map (fun b => b ++ S "\n"))).flatten).length) =
          (md.take p).length + (ytBlock videos).length from by
            rw [hA, hlen_nb]; omega]
        rw [List.drop_append, List.drop_left]
      rw [hdropE]
      simp [List.append_assoc]
  cases hq : searchM tryH2 (md.drop (p + len)) true with
  | none =>
      have hout := upsert_eq_found_none md videos hne p len hf hq
      have hBnil : md.drop (p + len + (md.length - (p + len))) = [] :=
        List.drop_eq_nil_of_le (by omega)
      exact core (p + len + (md.length - (p + len)))
        (by rw [hout]; simp [List.append_assoc]) (Or.inl hBnil)
  | some pr =>
      obtain ⟨q, k3⟩ := pr
      have hout := upsert_eq_found_some md videos hne p len q k3 hf hq
      rcases searchM_some_spec tryH2 _ true q k3 hq with ⟨_, _, hqtry, _⟩
      have hBtry : tryH2 (md.drop (p + len + q)) = some k3 := by
        rw [← List.drop_drop]
        exact hqtry
      exact core (p + len + q)
        (by rw [hout]; simp [List.append_assoc]) (Or.inr ⟨k3, hBtry⟩)

theorem hasSub_cons_of (needle : L) (c : Char) (rest : L)
    (h : hasSub needle rest = true) : hasSub needle (c :: rest) = true := by
  show (needle.isPrefixOf (c :: rest) || hasSub needle rest) = true
  rw [h, Bool.or_true]

theorem hasSub_of_prefix (needle t : L) (h : needle.isPrefixOf t = true) :
    hasSub needle t = true := by
  cases t with
  | nil =>
      show needle.isEmpty = true
      cases needle with
      | nil => rfl
      | cons a b => simp [List.isPrefixOf] at h
  | cons c r =>
      show (needle.isPrefixOf (c :: r) || hasSub needle r) = true
      rw [h, Bool.true_or]

theorem hasSub_drop (needle : L) : ∀ (s : L) (k : Nat),
    hasSub needle (s.drop k) = true → hasSub needle s = true := by
  intro s
  induction s with
  | nil => intro k h; simpa using h
  | cons c r ih =>
      intro k h
      cases k with
      | zero => exact h
      | succ k2 =>
          rw [List.drop_succ_cons] at h
          exact hasSub_cons_of _ _ _ (ih k2 h)

theorem hasSub_super (a b : L) : ∀ (s : L),
    hasSub (a ++ b) s = true → hasSub b s = true := by
  intro s
  induction s with
  | nil =>
      intro h
      have h2 : (a ++ b).isEmpty = true := h
      have hab : a ++ b = [] := by
        cases hc : a ++ b with
        | nil => rfl
        | cons x y => rw [hc] at h2; cases h2
      show b.isEmpty = true
      rw [(List.append_eq_nil.mp hab).2]
      rfl
  | cons c r ih =>
      intro h
      have h2 : ((a ++ b).isPrefixOf (c :: r) || hasSub (a ++ b) r) = true := h
      rcases Bool.or_eq_true_iff.mp h2 with hpre | hrec
      · have hpre2 : (a ++ b) <+: (c :: r) := List.isPrefixOf_iff_prefix.mp hpre
        rcases hpre2 with ⟨t, ht⟩
        have hs : (c :: r).drop a.length = b ++ t := by
          rw [← ht, List.append_assoc, List.drop_left]
        apply hasSub_drop b (c :: r) a.length
        rw [hs]
        exact hasSub_of_prefix _ _
          (List.isPrefixOf_iff_prefix.mpr (List.prefix_append b t))
      · exact hasSub_cons_of _ _ _ (ih hrec)

theorem replaceAllF_no_occ (old new : L) : ∀ (n : Nat) (s : L),
    hasSub old s = false → replaceAllF old new n s = s := by
  intro n
  induction n with
  | zero =>
      intro s _
      cases s with
      | nil => rfl
      | cons c r => rfl
  | succ n2 ih =>
      intro s h
      cases s with
      | nil => rfl
      | cons c r =>
          show (if old ≠ [] ∧ old.isPrefixOf (c :: r) = true then
              new ++ replaceAllF old new n2 ((c :: r).drop old.length)
            else c :: replaceAllF old new n2 r) = c :: r
          have hb : old.isPrefixOf (c :: r) = false ∧ hasSub old r = false := by
            have h2 : (old.isPrefixOf (c :: r) || hasSub old r) = false := h
            exact Bool.or_eq_false_iff.mp h2
          have hcond : ¬(old ≠ [] ∧ old.isPrefixOf (c :: r) = true) := by
            intro hc
            rw [hb.1] at hc
            exact absurd hc.2 (by simp)
          rw [if_neg hcond, ih r hb.2]

theorem replaceAll_no_occ (old new s : L) (h : hasSub old s = false) :
    replaceAll old new s = s := by
  unfold replaceAll
  have hold : old ≠ [] := by
    intro h0
    subst h0
    cases s with
    | nil =>
        have : hasSub ([] : L) ([] : L) = true := rfl
        rw [this] at h
        cases h
    | cons c r =>
        have : hasSub ([] : L) (c :: r) = true := by
          show (List.isPrefixOf [] (c :: r) || hasSub [] r) = true
          rw [show List.isPrefixOf ([] : L) (c :: r) = true from rfl, Bool.true_or]
        rw [this] at h
        cases h
  rw [if_neg hold]
  exact replaceAllF_no_occ old new s.length s h

theorem upsert_empty_idem (md : L)
    (h : hasSub PLACEHOLDER_BARE (upsert_youtube_section md []) = false) :
    upsert_youtube_section (upsert_youtube_section md []) [] =
      upsert_youtube_section md [] := by
  have hdash : hasSub PLACEHOLDER_DASH (upsert_youtube_section md []) = false := by
    cases hb : hasSub PLACEHOLDER_DASH (upsert_youtube_section md []) with
    | false => rfl
    | true =>
        exfalso
        have hsup := hasSub_super (S "- ") PLACEHOLDER_BARE _ (by
          rw [show S "- " ++ PLACEHOLDER_BARE = PLACEHOLDER_DASH from by decide]
          exact hb)
        rw [h] at hsup
        cases hsup
  rw [upsert_eq_empty (upsert_youtube_section md [])]
  rw [replaceAll_no_occ _ _ _ hdash, replaceAll_no_occ _ _ _ h]

/-- C2 counterexample: with a discussion map whose value embeds a newline and a
fresh `Link:` line, the second `add_hn_discussion_links` pass inserts again, so
applying the patch twice is not byte-identical to applying it once. -/
theorem C2_counterexample :
    add_hn_discussion_links (add_hn_discussion_links
        (S "## A) Hacker News — Top 5\nLink: https://u\n") c2m) c2m ≠
      add_hn_discussion_links (S "## A) Hacker News — Top 5\nLink: https://u\n") c2m := by
  decide

/-- C2 (corrected): the Hacker News pass is idempotent whenever every
discussion link the map yields is free of line-break characters; the YouTube
pass is idempotent in the replace branch (an existing `### YouTube` heading,
nonempty videos with break-free rendered bullets); and the empty-videos
placeholder deletion is idempotent whenever its output carries no further
bare-placeholder occurrence. Without the break-free condition idempotence
fails (`C2_counterexample`). -/
theorem C2_theorem :
    (∀ (md : L) (m : L → Option L), mapNoBrk m →
      add_hn_discussion_links (add_hn_discussion_links md m) m =
        add_hn_discussion_links md m) ∧
    (∀ (md : L) (videos : List YtVideoU), ¬videos = [] →
      (∀ v ∈ videos, noBrk (ytLine v) = true) →
      ∀ p len, searchM tryYTHeader md true = some (p, len) →
      upsert_youtube_section (upsert_youtube_section md videos) videos =
        upsert_youtube_section md videos) ∧
    (∀ md : L, hasSub PLACEHOLDER_BARE (upsert_youtube_section md []) = false →
      upsert_youtube_section (upsert_youtube_section md []) [] =
        upsert_youtube_section md []) :=
  ⟨add_hn_idem,
   fun md videos hne hbf p len hf => upsert_replace_idem md videos hne hbf p len hf,
   upsert_empty_idem⟩

/-- Witness for C2: concrete instances of the three idempotence conjuncts. -/
theorem C2_theorem_witness :
    (add_hn_discussion_links (add_hn_discussion_links (S "x0") (fun _ => none))
        (fun _ => none) = add_hn_discussion_links (S "x0") (fun _ => none)) ∧
    (upsert_youtube_section (upsert_youtube_section (S "### YouTube\n")
        [⟨S "c", S "t", S "u", ⟨2024, 1, 2⟩⟩]) [⟨S "c", S "t", S "u", ⟨2024, 1, 2⟩⟩] =
      upsert_youtube_section (S "### YouTube\n") [⟨S "c", S "t", S "u", ⟨2024, 1, 2⟩⟩]) ∧
    (upsert_youtube_section (upsert_youtube_section (S "### YouTube\n") []) [] =
      upsert_youtube_section (S "### YouTube\n") []) :=
  ⟨C2_theorem.1 (S "x0") (fun _ => none) (fun _ _ h => nomatch h),
   C2_theorem.2.1 (S "### YouTube\n") [⟨S "c", S "t", S "u", ⟨2024, 1, 2⟩⟩]
     (by decide) (by decide) 0 12 (by decide),
   C2_theorem.2.2 (S "### YouTube\n") (by decide)⟩

/-- C4 counterexample: with an empty video list the placeholder deletion is a
document-wide substring replacement, so a placeholder occurrence inside an
unrelated `## Z) Other` section is removed and bytes outside any targeted
section change. -/
theorem C4_counterexample :
    upsert_youtube_section (S "## Z) Other\n" ++ PLACEHOLDER_DASH ++ S "\n") [] ≠
      S "## Z) Other\n" ++ PLACEHOLDER_DASH ++ S "\n" := by
  decide

/-- C4 (corrected): the Hacker News pass rewrites only the extracted section
span (`md.take s ++ core ++ md.drop e`, and is the identity when no section is
found); the nonempty-videos YouTube pass keeps the bytes before the matched
`### YouTube` heading and after the section end, and in the anti-bubble branch
keeps the suffix after the anti-bubble section end while right-stripping the
trailing whitespace of the prefix; but the empty-videos pass is a
document-wide placeholder deletion, not section-local (`C4_counterexample`). -/
theorem C4_theorem :
    (∀ (md : L) (m : L → Option L),
      extract_section tryHNHeader md = none →
      add_hn_discussion_links md m = md) ∧
    (∀ (md : L) (m : L → Option L) (s e : Nat),
      extract_section tryHNHeader md = some (s, e) →
      ∃ core, add_hn_discussion_links md m = md.take s ++ core ++ md.drop e) ∧
    (∀ (md : L) (videos : List YtVideoU) (p len q k3 : Nat), ¬videos = [] →
      searchM tryYTHeader md true = some (p, len) →
      searchM tryH2 (md.drop (p + len)) true = some (q, k3) →
      upsert_youtube_section md videos =
        md.take p ++ ytBlock videos ++ md.drop (p + len + q)) ∧
    (∀ (md : L) (videos : List YtVideoU) (s2 e2 : Nat), ¬videos = [] →
      searchM tryYTHeader md true = none →
      extract_section tryAntiHeader md = some (s2, e2) →
      upsert_youtube_section md videos =
        pyRStripWS (md.take e2) ++ S "\n\n" ++ ytBlock videos ++ md.drop e2) :=
  ⟨fun md m h => add_hn_eq_of_none md m h,
   fun md m s e h => ⟨_, add_hn_eq_of_some md m s e h⟩,
   fun md videos p len q k3 hne hf hq =>
     upsert_eq_found_some md videos hne p len q k3 hf hq,
   fun md videos s2 e2 hne hn ha => upsert_eq_anti md videos hne hn s2 e2 ha⟩

/-- Witness for C4: concrete instances of the four frame conjuncts. -/
theorem C4_theorem_witness :
    (add_hn_discussion_links (S "x") (fun _ => none) = S "x") ∧
    (∃ core, add_hn_discussion_links (S "## A) Hacker News — Top 5\nL\n")
        (fun _ => none) =
      (S "## A) Hacker News — Top 5\nL\n").take 25 ++ core ++
        (S "## A) Hacker News — Top 5\nL\n").drop 28) ∧
    (upsert_youtube_section (S "### YouTube\n\n## B\n")
        [⟨S "c2", S "t2", S "u2", ⟨2024, 3, 4⟩⟩] =
      (S "### YouTube\n\n## B\n").take 0 ++
        ytBlock [⟨S "c2", S "t2", S "u2", ⟨2024, 3, 4⟩⟩] ++
        (S "### YouTube\n\n## B\n").drop (0 + 12 + 1)) ∧
    (upsert_youtube_section (S "## C) Anti-bubble picks (outside)\nx\n")
        [⟨S "c2", S "t2", S "u2", ⟨2024, 3, 4⟩⟩] =
      pyRStripWS ((S "## C) Anti-bubble picks (outside)\nx\n").take 36) ++
        S "\n\n" ++ ytBlock [⟨S "c2", S "t2", S "u2", ⟨2024, 3, 4⟩⟩] ++
        (S "## C) Anti-bubble picks (outside)\nx\n").drop 36) :=
  ⟨C4_theorem.1 (S "x") (fun _ => none) (by decide),
   C4_theorem.2.1 (S "## A) Hacker News — Top 5\nL\n") (fun _ => none) 25 28
     (by decide),
   C4_theorem.2.2.1 (S "### YouTube\n\n## B\n")
     [⟨S "c2", S "t2", S "u2", ⟨2024, 3, 4⟩⟩] 0 12 1 3 (by decide) (by decide)
     (by decide),
   C4_theorem.2.2.2 (S "## C) Anti-bubble picks (outside)\nx\n")
     [⟨S "c2", S "t2", S "u2", ⟨2024, 3, 4⟩⟩] 33 36 (by decide) (by decide)
     (by decide)⟩

theorem firstPick_link_not_mem (env : AntiEnv) (hist : List L) (src : AntiBubbleSource) :
    ∀ (es : List RssEntry) (p : Pick), firstPick env hist src es = some p →
      p.link ∉ hist := by
  intro es
  induction es with
  | nil => intro p h; exact Option.noConfusion h
  | cons e rest ih =>
      intro p h
      simp only [firstPick] at h
      split_ifs at h with h1 h2 h3 h4
      · exact ih p h
      · exact ih p h
      · exact ih p h
      · exact ih p h
      · cases h
        exact h2

theorem pickLoop_not_mem_hist (env : AntiEnv) (hist : List L) (n m : Nat) :
    ∀ (srcs : List AntiBubbleSource) (picks : List Pick) (used : List L),
      (∀ q ∈ picks, q.link ∉ hist) →
      ∀ p ∈ pickLoop env hist n m srcs picks used, p.link ∉ hist := by
  intro srcs
  induction srcs with
  | nil => intro picks used hinv p hp; exact hinv p hp
  | cons src rest ih =>
      intro picks used hinv p hp
      rw [pickLoop] at hp
      split_ifs at hp with hstop
      · exact hinv p hp
      · cases hfp : firstPick env hist src (fetch_rss_entries env src.rss_url 15) with
        | none =>
            rw [hfp] at hp
            exact ih _ _ hinv p hp
        | some q =>
            rw [hfp] at hp
            refine ih _ _ ?_ p hp
            intro r hr
            rcases List.mem_append.mp hr with hr2 | hr2
            · exact hinv r hr2
            · have hrq : r = q := List.mem_singleton.mp hr2
              subst hrq
              exact firstPick_link_not_mem env hist src _ r hfp

/-- C3: a candidate whose (stripped) link is a member of the loaded history is
never selected by `pick_antibubble_items` — the `if link in history_set:
continue` guard precedes every acceptance, including when the candidate is
the only remaining one from a source. -/
theorem C3_theorem :
    ∀ (H : L → L) (env : AntiEnv) (now_utc : PyDateTime) (n m : Nat) (p : Pick),
      p ∈ pick_antibubble_items H env now_utc n m →
      p.link ∉ load_antibubble_history env.histFile 300 := by
  intro H env now_utc n m p hp
  simp only [pick_antibubble_items] at hp
  have hp2 := List.take_subset n _ hp
  exact pickLoop_not_mem_hist env _ n m _ [] []
    (by intro q hq; exact absurd hq (List.not_mem_nil q)) p hp2

/-- C3 witness: in the concrete world the fresh Aeon entry is selected (the
history-member entry is skipped even though it comes first) and the theorem
applies to it. -/
theorem C3_theorem_witness :
    (⟨S "Aeon", S "Fresh pick", S "https://example.org/new", S "example.org"⟩ : Pick)
        ∈ pick_antibubble_items c3Hash c3Env ⟨⟨2026, 2, 16⟩, 0⟩ 3 2 ∧
    (⟨S "Aeon", S "Fresh pick", S "https://example.org/new", S "example.org"⟩ : Pick).link
        ∉ load_antibubble_history c3Env.histFile 300 :=
  ⟨by decide, C3_theorem c3Hash c3Env ⟨⟨2026, 2, 16⟩, 0⟩ 3 2 _ (by decide)⟩

/-- C5: the seeded rotation is exactly a stable ascending sort of the curated
pool by the hex digest of `date-string + "|" + rss-url` — the shuffled pool
is a permutation of the source pool, pairwise non-descending in the digest
key (lexicographically, and numerically by hex value whenever the digest
function produces 64-character lowercase-hex output, as `sha256.hexdigest`
does), and the selection depends on the timestamp only through its UTC
calendar date, so two runs with equal dates and one fixed environment return
identical sequences. -/
theorem C5_theorem :
    (∀ (H : L → L) (items : List AntiBubbleSource) (seed : L),
      (stable_shuffle H items seed).Perm items ∧
      (stable_shuffle H items seed).Pairwise
        (fun x y => strLt (shuffleKey H seed y) (shuffleKey H seed x) = false)) ∧
    (∀ H : L → L,
      (∀ s : L, (H s).length = 64 ∧ ∀ c ∈ H s, c ∈ hexDigitsLower) →
      ∀ (items : List AntiBubbleSource) (seed : L),
      (stable_shuffle H items seed).Pairwise
        (fun x y => hexNat (shuffleKey H seed x) ≤ hexNat (shuffleKey H seed y))) ∧
    (∀ (H : L → L) (env : AntiEnv) (now1 now2 : PyDateTime) (n m : Nat),
      now1.date = now2.date →
      pick_antibubble_items H env now1 n m = pick_antibubble_items H env now2 n m) := by
  refine ⟨?_, ?_, ?_⟩
  · intro H items seed
    refine ⟨pySorted_perm _ items, ?_⟩
    exact pySorted_pairwise
      (fun x y => strLt (shuffleKey H seed x) (shuffleKey H seed y))
      (fun x y h => strLt_asymm h) (fun x y z h1 h2 => strLt_le_trans h1 h2) items
  · intro H hH items seed
    have hpw := pySorted_pairwise
      (fun x y => strLt (shuffleKey H seed x) (shuffleKey H seed y))
      (fun x y h => strLt_asymm h) (fun x y z h1 h2 => strLt_le_trans h1 h2) items
    refine hpw.imp ?_
    intro x y hxy
    by_contra hlt
    push_neg at hlt
    have hiff := strLt_iff_hexNat_lt
      (a := shuffleKey H seed y) (b := shuffleKey H seed x)
      (by rw [shuffleKey, shuffleKey, (hH _).1, (hH _).1]) (hH _).2 (hH _).2
    exact Bool.noConfusion ((hiff.mpr hlt).symm.trans hxy)
  · intro H env now1 now2 n m h
    simp only [pick_antibubble_items, h]

/-- C5 witness: the theorem applied at the all-zero digest (discharging the
hex-format hypothesis) and at two timestamps sharing the calendar date
2026-02-16 (discharging the equal-date hypothesis). -/
theorem C5_theorem_witness :
    (stable_shuffle c5Hash ANTI_BUBBLE_SOURCES (S "2026-02-16")).Pairwise
      (fun x y => hexNat (shuffleKey c5Hash (S "2026-02-16") x) ≤
        hexNat (shuffleKey c5Hash (S "2026-02-16") y)) ∧
    pick_antibubble_items c5Hash c5Env ⟨⟨2026, 2, 16⟩, 100⟩ 3 2 =
      pick_antibubble_items c5Hash c5Env ⟨⟨2026, 2, 16⟩, 200⟩ 3 2 :=
  ⟨C5_theorem.2.1 c5Hash
      (fun s => ⟨by simp [c5Hash],
        fun c hc => by rw [List.eq_of_mem_replicate hc]; decide⟩)
      ANTI_BUBBLE_SOURCES (S "2026-02-16"),
    C5_theorem.2.2 c5Hash c5Env ⟨⟨2026, 2, 16⟩, 100⟩ ⟨⟨2026, 2, 16⟩, 200⟩ 3 2 rfl⟩

/-- C1 counterexample: with every other source healthy (one HN story served
when the endpoint is up, four live subreddits, one failing subreddit whose
error is recorded), an HTTP 500 on the HN top-stories fetch makes `main`
raise `RuntimeError("HN topstories failed: 500")` — no snapshot is produced
and the sibling categories are never processed, contradicting the claim that
an HN non-200 does not abort the others.  The second conjunct shows the same
world succeeds end-to-end once the HN endpoint returns 200, so the abort is
caused by the HN failure alone. -/
theorem C1_counterexample :
    genMain (fun _ => []) c1EnvDown ⟨⟨2026, 2, 16⟩, 0⟩ =
      Except.error (S "HN topstories failed: 500") ∧
    (genMain (fun _ => []) c1EnvOk ⟨⟨2026, 2, 16⟩, 0⟩).isOk = true := by
  refine ⟨rfl, by decide⟩

/-- C1 (amended): per-source failure isolation holds for the subreddit
fetches (a non-200 status or malformed XML is recorded in that subreddit's
result envelope with empty entries and no exception), for the comment
enrichments (any Algolia failure degrades to an empty comment list), for the
anti-bubble feeds, and for a Readwise HTTP failure (recorded as an
`http_<status>` envelope); under those conditions `main` produces a snapshot
whenever the HN top-stories endpoint answers 200 with well-formed JSON, the
HN items that answer 200 are well-formed, and the Readwise pages parse — but
a non-200 HN top-stories response raises `RuntimeError` across the pipeline
boundary and aborts the whole run. -/
theorem C1_theorem :
    (∀ (H : L → L) (env : GenEnv) (now : PyDateTime),
      env.hnTopStatus = 200 →
      (∃ ids, env.hnTopBody = some ids) →
      (∀ iid : Nat, (env.hnItem iid).1 = 200 → (env.hnItem iid).2 ≠ none) →
      (∀ url : L, (env.readwisePage url).2 ≠ none) →
      ∃ snap, genMain H env now = Except.ok snap) ∧
    (∀ (env : GenEnv) (now : PyDateTime) (H : L → L),
      env.hnTopStatus ≠ 200 →
      genMain H env now =
        Except.error (S "HN topstories failed: " ++ natToStr env.hnTopStatus)) ∧
    (∀ (env : GenEnv) (sub : L) (st desired mf : Nat),
      env.reddit sub = RedditFetch.badStatus st →
      fetch_reddit_sub_rss env sub desired mf =
        ⟨sub, st, some (S "HTTP " ++ natToStr st), [], none⟩) ∧
    (∀ (env : GenEnv) (sub msg : L) (desired mf : Nat),
      env.reddit sub = RedditFetch.parseError msg →
      fetch_reddit_sub_rss env sub desired mf =
        ⟨sub, 200, some (S "parse_error: " ++ msg), [], none⟩) ∧
    (∀ (env : GenEnv) (iid n : Nat),
      env.algolia iid = none → fetch_hn_top_comments_algolia env iid n = []) ∧
    (∀ (env : GenEnv) (rawToken : L),
      env.readwiseTokenFile = some rawToken → pyStripWS rawToken ≠ [] →
      (env.readwisePage
        (S "https://readwise.io/api/v2/highlights/?page_size=100&updated__gt=" ++
          env.readwiseSinceQuoted)).1 ≠ 200 →
      fetch_readwise_recent env 2000 =
        Except.ok ⟨S "http_" ++ natToStr
          (env.readwisePage
            (S "https://readwise.io/api/v2/highlights/?page_size=100&updated__gt=" ++
              env.readwiseSinceQuoted)).1, [], none⟩) := by
  refine ⟨?_, ?_, ?_, ?_, ?_, ?_⟩
  · intro H env now hst ⟨ids, hids⟩ hItems hPages
    obtain ⟨l, hl⟩ := hnItemsLoop_ok env hItems (ids.take 5)
    have hhn : fetch_hn_top env 5 = Except.ok l := by
      simp [fetch_hn_top, hst, hids, hl]
    obtain ⟨rw, hrw⟩ := fetch_readwise_ok env hPages
    cases hg : genMain H env now with
    | error e =>
        exfalso
        simp only [genMain, hhn, hrw] at hg
        exact Except.noConfusion hg
    | ok snap => exact ⟨snap, rfl⟩
  · intro env now H hst
    simp [genMain, fetch_hn_top, hst]
  · intro env sub st desired mf h
    simp [fetch_reddit_sub_rss, h]
  · intro env sub msg desired mf h
    simp [fetch_reddit_sub_rss, h]
  · intro env iid n h
    simp [fetch_hn_top_comments_algolia, h]
  · intro env rawToken htok hne hst
    have hloop : readwiseLoop env 2000 50
        (some (S "https://readwise.io/api/v2/highlights/?page_size=100&updated__gt=" ++
          env.readwiseSinceQuoted)) [] =
        RwLoopOut.httpFail
          (env.readwisePage
            (S "https://readwise.io/api/v2/highlights/?page_size=100&updated__gt=" ++
              env.readwiseSinceQuoted)).1 [] := by
      simp [readwiseLoop, hst]
    simp [fetch_readwise_recent, htok, hne, hloop]

/-- C1 witness: the healthy-HN world succeeds end-to-end even though the
`whoop` subreddit returns HTTP 503, whose failure is recorded in its own
envelope. -/
theorem C1_theorem_witness :
    (∃ snap, genMain (fun _ => []) c1EnvOk ⟨⟨2026, 2, 16⟩, 0⟩ = Except.ok snap) ∧
    fetch_reddit_sub_rss c1EnvOk (S "whoop") 3 40 =
      ⟨S "whoop", 503, some (S "HTTP " ++ natToStr 503), [], none⟩ := by
  constructor
  · exact C1_theorem.1 (fun _ => []) c1EnvOk ⟨⟨2026, 2, 16⟩, 0⟩ rfl ⟨[101], rfl⟩
      (fun iid h => by simp [c1EnvOk]) (fun url => by simp [c1EnvOk])
  · refine C1_theorem.2.2.1 c1EnvOk (S "whoop") 503 3 40 ?_
    simp [c1EnvOk]

/-- C6 (code defect): the Text Normalizer is not idempotent.  On the fragment
`&amp;amp;` one application yields `&amp;` and a second application yields
`&` — the unconditional `html.unescape` pass decodes one more entity layer on
every application, so `toPlainText(toPlainText(f)) ≠ toPlainText(f)`,
contradicting the spec's idempotence property. -/
theorem C6_theorem :
    html_to_text (S "&amp;amp;") = S "&amp;" ∧
    html_to_text (html_to_text (S "&amp;amp;")) = S "&" ∧
    html_to_text (html_to_text (S "&amp;amp;")) ≠ html_to_text (S "&amp;amp;") :=
  ⟨by decide, by decide, by decide⟩

/-- C10 counterexample: the defaulted-to-now entry does NOT always sort as
the newest candidate.  With a sibling channel serving a future-dated video,
the selection sorts the future-dated video first and the defaulted video
second, refuting the claim's "sorts as the newest candidate". -/
theorem C10_counterexample :
    pick_youtube_videos c10Env 1000000 5 =
      [⟨S "Huberman Lab", S "Future video", S "https://youtu.be/f1", 1000100⟩,
       ⟨S "Peter Attia MD", S "Undated video", S "https://youtu.be/u1", 1000000⟩] ∧
    (pick_youtube_videos c10Env 1000000 5).head? ≠
      some ⟨S "Peter Attia MD", S "Undated video", S "https://youtu.be/u1", 1000000⟩ := by
  constructor
  · decide
  · decide

/-- C10 (amended): an entry whose `published` field is missing or fails to
parse gets the fetch-time clock as its publish time; whenever the fetch clock
is at or after the pick timestamp it therefore satisfies every nonnegative
recency-window filter, survives the 14/30-day widening stage (it is never
excluded for being stale), and the descending sort places it ahead of every
candidate with a strictly earlier publish time — though not necessarily ahead
of future-dated candidates. -/
theorem C10_theorem :
    (∀ (env : YtEnv) (cid name : L) (mi : Nat) (e : YtRawEntry),
      e ∈ (env.feedEntries cid).take mi → e.published = none →
      pyStripWS e.title ≠ [] → pyStripWS e.link ≠ [] →
      (⟨name, pyStripWS e.title, pyStripWS e.link, env.fetchNow⟩ : YtVideo) ∈
        fetch_channel_rss_videos env cid name mi) ∧
    (∀ (l : List YtVideo) (now : Int) (days : Nat) (v : YtVideo),
      v ∈ l → now ≤ v.published → v ∈ filter_days l now days) ∧
    (∀ (env : YtEnv) (now : Int) (v : YtVideo),
      v ∈ ytCandidates env → now ≤ v.published →
      v ∈ (if (filter_days (ytCandidates env) now 14).length < 3
           then filter_days (ytCandidates env) now 30
           else filter_days (ytCandidates env) now 14)) ∧
    (∀ l : List YtVideo,
      (pySorted (fun a b => decide (b.published < a.published)) l).Pairwise
        (fun x y => y.published ≤ x.published)) := by
  have hfil : ∀ (l : List YtVideo) (now : Int) (days : Nat) (v : YtVideo),
      v ∈ l → now ≤ v.published → v ∈ filter_days l now days := by
    intro l now days v hv hle
    refine List.mem_filter.mpr ⟨hv, ?_⟩
    have hd : (0 : Int) ≤ (days : Int) * 86400 := by positivity
    simp only [decide_eq_true_eq]
    omega
  refine ⟨?_, hfil, ?_, ?_⟩
  · intro env cid name mi e he hp ht hl
    refine List.mem_filterMap.mpr ⟨e, he, ?_⟩
    simp only [hp, ht, hl, Option.getD, if_pos]
    simp [ht, hl]
  · intro env now v hv hle
    by_cases h14 : (filter_days (ytCandidates env) now 14).length < 3
    · simpa [h14] using hfil (ytCandidates env) now 30 v hv hle
    · simpa [h14] using hfil (ytCandidates env) now 14 v hv hle
  · intro l
    have hpw := pySorted_pairwise (fun a b => decide (b.published < a.published))
      (fun x y h => by
        simp only [decide_eq_true_eq] at h
        simp only [decide_eq_false_iff_not]
        omega)
      (fun x y z h1 h2 => by
        simp only [decide_eq_false_iff_not] at h1 h2
        simp only [decide_eq_false_iff_not]
        omega) l
    refine hpw.imp ?_
    intro x y h
    simp only [decide_eq_false_iff_not] at h
    omega

/-- C10 witness: in the two-channel world the undated Peter Attia entry is
fetched with the defaulted publish time and survives the recency stage of the
selection run at `now = fetchNow`. -/
theorem C10_theorem_witness :
    (⟨S "Peter Attia MD", S "Undated video", S "https://youtu.be/u1",
        (1000000 : Int)⟩ : YtVideo) ∈
      fetch_channel_rss_videos c10Env (S "UCB") (S "Peter Attia MD") 6 ∧
    (⟨S "Peter Attia MD", S "Undated video", S "https://youtu.be/u1",
        (1000000 : Int)⟩ : YtVideo) ∈
      (if (filter_days (ytCandidates c10Env) 1000000 14).length < 3
       then filter_days (ytCandidates c10Env) 1000000 30
       else filter_days (ytCandidates c10Env) 1000000 14) :=
  ⟨C10_theorem.1 c10Env (S "UCB") (S "Peter Attia MD") 6
      ⟨S "Undated video", S "https://youtu.be/u1", none⟩
      (by decide) rfl (by decide) (by decide),
    C10_theorem.2.2.1 c10Env 1000000
      ⟨S "Peter Attia MD", S "Undated video", S "https://youtu.be/u1", 1000000⟩
      (by decide) (by decide)⟩

/-- C8 counterexample: the claim's "exactly when" fails. For subreddit
`biohackers` and author `uuBiohackers`, the code strips the two leading `u`
characters (Python `lstrip("/u/")` is a character-set strip), normalizes to
`biohackers`, and returns true; under the claim's normalization (trim a
leading `/u/` marker) the author normalizes to `uubiohackers` and no test
fires, so the claimed predicate returns false. -/
theorem C8_counterexample :
    looks_like_official_account (S "uuBiohackers") (S "biohackers") = true ∧
    claimed_official_account (S "uuBiohackers") (S "biohackers") = false := by
  constructor <;> decide

/-- C8 (amended): the filter first normalizes the author by trimming ALL
leading `'/'` and `'u'` characters (Python `lstrip("/u/")` character-set
semantics) and lower-casing, and returns true exactly when the normalized
author is nonempty and equals `automoderator`, or contains `official`, or
equals the subreddit name optionally suffixed with `_official`/`official`;
for subreddit `biohackers` the authors `AutoModerator`, `_official` and
`Biohackers` are low-signal and `someuser123` is not. -/
theorem C8_theorem :
    (∀ author subreddit : L,
      looks_like_official_account author subreddit =
        amended_official_account author subreddit) ∧
    looks_like_official_account (S "AutoModerator") (S "biohackers") = true ∧
    looks_like_official_account (S "_official") (S "biohackers") = true ∧
    looks_like_official_account (S "Biohackers") (S "biohackers") = true ∧
    looks_like_official_account (S "someuser123") (S "biohackers") = false := by
  refine ⟨?_, by decide, by decide, by decide, by decide⟩
  intro author subreddit
  unfold looks_like_official_account amended_official_account
  set a := pyLower (lstripSet ['/', 'u'] (pyStripWS author)) with ha
  set s := pyLower subreddit with hs
  by_cases h0 : a = []
  · simp [h0]
  · by_cases h1 : a = S "automoderator"
    · simp [h0, h1]
    · by_cases h3 : a = s ∨ a = s ++ S "_official" ∨ a = s ++ S "official"
      · cases h2 : hasSub (S "official") a <;> simp [h0, h1, h2, h3]
      · cases h2 : hasSub (S "official") a <;> simp [h0, h1, h2, h3]

/-- C7 counterexample: on a 521-character input with no space (a single long
word) the truncation keeps the full 520-character cut and appends the
ellipsis, so the cut falls strictly inside a run of non-space characters —
the claim's "never cuts in the middle of a word" is false (positions 519 and
520 of the input both hold the word character `a`, and the output splits
between them). -/
theorem C7_counterexample :
    truncate_excerpt (List.replicate 521 'a') = List.replicate 520 'a' ++ ['…'] ∧
    (List.replicate 521 'a' : L).get? 519 = some 'a' ∧
    (List.replicate 521 'a' : L).get? 520 = some 'a' ∧
    520 < (List.replicate 521 'a' : L).length := by
  have htake : (List.replicate 521 'a' : L).take 520 = List.replicate 520 'a' := by
    rw [List.take_replicate]
    norm_num
  have hnos : ' ' ∉ (List.replicate 520 'a' : L) := by
    intro hmem
    have := List.eq_of_mem_replicate hmem
    simp at this
  refine ⟨?_, ?_, ?_, by simp⟩
  · rw [truncate_excerpt, if_pos (by simp), htake, rsplitSpaceHead_of_not_mem hnos]
  · simp [List.get?_eq_getElem?]
  · simp [List.get?_eq_getElem?]

/-- C7 (amended): for every excerpt longer than 520 characters the result is
at most 521 characters (520 plus one ellipsis character) and is produced by
cutting at 520 and backing up to the last space boundary before appending the
ellipsis; when the 520-character cut contains a space the kept text ends at a
space boundary of the original (never mid-word), while a cut containing no
space is kept whole — in that case the ellipsis may split a word. -/
theorem C7_theorem :
    ∀ txt : L, 520 < txt.length →
      (truncate_excerpt txt).length ≤ 521 ∧
      truncate_excerpt txt = rsplitSpaceHead (txt.take 520) ++ ['…'] ∧
      (' ' ∈ txt.take 520 →
        ∃ k, truncate_excerpt txt = txt.take k ++ ['…'] ∧ txt.get? k = some ' ') ∧
      (' ' ∉ txt.take 520 →
        truncate_excerpt txt = txt.take 520 ++ ['…']) := by
  intro txt h
  have heq : truncate_excerpt txt = rsplitSpaceHead (txt.take 520) ++ ['…'] := by
    rw [truncate_excerpt, if_pos h]
  refine ⟨?_, heq, ?_, ?_⟩
  · rw [heq]
    have h1 := rsplitSpaceHead_length (txt.take 520)
    have h2 : (txt.take 520).length ≤ 520 := by simp
    simp only [List.length_append, List.length_cons, List.length_nil]
    omega
  · intro hmem
    obtain ⟨k, hk1, hk2⟩ := rsplitSpaceHead_of_mem hmem
    have hklt : k < 520 := by
      obtain ⟨hlt, -⟩ := List.get?_eq_some.mp hk2
      have hlen : (txt.take 520).length ≤ 520 := by simp
      omega
    refine ⟨k, ?_, ?_⟩
    · rw [heq, hk1, List.take_take]
      congr 2
      omega
    · have h2 := hk2
      rw [List.get?_eq_getElem?, List.getElem?_take_of_lt hklt] at h2
      rw [List.get?_eq_getElem?]
      exact h2
  · intro hnos
    rw [heq, rsplitSpaceHead_of_not_mem hnos]

/-- C7 witness: a concrete 521-character excerpt with a space (300 word
characters, a space, 220 more word characters); the theorem applies and the
truncation backs up to that space. -/
theorem C7_theorem_witness :
    520 < (List.replicate 300 'a' ++ ' ' :: List.replicate 220 'b' : L).length ∧
    ((truncate_excerpt (List.replicate 300 'a' ++ ' ' :: List.replicate 220 'b')).length ≤ 521 ∧
      truncate_excerpt (List.replicate 300 'a' ++ ' ' :: List.replicate 220 'b') =
        rsplitSpaceHead ((List.replicate 300 'a' ++ ' ' :: List.replicate 220 'b' : L).take 520) ++ ['…'] ∧
      (' ' ∈ (List.replicate 300 'a' ++ ' ' :: List.replicate 220 'b' : L).take 520 →
        ∃ k, truncate_excerpt (List.replicate 300 'a' ++ ' ' :: List.replicate 220 'b') =
            (List.replicate 300 'a' ++ ' ' :: List.replicate 220 'b' : L).take k ++ ['…'] ∧
          (List.replicate 300 'a' ++ ' ' :: List.replicate 220 'b' : L).get? k = some ' ') ∧
      (' ' ∉ (List.replicate 300 'a' ++ ' ' :: List.replicate 220 'b' : L).take 520 →
        truncate_excerpt (List.replicate 300 'a' ++ ' ' :: List.replicate 220 'b') =
          (List.replicate 300 'a' ++ ' ' :: List.replicate 220 'b' : L).take 520 ++ ['…'])) :=
  ⟨by simp, C7_theorem (List.replicate 300 'a' ++ ' ' :: List.replicate 220 'b') (by simp)⟩

/-- C9: the persisted history is a suffix of the saved list of length
`min 500 n` (the most recent links, oldest evicted first) and never exceeds
500; loading returns at most the last 300 entries of a JSON list, and a
missing, corrupt, or non-list file loads as the empty history. -/
theorem C9_theorem :
    (∀ urls : List L,
      (save_antibubble_history urls).length ≤ 500 ∧
      save_antibubble_history urls =
        urls.drop (urls.length - 500) ∧
      urls.take (urls.length - 500) ++ save_antibubble_history urls = urls) ∧
    (∀ f : HistFile, (load_antibubble_history f 300).length ≤ 300) ∧
    (∀ xs : List L,
      load_antibubble_history (.jsonList xs) 300 = xs.drop (xs.length - 300) ∧
      xs.take (xs.length - 300) ++ load_antibubble_history (.jsonList xs) 300 = xs) ∧
    load_antibubble_history .missing 300 = [] ∧
    load_antibubble_history .corrupt 300 = [] ∧
    load_antibubble_history .notAList 300 = [] := by
  refine ⟨?_, ?_, ?_, rfl, rfl, rfl⟩
  · intro urls
    refine ⟨?_, rfl, List.take_append_drop _ _⟩
    simp only [save_antibubble_history, List.length_drop]
    omega
  · intro f
    cases f with
    | jsonList xs =>
        simp only [load_antibubble_history, List.length_drop]
        omega
    | missing => simp [load_antibubble_history]
    | corrupt => simp [load_antibubble_history]
    | notAList => simp [load_antibubble_history]
  · intro xs
    exact ⟨rfl, List.take_append_drop _ _⟩

end MorningBriefing
